import Mathlib

/-!
# Verification of the Bril-to-LLVM lowering pass (`bril-rs/brillvm/src/llvm.rs`)

This file gives a shallow embedding of `create_module_from_program` and its
helpers, and proves/refutes the frozen claims about it.

The source IR (`bril_rs` AST) is embedded as inductive types mirroring exactly
the shapes matched by `llvm.rs`.  The LLVM target is embedded symbolically: a
module is a list of named basic blocks holding lists of emitted operations,
and SSA values are identified by a counter.  The inkwell `Builder` is a state
record threaded explicitly through every helper; fallible Rust code (panics,
`unwrap`, `unimplemented!`, `assert!`) is embedded in `Except CompileErr`.
Floating point is modelled symbolically (rationals plus a NaN point), which is
faithful for everything the claims need: the choice of comparison predicate,
the compare/select structure, and ordered-comparison behaviour on NaN.
-/

deriving instance DecidableEq for Except

namespace Brillvm

/-! ## The Bril AST (`bril_rs` shapes used by `llvm.rs`) -/

/-- Bril types: `Type` in `bril_rs`. -/
inductive Ty where
  | int
  | bool
  | float
  | pointer (ty : Ty)
deriving DecidableEq, Repr

/-- Bril literals (`Literal`): the variants matched by `llvm.rs`.
The payload of a float literal is modelled symbolically by a rational. -/
inductive Lit where
  | int (i : Int)
  | bool (b : Bool)
  | float (q : ℚ)
deriving DecidableEq, Repr

/-- `ConstOps` has the single variant `Const`. -/
inductive ConstOps where
  | const
deriving DecidableEq, Repr

/-- `ValueOps`: exactly the value operations `build_instruction` matches. -/
inductive ValueOps where
  | add | sub | mul | div
  | eq | lt | gt | le | ge
  | not | and | or
  | call | id | phi | select
  | abs | smax | smin
  | shl | shr | bitand | neg
  | fadd | fsub | fmul | fdiv
  | feq | flt | fgt | fle | fge
  | fmax | fmin
  | alloc | load | ptradd
deriving DecidableEq, Repr

/-- `EffectOps`: exactly the effect operations `build_instruction` matches. -/
inductive EffectOps where
  | jump | branch | call | ret | print | nop | store | free
deriving DecidableEq, Repr

/-- Bril `Instruction`: the three shapes (Constant / Value / Effect). -/
inductive Instruction where
  | constant (dest : String) (op : ConstOps) (constType : Ty) (value : Lit)
  | value (args : List String) (dest : String) (funcs : List String)
      (labels : List String) (op : ValueOps) (opType : Ty)
  | effect (args : List String) (funcs : List String) (labels : List String)
      (op : EffectOps)
deriving DecidableEq, Repr

/-- Bril `Code`: label or instruction. -/
inductive Code where
  | label (label : String)
  | instruction (instr : Instruction)
deriving DecidableEq, Repr

/-- Bril function argument. -/
structure Argument where
  name : String
  argType : Ty
deriving DecidableEq, Repr

/-- Bril function. -/
structure Func where
  name : String
  args : List Argument
  instrs : List Code
  returnType : Option Ty
deriving DecidableEq, Repr

/-- Bril program. -/
structure Program where
  functions : List Func
deriving DecidableEq, Repr

/-! ## The LLVM target model -/

/-- LLVM types produced by `llvm_type_map` plus the auxiliary ones used by the
synthesized entry point (`i32`) and function types (`void` is `Option`). -/
inductive LLTy where
  | i64
  | i1
  | f64
  | f32dummy -- unused; keeps the type non-degenerate for future extension
  | i32
  | ptr
deriving DecidableEq, Repr

/-- `llvm_type_map`: Int → i64, Bool → i1, Float → f64, Pointer → opaque ptr. -/
def llvm_type_map : Ty → LLTy
  | .int => .i64
  | .bool => .i1
  | .float => .f64
  | .pointer _ => .ptr

/-- `unwrap_bril_ptrtype`: the pointee of a pointer type; panics otherwise. -/
def unwrap_bril_ptrtype : Ty → Option Ty
  | .pointer ty => some ty
  | _ => none

/-- An LLVM function type: parameter types and optional return type
(`build_functiontype`). -/
structure FnType where
  params : List LLTy
  ret : Option LLTy
deriving DecidableEq, Repr

/-- `build_functiontype`: Bril signature to LLVM function type. -/
def build_functiontype (args : List Ty) (returnTy : Option Ty) : FnType :=
  { params := args.map llvm_type_map
    ret := returnTy.map llvm_type_map }

/-- Symbolic 64-bit floats: a rational payload or NaN.  `ofInt i` marks a
float constant obtained by the Rust `*i as f64` conversion of an integer
literal, keeping the conversion visible to the theorems. -/
inductive FVal where
  | lit (q : ℚ)
  | ofInt (i : Int)
  | nan
deriving DecidableEq, Repr

/-- LLVM float-comparison predicates (inkwell `FloatPredicate`). -/
inductive FPred where
  | oeq | ogt | oge | olt | ole | one | ord
  | ueq | ugt | uge | ult | ule | une | uno
  | predFalse | predTrue
deriving DecidableEq, Repr

/-- Ordered predicates: those that require both operands to be non-NaN. -/
def FPred.isOrdered : FPred → Bool
  | .oeq | .ogt | .oge | .olt | .ole | .one | .ord => true
  | _ => false

/-- Integer-comparison predicates used by the lowering. -/
inductive IPred where
  | eq | slt | sgt | sle | sge
deriving DecidableEq, Repr

/-- Integer binary operations emitted by the lowering. -/
inductive IBin where
  | add | sub | mul | sdiv | and | or | shl | lshr
deriving DecidableEq, Repr

/-- Float binary arithmetic emitted by the lowering. -/
inductive FBin where
  | fadd | fsub | fmul | fdiv
deriving DecidableEq, Repr

/-- Symbolic LLVM values. -/
inductive Val where
  /-- result of a previously emitted instruction, by global counter -/
  | vreg (n : Nat)
  /-- the address of stack slot `n` (result of an `alloca`) -/
  | slotAddr (n : Nat)
  | intConst (i : Int)
  | boolConst (b : Bool)
  | floatConst (f : FVal)
  /-- the `i`-th incoming parameter of function `fn` -/
  | param (fn : String) (i : Nat)
deriving DecidableEq, Repr

/-- Emitted LLVM operations (the target IR). -/
inductive LLOp where
  | alloca (res : Nat) (ty : LLTy) (name : String)
  | store (ptr v : Val)
  | load (res : Nat) (ty : LLTy) (ptr : Val) (name : String)
  | ibin (res : Nat) (op : IBin) (a b : Val) (name : String)
  | ineg (res : Nat) (a : Val) (name : String)
  | inot (res : Nat) (a : Val) (name : String)
  | icmp (res : Nat) (p : IPred) (a b : Val) (name : String)
  | fbin (res : Nat) (op : FBin) (a b : Val) (name : String)
  | fcmp (res : Nat) (p : FPred) (a b : Val) (name : String)
  | select (res : Nat) (c a b : Val) (name : String)
  | call (res : Nat) (callee : String) (args : List Val) (name : String)
  | phi (res : Nat) (ty : LLTy) (incoming : List (Val × Nat)) (name : String)
  | intCast (res : Nat) (a : Val) (ty : LLTy) (name : String)
  | gep (res : Nat) (ty : LLTy) (base : Val) (idx : Val) (name : String)
  | arrayMalloc (res : Nat) (ty : LLTy) (count : Val) (name : String)
  | free (p : Val)
  | br (target : Nat)
  | condbr (c : Val) (tTgt fTgt : Nat)
  | ret (v : Option Val)
deriving DecidableEq, Repr

/-- Terminator operations: branches, jumps and returns. -/
def LLOp.isTerm : LLOp → Bool
  | .br _ => true
  | .condbr .. => true
  | .ret _ => true
  | _ => false

/-- A basic block of the target module: its name and its operations in
emission order. -/
structure BB where
  name : String
  ops : List LLOp
deriving DecidableEq, Repr

/-- Fatal error conditions (Rust panics / `unimplemented!` / `assert!`). -/
inductive CompileErr where
  /-- `Heap::add`: a variable redeclared at a different type -/
  | typeConflict (v : String)
  /-- `Heap::get` on an unknown variable -/
  | undeclaredVariable (v : String)
  /-- `module.get_function(..).unwrap()` failed -/
  | unresolvedCallee (f : String)
  /-- a phi reached `build_instruction` -/
  | misplacedPhi
  /-- the timing `assert!`: a print of the entry function is neither the
  last instruction nor immediately followed by a return -/
  | instrumentationPlacement
  /-- the final `assert!(added_timing)`: timing requested but never added -/
  | timingMissing
  /-- the `assert!(!block_map.is_empty())` when a function with a return
  type ends unterminated with an empty block registry -/
  | emptyBlockRegistry
  /-- any other panic (`unreachable!`, out-of-bounds indexing, …) -/
  | panicked (msg : String)
deriving DecidableEq, Repr

/-- The builder / module state threaded through the lowering.  It combines the
inkwell `Context`+`Module`+`Builder` (blocks, insertion point, declared
functions) with the `Fresh` counter of `llvm.rs`. -/
structure St where
  /-- `Fresh.count` -/
  freshCount : Nat
  /-- counter for SSA value identities -/
  nextVal : Nat
  /-- counter for stack-slot identities -/
  nextSlot : Nat
  /-- counter for basic-block identities -/
  nextBlock : Nat
  /-- all basic blocks of the module, keyed by identity -/
  blocks : List (Nat × BB)
  /-- the builder's insertion point -/
  cur : Nat
  /-- declared module functions: name and type (`module.get_function`) -/
  funcs : List (String × FnType)
  /-- whether the timing instrumentation has been emitted -/
  addedTiming : Bool
  /-- the `ticks_start` value captured at the entry of `_main` -/
  ticksStart : Option Val
deriving DecidableEq, Repr

/-- The operations of block `b` in a block list (empty for an unknown id). -/
def lookupOps (blocks : List (Nat × BB)) (b : Nat) : List LLOp :=
  match blocks.lookup b with
  | some bb => bb.ops
  | none => []

/-- The operations of block `b` (empty for an unknown block id). -/
def St.blockOps (s : St) (b : Nat) : List LLOp :=
  lookupOps s.blocks b

/-- Append an op to block `b` of a block list (inserting the block if it is
unknown, which does not happen on reachable paths: the builder is always
positioned at an existing block before anything is emitted). -/
def pushOp (blocks : List (Nat × BB)) (b : Nat) (op : LLOp) : List (Nat × BB) :=
  match blocks with
  | [] => [(b, ⟨"", [op]⟩)]
  | (b', bb) :: rest =>
      if b' = b then (b', ⟨bb.name, bb.ops ++ [op]⟩) :: rest
      else (b', bb) :: pushOp rest b op

/-- Emit one op at the builder's insertion point. -/
def St.emit (s : St) (op : LLOp) : St :=
  { s with blocks := pushOp s.blocks s.cur op }

/-- Emit a value-producing op; returns the produced SSA value. -/
def St.emitVal (s : St) (mk : Nat → LLOp) : Val × St :=
  let r := s.nextVal
  (Val.vreg r, { s with nextVal := r + 1, blocks := pushOp s.blocks s.cur (mk r) })

/-- `context.append_basic_block`: create a fresh empty block. -/
def St.appendBlock (s : St) (name : String) : Nat × St :=
  let b := s.nextBlock
  (b, { s with nextBlock := b + 1, blocks := s.blocks ++ [(b, ⟨name, []⟩)] })

/-- `builder.position_at_end`. -/
def St.positionAtEnd (s : St) (b : Nat) : St :=
  { s with cur := b }

/-- `Fresh::fresh_label`. -/
def St.freshLabel (s : St) : String × St :=
  ("label" ++ toString s.freshCount, { s with freshCount := s.freshCount + 1 })

/-- `Fresh::fresh_var`. -/
def St.freshVar (s : St) : String × St :=
  ("var" ++ toString s.freshCount, { s with freshCount := s.freshCount + 1 })

/-- `module.get_function`. -/
def St.getFunction (s : St) (name : String) : Option FnType :=
  s.funcs.lookup name

/-- `module.add_function`. -/
def St.addFunction (s : St) (name : String) (ty : FnType) : St :=
  { s with funcs := s.funcs ++ [(name, ty)] }

/-! ## Variable store (`Heap`) and block registry (`block_map`) -/

/-- `WrappedPointer`: a stack address paired with the Bril type it stores.
In `finish_phi` the address can also be a phi result, hence `ptr : Val`. -/
structure WrappedPointer where
  ty : Ty
  ptr : Val
deriving DecidableEq, Repr

/-- `WrappedPointer::new`: allocate a fresh stack slot of the mapped type
(emits an `alloca` at the insertion point). -/
def WrappedPointer.new (name : String) (ty : Ty) (s : St) : WrappedPointer × St :=
  let slot := s.nextSlot
  let s := { s with nextSlot := slot + 1 }
  let s := s.emit (.alloca slot (llvm_type_map ty) name)
  (⟨ty, .slotAddr slot⟩, s)

/-- The per-function variable store: Bril name to stack slot. -/
structure Heap where
  map : List (String × WrappedPointer)
deriving DecidableEq, Repr

/-- `Heap::new`. -/
def Heap.new : Heap := ⟨[]⟩

/-- `Heap::add`: register `name`; on first sight allocate a fresh slot, else
return the registered slot, failing fatally on a type conflict
(`unimplemented!` in the source). -/
def Heap.add (h : Heap) (name : String) (ty : Ty) (s : St) :
    Except CompileErr (WrappedPointer × Heap × St) :=
  match h.map.lookup name with
  | some wp =>
      if wp.ty = ty then .ok (wp, h, s) else .error (.typeConflict name)
  | none =>
      let q := WrappedPointer.new name ty s
      .ok (q.1, ⟨h.map ++ [(name, q.1)]⟩, q.2)

/-- `Heap::get`: fatal (`unwrap`) if the variable was never declared. -/
def Heap.get (h : Heap) (name : String) : Except CompileErr WrappedPointer :=
  match h.map.lookup name with
  | some wp => .ok wp
  | none => .error (.undeclaredVariable name)

/-- The per-function label registry. -/
abbrev BlockMap := List (String × Nat)

/-- `block_map_get`: return the block for a label, creating (and appending to
the function) an empty block on first reference. -/
def block_map_get (bm : BlockMap) (name : String) (s : St) :
    Nat × BlockMap × St :=
  match bm.lookup name with
  | some b => (b, bm, s)
  | none =>
      let b := (s.appendBlock name).1
      (b, bm ++ [(name, b)], (s.appendBlock name).2)

/-- `build_load`: load through a wrapped pointer at its mapped type. -/
def build_load (wp : WrappedPointer) (name : String) (s : St) : Val × St :=
  s.emitVal (fun r => .load r (llvm_type_map wp.ty) wp.ptr name)

/-- Load each argument variable in order, naming each load with a fresh name
(the `args.iter().map(...)` pattern inside `build_op`/`build_effect_op`). -/
def loadArgs (h : Heap) : List String → St → Except CompileErr (List Val × St)
  | [], s => .ok ([], s)
  | a :: rest, s => do
      let wp ← h.get a
      let (nm, s) := s.freshVar
      let (v, s) := build_load wp nm s
      let (vs, s') ← loadArgs h rest s
      .ok (v :: vs, s')

/-- `build_op`: load the arguments, apply the operation, store the result to
the destination slot.  The destination is resolved first, as in the source. -/
def build_op (h : Heap)
    (op : List Val → St → Except CompileErr (Val × St))
    (args : List String) (dest : String) (s : St) :
    Except CompileErr St := do
  let dwp ← h.get dest
  let (vs, s) ← loadArgs h args s
  let (v, s) ← op vs s
  .ok (s.emit (.store dwp.ptr v))

/-- `build_effect_op`: like `build_op` without a destination. -/
def build_effect_op (h : Heap)
    (op : List Val → St → Except CompileErr St)
    (args : List String) (s : St) :
    Except CompileErr St := do
  let (vs, s) ← loadArgs h args s
  op vs s

/-- Rust `v[0]`-style indexing inside the operation closures (panics when the
vector is too short). -/
def valAt (vs : List Val) (i : Nat) : Except CompileErr Val :=
  match vs.get? i with
  | some v => .ok v
  | none => .error (.panicked "index out of bounds")

/-- `module.get_function(name).unwrap()`. -/
def getFn (s : St) (name : String) : Except CompileErr FnType :=
  match s.getFunction name with
  | some t => .ok t
  | none => .error (.unresolvedCallee name)

/-! ## `build_instruction` -/

/-- The common shape of the integer binary cases of `build_instruction`:
take a fresh result name, then `build_op` with a closure emitting the one
operation. -/
def buildIBinCase (h : Heap) (tag : IBin) (args : List String) (dest : String)
    (s : St) : Except CompileErr St :=
  let retName := (s.freshVar).1
  let s1 := (s.freshVar).2
  build_op h (fun vs s => do
      let a ← valAt vs 0
      let b ← valAt vs 1
      .ok (s.emitVal (fun r => .ibin r tag a b retName)))
    args dest s1

/-- The common shape of the integer comparison cases. -/
def buildICmpCase (h : Heap) (p : IPred) (args : List String) (dest : String)
    (s : St) : Except CompileErr St :=
  let retName := (s.freshVar).1
  let s1 := (s.freshVar).2
  build_op h (fun vs s => do
      let a ← valAt vs 0
      let b ← valAt vs 1
      .ok (s.emitVal (fun r => .icmp r p a b retName)))
    args dest s1

/-- The common shape of the float arithmetic cases. -/
def buildFBinCase (h : Heap) (tag : FBin) (args : List String) (dest : String)
    (s : St) : Except CompileErr St :=
  let retName := (s.freshVar).1
  let s1 := (s.freshVar).2
  build_op h (fun vs s => do
      let a ← valAt vs 0
      let b ← valAt vs 1
      .ok (s.emitVal (fun r => .fbin r tag a b retName)))
    args dest s1

/-- The common shape of the float comparison cases (`build_float_compare`
with the given predicate). -/
def buildFCmpCase (h : Heap) (p : FPred) (args : List String) (dest : String)
    (s : St) : Except CompileErr St :=
  let retName := (s.freshVar).1
  let s1 := (s.freshVar).2
  build_op h (fun vs s => do
      let a ← valAt vs 0
      let b ← valAt vs 1
      .ok (s.emitVal (fun r => .fcmp r p a b retName)))
    args dest s1

/-- `fmax`/`fmin`: an explicit ordered compare feeding a select, not an
intrinsic call. -/
def buildFMinMaxCase (h : Heap) (p : FPred) (args : List String) (dest : String)
    (s : St) : Except CompileErr St :=
  let cmpName := (s.freshVar).1
  let s1 := (s.freshVar).2
  let selName := (s1.freshVar).1
  let s2 := (s1.freshVar).2
  build_op h (fun vs s => do
      let a ← valAt vs 0
      let b ← valAt vs 1
      let q := s.emitVal (fun r => .fcmp r p a b cmpName)
      .ok (q.2.emitVal (fun r => .select r q.1 a b selName)))
    args dest s2

/-- The `smax`/`smin`/`abs` style intrinsic call through `build_op`. -/
def buildIntrinsicCase (h : Heap) (intrinsic : String) (args : List String)
    (dest : String) (s : St) : Except CompileErr St :=
  let retName := (s.freshVar).1
  let s1 := (s.freshVar).2
  build_op h (fun vs s =>
      .ok (s.emitVal (fun r => .call r intrinsic vs retName)))
    args dest s1

/-- The print loop body: load each argument and dispatch on its tracked Bril
type, separating consecutive arguments with the separator primitive. -/
def printArgsLoop (h : Heap) (len : Nat) :
    List String → Nat → St → Except CompileErr St
  | [], _, s => .ok s
  | a :: rest, i, s => do
      let wp ← h.get a
      let (nm, s) := s.freshVar
      let (v, s) := build_load wp nm s
      let s ← match wp.ty with
        | .int =>
            .ok (s.emitVal (fun r => .call r "_bril_print_int" [v] "print_int")).2
        | .bool =>
            let (c, s) := s.emitVal (fun r => .intCast r v .i1 "bool_cast")
            .ok (s.emitVal (fun r => .call r "_bril_print_bool" [c] "print_bool")).2
        | .float =>
            .ok (s.emitVal (fun r => .call r "_bril_print_float" [v] "print_float")).2
        | .pointer _ => .error (.panicked "unreachable: print of a pointer")
      let s := if i < len - 1 then
          (s.emitVal (fun r => .call r "_bril_print_sep" [] "print_sep")).2
        else s
      printArgsLoop h len rest (i + 1) s

/-- `build_instruction`: turn one (non-phi) Bril instruction into LLVM
operations at the insertion point.  Cases appear in source order. -/
def build_instruction (i : Instruction) (h : Heap) (bm : BlockMap) (s : St) :
    Except CompileErr (BlockMap × St) :=
  match i with
  | .value args dest _ _ .abs _ => do
      -- Intrinsic::find("llvm.abs.i64") and its declaration always succeed
      let (retName, s) := s.freshVar
      -- the poison flag argument of llvm.abs
      let fals := Val.boolConst false
      let (vs, s) ← loadArgs h args s
      let (v, s) := s.emitVal (fun r => .call r "llvm.abs.i64" (vs ++ [fals]) retName)
      let dwp ← h.get dest
      .ok (bm, s.emit (.store dwp.ptr v))
  | .constant dest .const .float (.int iv) => do
      -- the special case casting an integer literal to a float constant
      let dwp ← h.get dest
      .ok (bm, s.emit (.store dwp.ptr (.floatConst (.ofInt iv))))
  | .constant dest .const _ (.int iv) => do
      let dwp ← h.get dest
      .ok (bm, s.emit (.store dwp.ptr (.intConst iv)))
  | .constant dest .const _ (.bool b) => do
      let dwp ← h.get dest
      .ok (bm, s.emit (.store dwp.ptr (.boolConst b)))
  | .constant dest .const _ (.float f) => do
      let dwp ← h.get dest
      .ok (bm, s.emit (.store dwp.ptr (.floatConst (.lit f))))
  | .value args dest _ _ .bitand _ => do
      let s ← buildIBinCase h .and args dest s
      .ok (bm, s)
  | .value args dest _ _ .add _ => do
      let s ← buildIBinCase h .add args dest s
      .ok (bm, s)
  | .value args dest _ _ .sub _ => do
      let s ← buildIBinCase h .sub args dest s
      .ok (bm, s)
  | .value args dest _ _ .mul _ => do
      let s ← buildIBinCase h .mul args dest s
      .ok (bm, s)
  | .value args dest _ _ .div _ => do
      let s ← buildIBinCase h .sdiv args dest s
      .ok (bm, s)
  | .value args dest _ _ .eq _ => do
      let s ← buildICmpCase h .eq args dest s
      .ok (bm, s)
  | .value args dest _ _ .lt _ => do
      let s ← buildICmpCase h .slt args dest s
      .ok (bm, s)
  | .value args dest _ _ .gt _ => do
      let s ← buildICmpCase h .sgt args dest s
      .ok (bm, s)
  | .value args dest _ _ .le _ => do
      let s ← buildICmpCase h .sle args dest s
      .ok (bm, s)
  | .value args dest _ _ .ge _ => do
      let s ← buildICmpCase h .sge args dest s
      .ok (bm, s)
  | .value args dest _ _ .neg _ => do
      let (retName, s) := s.freshVar
      let s ← build_op h (fun vs s => do
          let a ← valAt vs 0
          .ok (s.emitVal (fun r => .ineg r a retName))) args dest s
      .ok (bm, s)
  | .value args dest _ _ .not _ => do
      let (retName, s) := s.freshVar
      let s ← build_op h (fun vs s => do
          let a ← valAt vs 0
          .ok (s.emitVal (fun r => .inot r a retName))) args dest s
      .ok (bm, s)
  | .value args dest _ _ .and _ => do
      let s ← buildIBinCase h .and args dest s
      .ok (bm, s)
  | .value args dest _ _ .or _ => do
      let s ← buildIBinCase h .or args dest s
      .ok (bm, s)
  | .value args dest funcs _ .call _ => do
      let f0 ← match funcs.get? 0 with
        | some f0 => Except.ok f0
        | none => Except.error (.panicked "index out of bounds")
      let funcName := if f0 = "main" then "_main" else f0
      let fnty ← getFn s funcName
      let (retName, s) := s.freshVar
      let s ← build_op h (fun vs s =>
          let q := s.emitVal (fun r => .call r funcName vs retName)
          -- try_as_basic_value().left().unwrap(): a void callee panics here
          match fnty.ret with
          | some _ => .ok q
          | none => .error (.panicked "value call to void function")) args dest s
      .ok (bm, s)
  | .value args dest _ _ .id _ => do
      let s ← build_op h (fun vs s => do
          let v ← valAt vs 0
          .ok (v, s)) args dest s
      .ok (bm, s)
  | .value args dest _ _ .select _ => do
      let (retName, s) := s.freshVar
      let s ← build_op h (fun vs s => do
          let c ← valAt vs 0
          let a ← valAt vs 1
          let b ← valAt vs 2
          .ok (s.emitVal (fun r => .select r c a b retName))) args dest s
      .ok (bm, s)
  | .value args dest _ _ .smax _ => do
      let s ← buildIntrinsicCase h "llvm.smax.i64" args dest s
      .ok (bm, s)
  | .value args dest _ _ .smin _ => do
      let s ← buildIntrinsicCase h "llvm.smin.i64" args dest s
      .ok (bm, s)
  | .value args dest _ _ .shl _ => do
      let s ← buildIBinCase h .shl args dest s
      .ok (bm, s)
  | .value args dest _ _ .shr _ => do
      -- logical (zero-fill) right shift: `build_right_shift(.., false, ..)`
      let s ← buildIBinCase h .lshr args dest s
      .ok (bm, s)
  | .value args dest _ _ .fadd _ => do
      let s ← buildFBinCase h .fadd args dest s
      .ok (bm, s)
  | .value args dest _ _ .fsub _ => do
      let s ← buildFBinCase h .fsub args dest s
      .ok (bm, s)
  | .value args dest _ _ .fmul _ => do
      let s ← buildFBinCase h .fmul args dest s
      .ok (bm, s)
  | .value args dest _ _ .fdiv _ => do
      let s ← buildFBinCase h .fdiv args dest s
      .ok (bm, s)
  | .value args dest _ _ .feq _ => do
      let s ← buildFCmpCase h .oeq args dest s
      .ok (bm, s)
  | .value args dest _ _ .flt _ => do
      let s ← buildFCmpCase h .olt args dest s
      .ok (bm, s)
  | .value args dest _ _ .fgt _ => do
      let s ← buildFCmpCase h .ogt args dest s
      .ok (bm, s)
  | .value args dest _ _ .fle _ => do
      let s ← buildFCmpCase h .ole args dest s
      .ok (bm, s)
  | .value args dest _ _ .fge _ => do
      let s ← buildFCmpCase h .oge args dest s
      .ok (bm, s)
  | .value args dest _ _ .fmax _ => do
      let s ← buildFMinMaxCase h .ogt args dest s
      .ok (bm, s)
  | .value args dest _ _ .fmin _ => do
      let s ← buildFMinMaxCase h .olt args dest s
      .ok (bm, s)
  | .effect args _ _ .ret =>
      match args with
      | [] => .ok (bm, s.emit (.ret none))
      | a0 :: _ => do
          let wp ← h.get a0
          let (nm, s) := s.freshVar
          let (v, s) := build_load wp nm s
          .ok (bm, s.emit (.ret (some v)))
  | .effect args funcs _ .call => do
      let f0 ← match funcs.get? 0 with
        | some f0 => Except.ok f0
        | none => Except.error (.panicked "index out of bounds")
      let funcName := if f0 = "main" then "_main" else f0
      let _ ← getFn s funcName
      let (retName, s) := s.freshVar
      let s ← build_effect_op h (fun vs s =>
          .ok ((s.emitVal (fun r => .call r funcName vs retName)).2)) args s
      .ok (bm, s)
  | .effect _ _ _ .nop => .ok (bm, s)
  | .effect args _ _ .print => do
      let _ ← getFn s "_bril_print_int"
      let _ ← getFn s "_bril_print_bool"
      let _ ← getFn s "_bril_print_float"
      let _ ← getFn s "_bril_print_sep"
      let _ ← getFn s "_bril_print_end"
      let s ← printArgsLoop h args.length args 0 s
      .ok (bm, (s.emitVal (fun r => .call r "_bril_print_end" [] "print_end")).2)
  | .effect _ _ labels .jump => do
      let l0 ← match labels.get? 0 with
        | some l0 => Except.ok l0
        | none => Except.error (.panicked "index out of bounds")
      let (b, bm, s) := block_map_get bm l0 s
      .ok (bm, s.emit (.br b))
  | .effect args _ labels .branch => do
      let l0 ← match labels.get? 0 with
        | some l0 => Except.ok l0
        | none => Except.error (.panicked "index out of bounds")
      let l1 ← match labels.get? 1 with
        | some l1 => Except.ok l1
        | none => Except.error (.panicked "index out of bounds")
      let (tb, bm, s) := block_map_get bm l0 s
      let (fb, bm, s) := block_map_get bm l1 s
      let s ← build_effect_op h (fun vs s => do
          let c ← valAt vs 0
          .ok (s.emit (.condbr c tb fb))) args s
      .ok (bm, s)
  | .value _ _ _ _ .phi _ =>
      -- "Phi nodes should be handled by build_phi"
      .error .misplacedPhi
  | .value args dest _ _ .alloc opType => do
      let (allocName, s) := s.freshVar
      let ty ← match unwrap_bril_ptrtype opType with
        | some ty => Except.ok ty
        | none => Except.error (.panicked "unreachable: alloc of non-pointer")
      let s ← build_op h (fun vs s => do
          let c ← valAt vs 0
          .ok (s.emitVal (fun r => .arrayMalloc r (llvm_type_map ty) c allocName)))
        args dest s
      .ok (bm, s)
  | .value args dest _ _ .load opType => do
      let (nm, s) := s.freshVar
      let s ← build_op h (fun vs s => do
          let p ← valAt vs 0
          .ok (s.emitVal (fun r => .load r (llvm_type_map opType) p nm)))
        args dest s
      .ok (bm, s)
  | .value args dest _ _ .ptradd opType => do
      let (nm, s) := s.freshVar
      let ty ← match unwrap_bril_ptrtype opType with
        | some ty => Except.ok ty
        | none => Except.error (.panicked "unreachable: ptradd of non-pointer")
      let s ← build_op h (fun vs s => do
          let p ← valAt vs 0
          let idx ← valAt vs 1
          .ok (s.emitVal (fun r => .gep r (llvm_type_map ty) p idx nm)))
        args dest s
      .ok (bm, s)
  | .effect args _ _ .store => do
      let s ← build_effect_op h (fun vs s => do
          let p ← valAt vs 0
          let v ← valAt vs 1
          .ok (s.emit (.store p v))) args s
      .ok (bm, s)
  | .effect args _ _ .free => do
      let s ← build_effect_op h (fun vs s => do
          let p ← valAt vs 0
          .ok (s.emit (.free p))) args s
      .ok (bm, s)

/-! ## Phi handling and the function-lowering loop -/

/-- `is_terminating_instr`: branch, jump or return ends a block. -/
def is_terminating_instr : Option Instruction → Bool
  | some (.effect _ _ _ .branch) => true
  | some (.effect _ _ _ .jump) => true
  | some (.effect _ _ _ .ret) => true
  | _ => false

/-- `is_phi`. -/
def is_phi : Code → Bool
  | .instruction (.value _ _ _ _ .phi _) => true
  | _ => false

/-- Whether a `Code` item is an instruction (not a label). -/
def isInstructionCode : Code → Bool
  | .instruction _ => true
  | .label _ => false

/-- Whether a `Code` item is a `print` effect. -/
def isPrintCode : Code → Bool
  | .instruction (.effect _ _ _ .print) => true
  | _ => false

/-- Whether a `Code` item is a `ret` effect. -/
def isRetCode : Code → Bool
  | .instruction (.effect _ _ _ .ret) => true
  | _ => false

/-- Resolve each phi label through the block registry, in order. -/
def resolveLabels : List String → BlockMap → St → (List Nat × BlockMap × St)
  | [], bm, s => ([], bm, s)
  | l :: rest, bm, s =>
      let q := block_map_get bm l s
      let r := resolveLabels rest q.2.1 q.2.2
      (q.1 :: r.1, r.2.1, r.2.2)

/-- The stack addresses backing the phi's source operand variables. -/
def getPtrs (h : Heap) : List String → Except CompileErr (List Val)
  | [] => .ok []
  | a :: rest => do
      let wp ← h.get a
      let ps ← getPtrs h rest
      .ok (wp.ptr :: ps)

/-- `build_phi` (pass 1): create a pointer-typed phi whose incoming value for
each predecessor label is the *address* of the slot backing the corresponding
source operand (in the source the phi is created and `add_incoming` then
attaches the address/block pairs; here the op carries them directly). -/
def build_phi (i : Instruction) (h : Heap) (bm : BlockMap) (s : St) :
    Except CompileErr (Val × BlockMap × St) :=
  match i with
  | .value args _ _ labels .phi _ => do
      let (nm, s) := s.freshVar
      let (blocks, bm, s) := resolveLabels labels bm s
      let ptrs ← getPtrs h args
      let (v, s) := s.emitVal (fun r => .phi r .ptr (ptrs.zip blocks) nm)
      .ok (v, bm, s)
  | _ => .error (.panicked "unreachable: build_phi on non-phi")

/-- `finish_phi` (pass 2): load the value through the address the phi
selected and store it into the phi's destination slot. -/
def finish_phi (i : Instruction) (h : Heap) (p : Val) (s : St) :
    Except CompileErr St :=
  match i with
  | .value _ dest _ _ .phi opType => do
      let dwp ← h.get dest
      let (nm, s) := s.freshVar
      let (v, s) := build_load ⟨opType, p⟩ nm s
      .ok (s.emit (.store dwp.ptr v))
  | _ => .error (.panicked "unreachable: finish_phi on non-phi")

/-- Pass 1 over a phi run: `build_phi` each phi in order, collecting the
instruction/phi-value pairs (the `phi_ptrs` vector). -/
def buildPhis (h : Heap) : List Code → BlockMap → St →
    Except CompileErr (List (Instruction × Val) × BlockMap × St)
  | [], bm, s => .ok ([], bm, s)
  | .label _ :: _, _, _ => .error (.panicked "unreachable: label in a phi run")
  | .instruction i :: rest, bm, s => do
      let (v, bm, s) ← build_phi i h bm s
      let (pairs, bm, s) ← buildPhis h rest bm s
      .ok ((i, v) :: pairs, bm, s)

/-- Pass 2 over a phi run: `finish_phi` each collected pair in order. -/
def finishPhis (h : Heap) : List (Instruction × Val) → St → Except CompileErr St
  | [], s => .ok s
  | (i, v) :: rest, s => do
      let s ← finish_phi i h v s
      finishPhis h rest s

/-- The timing epilogue emitted when instrumentation is on and the current
item is a well-placed print of the entry function: read the end tick counter,
subtract the start value, and print the difference to the diagnostic
stream. -/
def emitTimingEnd (s : St) : Except CompileErr St := do
  let (ticksEndName, s) := s.freshVar
  let _ ← getFn s "_bril_get_ticks_end"
  let (ticksEnd, s) := s.emitVal
    (fun r => .call r "_bril_get_ticks_end" [] ticksEndName)
  let (ticksDiff, s) := s.freshVar
  let ts ← match s.ticksStart with
    | some ts => Except.ok ts
    | none => Except.error (.panicked "unwrap: ticks_start missing")
  let (diffVal, s) := s.emitVal (fun r => .ibin r .sub ticksEnd ts ticksDiff)
  let _ ← getFn s "_bril_eprintln_unsigned_int"
  let (_, s) := s.emitVal
    (fun r => .call r "_bril_eprintln_unsigned_int" [diffVal] "print_ticks")
  .ok { s with addedTiming := true }

/-- The instruction walk of `create_module_from_program` (the `while index <
instrs.len()` loop), structured on the remaining suffix with a fuel counter
equal to the suffix length (each iteration consumes at least one item, so the
fuel never runs out when it starts at the list length). -/
def lowerCodesAux (addTiming isMain : Bool) (h : Heap) :
    Nat → List Code → Option Instruction → BlockMap → St →
    Except CompileErr (Option Instruction × BlockMap × St)
  | _, [], last, bm, s => .ok (last, bm, s)
  | 0, _ :: _, _, _, _ => .error (.panicked "out of fuel")
  | fuel + 1, c :: rest, last, bm, s => do
      -- timing instrumentation check, before anything else, as in the source
      let s ← if addTiming && isMain && isPrintCode c then
          -- either this is the last instruction or the next one is a return
          if rest.isEmpty || (match rest.head? with
              | some c' => isRetCode c'
              | none => false) then
            emitTimingEnd s
          else
            .error .instrumentationPlacement
        else .ok s
      -- dead-code elision after a terminator
      if is_terminating_instr last && isInstructionCode c then
        lowerCodesAux addTiming isMain h fuel rest last bm s
      else
      if is_phi c then do
        -- the maximal consecutive phi run, lowered in two passes
        let run := (c :: rest).takeWhile is_phi
        let (pairs, bm, s) ← buildPhis h run bm s
        let s ← finishPhis h pairs s
        let last := match run.getLast? with
          | some (.instruction i) => some i
          | _ => last
        lowerCodesAux addTiming isMain h fuel
          ((c :: rest).dropWhile is_phi) last bm s
      else
        match c with
        | .label l =>
            let q := block_map_get bm l s
            let p :=
              if is_terminating_instr last then (q.2.1, q.2.2)
              else
                -- implicit fallthrough into the label's block
                let q2 := block_map_get q.2.1 l q.2.2
                (q2.2.1, q2.2.2.emit (.br q2.1))
            lowerCodesAux addTiming isMain h fuel rest none p.1
              (p.2.positionAtEnd q.1)
        | .instruction i => do
            let (bm, s) ← build_instruction i h bm s
            lowerCodesAux addTiming isMain h fuel rest (some i) bm s

/-- The instruction walk at its actual fuel. -/
def lowerCodes (addTiming isMain : Bool) (h : Heap) (instrs : List Code)
    (last : Option Instruction) (bm : BlockMap) (s : St) :
    Except CompileErr (Option Instruction × BlockMap × St) :=
  lowerCodesAux addTiming isMain h instrs.length instrs last bm s

/-! ## Function and program lowering -/

/-- The per-function data produced by the first phase of
`create_module_from_program` (the tuple collected into `funcs`). -/
structure FuncCtx where
  funcName : String
  instrs : List Code
  entry : Nat
  heap : Heap
  returnType : Option Ty
deriving DecidableEq, Repr

/-- Store each incoming parameter into a freshly declared stack slot. -/
def storeParams (funcName : String) :
    List Argument → Nat → Heap → St → Except CompileErr (Heap × St)
  | [], _, h, s => .ok (h, s)
  | arg :: rest, i, h, s => do
      let (wp, h, s) ← h.add arg.name arg.argType s
      let s := s.emit (.store wp.ptr (.param funcName i))
      storeParams funcName rest (i + 1) h s

/-- The pre-scan: declare the destination slot of every Constant or Value
instruction; labels and effects declare nothing. -/
def prescan : List Code → Heap → St → Except CompileErr (Heap × St)
  | [], h, s => .ok (h, s)
  | .label _ :: rest, h, s => prescan rest h s
  | .instruction (.effect ..) :: rest, h, s => prescan rest h s
  | .instruction (.constant dest _ constType _) :: rest, h, s => do
      let (_, h, s) ← h.add dest constType s
      prescan rest h s
  | .instruction (.value _ dest _ _ _ opType) :: rest, h, s => do
      let (_, h, s) ← h.add dest opType s
      prescan rest h s

/-- Phase 1 for one function: declare its signature (the source entry point
`main` under the internal name `_main`), create and position the entry
block, store the parameters, and pre-scan the destinations. -/
def declareFunction (f : Func) (s : St) : Except CompileErr (FuncCtx × St) := do
  let ty := build_functiontype (f.args.map (·.argType)) f.returnType
  let funcName := if f.name = "main" then "_main" else f.name
  let s := s.addFunction funcName ty
  -- `set_name` on the parameter values is cosmetic and not modelled
  let (lbl, s) := s.freshLabel
  let (blk, s) := s.appendBlock lbl
  let s := s.positionAtEnd blk
  let (h, s) ← storeParams funcName f.args 0 Heap.new s
  let (h, s) ← prescan f.instrs h s
  .ok (⟨funcName, f.instrs, blk, h, f.returnType⟩, s)

/-- Phase 1 for the whole program, collected before any body is lowered. -/
def declareFunctions : List Func → St → Except CompileErr (List FuncCtx × St)
  | [], s => .ok ([], s)
  | f :: rest, s => do
      let (ctx, s) ← declareFunction f s
      let (ctxs, s) ← declareFunctions rest s
      .ok (ctx :: ctxs, s)

/-- The walk of one function body with its timing prelude: position at the
entry block, read the start tick counter when instrumenting the entry
function, and run the instruction walk (nothing for an empty body). -/
def walkBody (addTiming : Bool) (ctx : FuncCtx) (s : St) :
    Except CompileErr (Option Instruction × BlockMap × St) :=
  let isMain := ctx.funcName = "_main"
  if ctx.instrs.isEmpty then
    .ok ((none : Option Instruction), ([] : BlockMap), s)
  else do
    let s := s.positionAtEnd ctx.entry
    -- when in main with timing on, read the start tick counter first
    let s ← if addTiming && isMain then do
        let (tsName, s) := s.freshVar
        let _ ← getFn s "_bril_get_ticks_start"
        let (ts, s) := s.emitVal
          (fun r => .call r "_bril_get_ticks_start" [] tsName)
        .ok { s with ticksStart := some ts }
      else .ok s
    lowerCodes addTiming isMain ctx.heap ctx.instrs none [] s

/-- Phase 2 for one function: walk the instructions, then make sure the
function is terminated — a bare return for a void function, otherwise an
unconditional jump to an arbitrary registered block (fatal `assert!` when
the registry is empty). -/
def buildBody (addTiming : Bool) (ctx : FuncCtx) (s : St) :
    Except CompileErr St := do
  let (last, bm, s) ← walkBody addTiming ctx s
  if is_terminating_instr last then .ok s
  else
    match ctx.returnType with
    | none => .ok (s.emit (.ret none))
    | some _ =>
        match bm with
        | [] => .error .emptyBlockRegistry
        | (_, b) :: _ => .ok (s.emit (.br b))

/-- Phase 2 for the whole program, in declaration order. -/
def buildBodies (addTiming : Bool) : List FuncCtx → St → Except CompileErr St
  | [], s => .ok s
  | ctx :: rest, s => do
      let s ← buildBody addTiming ctx s
      buildBodies addTiming rest s

/-- Modelled from the spec: the runtime library (external to the lowering
pass, which is the only code under `src/`) pre-declares, per target type,
typed print primitives, a separator and line-terminator primitive, typed
parse-from-text primitives, two tick-counting primitives and an
unsigned-diagnostic-print primitive, resolvable by fixed names before
lowering begins. -/
def runtimeFuncs : List (String × FnType) :=
  [("_bril_print_int", ⟨[.i64], none⟩),
   ("_bril_print_bool", ⟨[.i1], none⟩),
   ("_bril_print_float", ⟨[.f64], none⟩),
   ("_bril_print_sep", ⟨[], none⟩),
   ("_bril_print_end", ⟨[], none⟩),
   ("_bril_parse_int", ⟨[.ptr], some .i64⟩),
   ("_bril_parse_bool", ⟨[.ptr], some .i1⟩),
   ("_bril_parse_float", ⟨[.ptr], some .f64⟩),
   ("_bril_get_ticks", ⟨[], some .i64⟩),
   ("_bril_get_ticks_start", ⟨[], some .i64⟩),
   ("_bril_get_ticks_end", ⟨[], some .i64⟩),
   ("_bril_eprintln_unsigned_int", ⟨[.i64], none⟩)]

/-- The initial builder state over the runtime module. -/
def initSt : St :=
  { freshCount := 0, nextVal := 0, nextSlot := 0, nextBlock := 0,
    blocks := [], cur := 0, funcs := runtimeFuncs,
    addedTiming := false, ticksStart := none }

/-- The runtime parser primitive for an entry argument type, with the call
name used at its call site; `none` for the unreachable pointer case. -/
def parseCallFor : Ty → Option (String × String)
  | .int => some ("_bril_parse_int", "parse_int")
  | .bool => some ("_bril_parse_bool", "parse_bool")
  | .float => some ("_bril_parse_float", "parse_float")
  | .pointer _ => none

/-- For each declared argument of the designated entry function: declare its
slot, index `argv`, load the textual argument, parse it by type, store it. -/
def setupEntryArgs : List Argument → Nat → Heap → St →
    Except CompileErr (Heap × St)
  | [], _, h, s => .ok (h, s)
  | arg :: rest, i, h, s => do
      let (wp, h, s) ← h.add arg.name arg.argType s
      let (g, s) := s.emitVal (fun r =>
        .gep r .ptr (.param "main" 1) (.intConst (Int.ofNat (i + 1)))
          "calculate offset")
      let (argStr, s) := s.emitVal (fun r => .load r .ptr g "load arg")
      let pf ← match parseCallFor arg.argType with
        | some pf => Except.ok pf
        | none => Except.error (.panicked "unreachable: pointer entry argument")
      let (argV, s) := s.emitVal (fun r => .call r pf.1 [argStr] pf.2)
      let s := s.emit (.store wp.ptr argV)
      setupEntryArgs rest (i + 1) h s

/-- The synthesized process entry point: a function literally named `main`
taking `(argc, argv)`; when a lowered `_main` exists, parse each argument of
the source entry function, call `_main`, and always return zero. -/
def buildEntryPoint (functions : List Func) (s : St) : Except CompileErr St := do
  let entryTy : FnType := ⟨[.i32, .ptr], some .i32⟩
  let s := s.addFunction "main" entryTy
  -- argc/argv `set_name` is cosmetic
  let (lbl, s) := s.freshLabel
  let (blk, s) := s.appendBlock lbl
  let s := s.positionAtEnd blk
  let h := Heap.new
  let s ← match s.getFunction "_main" with
    | none => .ok s
    | some _ => do
        let mainFn ← match functions.find? (fun f => f.name = "main") with
          | some f => Except.ok f
          | none => Except.error (.panicked "unwrap: no source function main")
        let _ ← getFn s "_bril_parse_int"
        let _ ← getFn s "_bril_parse_bool"
        let _ ← getFn s "_bril_parse_float"
        let (h, s) ← setupEntryArgs mainFn.args 0 h s
        build_effect_op h (fun vs s =>
            .ok ((s.emitVal (fun r => .call r "_main" vs "call main")).2))
          (mainFn.args.map (·.name)) s
  .ok (s.emit (.ret (some (.intConst 0))))

/-- `create_module_from_program`: declare all functions, lower each body,
check the timing assertion, and synthesize the process entry point.  The
resulting module is the final builder state. -/
def create_module_from_program (prog : Program) (add_timing : Bool) :
    Except CompileErr St := do
  let (ctxs, s) ← declareFunctions prog.functions initSt
  let s ← buildBodies add_timing ctxs s
  let s ← if add_timing && !s.addedTiming then
      .error .timingMissing
    else .ok s
  buildEntryPoint prog.functions s

/-! ## Specification-side definitions used by the theorems -/

/-- Operation lists free of terminators. -/
def termFree (ops : List LLOp) : Bool := ops.all (fun op => !op.isTerm)

/-- A well-formed block: terminators occur at most in the last position. -/
def wfOps (ops : List LLOp) : Bool := termFree ops.dropLast

/-- Whether a lowering result is a module all of whose blocks are free of
operations after a terminator. -/
def moduleBlocksWf (r : Except CompileErr St) : Bool :=
  match r with
  | .ok s => s.blocks.all (fun p => wfOps p.2.ops)
  | .error _ => false

/-- The variable names on which lowering one instruction may call
`Heap::get`: the destination (for constants and values) and the argument
variables. -/
def referencedVars : Instruction → List String
  | .constant dest _ _ _ => [dest]
  | .value args dest _ _ _ _ => dest :: args
  | .effect args _ _ _ => args

/-- The labels defined by a code list, in order. -/
def labelsOf : List Code → List String
  | [] => []
  | .label l :: rest => l :: labelsOf rest
  | .instruction _ :: rest => labelsOf rest

/-- Every print effect in the list is either the last item or immediately
followed by a return (the per-print timing `assert!`). -/
def placedOk : List Code → Bool
  | [] => true
  | c :: rest =>
      (!isPrintCode c || rest.isEmpty ||
        (match rest.head? with
         | some c' => isRetCode c'
         | none => false)) && placedOk rest

/-- The list contains at least one print effect. -/
def hasPrint (l : List Code) : Bool := l.any isPrintCode

/-- The condition under which instrumented lowering of the entry function
passes both timing assertions. -/
def timingOk (l : List Code) : Bool := hasPrint l && placedOk l

/-- Numeric payload of a symbolic float, `none` for NaN. -/
def FVal.toRatQ : FVal → Option ℚ
  | .lit q => some q
  | .ofInt i => some (i : ℚ)
  | .nan => none

/-- Modelled from the target semantics: LLVM `fcmp` outcome.  Ordered
predicates require both operands to be non-NaN; unordered predicates hold
whenever either operand is NaN. -/
def evalFCmp (p : FPred) (x y : FVal) : Bool :=
  match x.toRatQ, y.toRatQ with
  | some a, some b =>
      match p with
      | .oeq => decide (a = b)
      | .ogt => decide (a > b)
      | .oge => decide (a ≥ b)
      | .olt => decide (a < b)
      | .ole => decide (a ≤ b)
      | .one => decide (a ≠ b)
      | .ord => true
      | .ueq => decide (a = b)
      | .ugt => decide (a > b)
      | .uge => decide (a ≥ b)
      | .ult => decide (a < b)
      | .ule => decide (a ≤ b)
      | .une => decide (a ≠ b)
      | .uno => false
      | .predFalse => false
      | .predTrue => true
  | _, _ =>
      match p with
      | .ueq | .ugt | .uge | .ult | .ule | .une | .uno | .predTrue => true
      | _ => false

/-- Modelled from the target semantics: the compare-then-select value
computed by the `fmax`/`fmin` lowering shape. -/
def compareSelectSem (p : FPred) (x y : FVal) : FVal :=
  if evalFCmp p x y then x else y

/-- `s'` results from `s` purely by emitting `ops` at the (unmoved)
insertion point: every other block keeps its operations, no functions are
declared, the block counter only grows, and the timing bookkeeping is
untouched. -/
structure Emits (s : St) (ops : List LLOp) (s' : St) : Prop where
  cur_eq : s'.cur = s.cur
  cur_ops : s'.blockOps s.cur = s.blockOps s.cur ++ ops
  other_ops : ∀ b, b ≠ s.cur → s'.blockOps b = s.blockOps b
  funcs_eq : s'.funcs = s.funcs
  nextBlock_mono : s.nextBlock ≤ s'.nextBlock
  keys_lt : (∀ p ∈ s.blocks, p.1 < s.nextBlock) → s.cur < s.nextBlock →
    ∀ p ∈ s'.blocks, p.1 < s'.nextBlock
  timing_eq : s'.addedTiming = s.addedTiming
  ticks_eq : s'.ticksStart = s.ticksStart

/-- All block identities of the module are below the block counter. -/
def St.keysLt (s : St) : Prop := ∀ p ∈ s.blocks, p.1 < s.nextBlock

/-- The insertion point is a real (counted) block. -/
def St.posOk (s : St) : Prop := s.cur < s.nextBlock

/-- Block-registry invariant: every registered block is counted, and no two
labels share a block. -/
def bmInv (bm : BlockMap) (s : St) : Prop :=
  (∀ e ∈ bm, e.2 < s.nextBlock) ∧ (bm.map Prod.snd).Nodup

/-- The registry grows by entries whose blocks are freshly created (hence
still empty afterwards), preserving the registry invariant. -/
def bmGrows (bm bm' : BlockMap) (s s' : St) : Prop :=
  (∃ ne, bm' = bm ++ ne ∧ ∀ e ∈ ne, s.nextBlock ≤ e.2 ∧ s'.blockOps e.2 = [])
  ∧ (bmInv bm s → bmInv bm' s')

/-- The emission shape of one lowered instruction: a terminator instruction
emits a single terminator last; anything else emits no terminator at all. -/
def opsShape (i : Instruction) (ops : List LLOp) : Prop :=
  if is_terminating_instr (some i) then
    ∃ pre t, ops = pre ++ [t] ∧ termFree pre = true ∧ t.isTerm = true
  else termFree ops = true

/-- Classification of the errors a lowering step can raise: never a timing
assertion, and an undeclared-variable failure only for a variable in `vars`
that is genuinely missing from the store. -/
def errSpec (h : Heap) (vars : List String) (e : CompileErr) : Prop :=
  e ≠ .instrumentationPlacement ∧ e ≠ .timingMissing ∧
  ∀ v, e = .undeclaredVariable v → v ∈ vars ∧ h.map.lookup v = none

/-- Load operations (the argument loads of `build_op`). -/
def isLoadOp : LLOp → Bool
  | .load .. => true
  | _ => false

/-- The destinations declared by the pre-scan: every Constant or Value
instruction's destination, in order. -/
def destsOf : List Code → List String
  | [] => []
  | .instruction (.constant dest ..) :: rest => dest :: destsOf rest
  | .instruction (.value _ dest ..) :: rest => dest :: destsOf rest
  | _ :: rest => destsOf rest

/-- A pointer-typed phi node all of whose incoming values are registered
stack addresses (never loaded values). -/
def phiOpOk (h : Heap) (op : LLOp) : Prop :=
  ∃ r inc nm, op = .phi r .ptr inc nm ∧
    ∀ q ∈ inc, ∃ v wp, h.map.lookup v = some wp ∧ q.1 = wp.ptr

/-- A load or a store (the shape of the phi run's second pass). -/
def loadOrStoreOp (op : LLOp) : Prop :=
  (∃ r t p nm, op = .load r t p nm) ∨ ∃ p v, op = .store p v

/-- All variables `Heap::get` may be called on while lowering a code
list. -/
def referencedVarsOfCodes : List Code → List String
  | [] => []
  | .label _ :: rest => referencedVarsOfCodes rest
  | .instruction i :: rest => referencedVars i ++ referencedVarsOfCodes rest

/-! ### Concrete example programs for witnesses and counterexamples -/

/-- `main` ending `ret; print x`: timing instrumentation emits the tick
epilogue after the terminator before the dead print is skipped. -/
def egTimingDead : Program :=
  ⟨[⟨"main", [], [
      .instruction (.constant "x" .const .int (.int 1)),
      .instruction (.effect [] [] [] .ret),
      .instruction (.effect ["x"] [] [] .print)], none⟩]⟩

/-- `main` whose final effect is a print, but with an earlier print that is
neither last nor followed by a return. -/
def egEarlyPrint : Program :=
  ⟨[⟨"main", [], [
      .instruction (.constant "a" .const .int (.int 1)),
      .instruction (.constant "b" .const .int (.int 2)),
      .instruction (.effect ["a"] [] [] .print),
      .instruction (.effect ["b"] [] [] .print)], none⟩]⟩

/-- A well-placed instrumented entry function (print then return). -/
def egGoodTiming : Program :=
  ⟨[⟨"main", [], [
      .instruction (.constant "a" .const .int (.int 1)),
      .instruction (.effect ["a"] [] [] .print),
      .instruction (.effect [] [] [] .ret)], none⟩]⟩

/-- A function with a return type whose body has no control flow: its block
registry stays empty, so the unterminated-end path hits the registry
`assert!` instead of emitting a jump. -/
def egNoJumpTarget : Program :=
  ⟨[⟨"main", [], [
      .instruction (.constant "x" .const .int (.int 5))], some .int⟩]⟩

/-- A function whose referenced variables are all covered by its argument
names and instruction destinations, for exercising the pre-scan claim. -/
def egC9 : Func :=
  ⟨"f", [⟨"x", .int⟩],
    [.instruction (.constant "y" .const .int (.int 1)),
     .instruction (.value ["x", "y"] "z" [] [] .add .int),
     .instruction (.effect ["z"] [] [] .print)], none⟩

/-- The entry function of `egGoodTiming`. -/
def gMain : Func :=
  ⟨"main", [],
    [.instruction (.constant "a" .const .int (.int 1)),
     .instruction (.effect ["a"] [] [] .print),
     .instruction (.effect [] [] [] .ret)], none⟩

/-- The per-step well-formedness invariant of the instruction walk: every
block is well formed, and while the current block is unterminated it is
free of terminators altogether. -/
def wfSt (last : Option Instruction) (s : St) : Prop :=
  (∀ b, wfOps (s.blockOps b) = true) ∧
  (is_terminating_instr last = false → termFree (s.blockOps s.cur) = true)

/-- Registered blocks for labels still to come are empty and are not the
insertion point. -/
def labelsClear (codes : List Code) (bm : BlockMap) (s : St) : Prop :=
  ∀ l ∈ labelsOf codes, ∀ p ∈ bm, p.1 = l →
    s.blockOps p.2 = [] ∧ p.2 ≠ s.cur

/-- A store with four registered slots, for running a concrete phi run. -/
def hC1 : Heap :=
  ⟨[("x", ⟨.int, .slotAddr 0⟩), ("y", ⟨.int, .slotAddr 1⟩),
    ("d", ⟨.int, .slotAddr 2⟩), ("e", ⟨.int, .slotAddr 3⟩)]⟩

/-- A run of two consecutive phis. -/
def runC1 : List Code :=
  [.instruction (.value ["x", "y"] "d" [] ["L1", "L2"] .phi .int),
   .instruction (.value ["y", "x"] "e" [] ["L1", "L2"] .phi .int)]

/-! # Theorems -/

/-! ## Blocks, emission and the `Emits` relation -/

theorem lookupOps_pushOp_self (blocks : List (Nat × BB)) (c : Nat) (op : LLOp) :
    lookupOps (pushOp blocks c op) c = lookupOps blocks c ++ [op] := by
  induction blocks with
  | nil => simp [pushOp, lookupOps, List.lookup_cons]
  | cons p rest ih =>
      obtain ⟨b', bb⟩ := p
      by_cases hb : b' = c
      · subst hb
        simp [pushOp, lookupOps, List.lookup_cons]
      · simpa [pushOp, lookupOps, List.lookup_cons, hb,
          beq_false_of_ne (Ne.symm hb)] using ih

theorem lookupOps_pushOp_ne (blocks : List (Nat × BB)) (c : Nat) (op : LLOp)
    (b : Nat) (hb : b ≠ c) :
    lookupOps (pushOp blocks c op) b = lookupOps blocks b := by
  induction blocks with
  | nil => simp [pushOp, lookupOps, List.lookup_cons, beq_false_of_ne hb]
  | cons p rest ih =>
      obtain ⟨b', bb⟩ := p
      by_cases hb' : b' = c
      · subst hb'
        simp [pushOp, lookupOps, List.lookup_cons, beq_false_of_ne hb]
      · by_cases hbb : b = b'
        · subst hbb
          simp [pushOp, lookupOps, List.lookup_cons, hb']
        · simpa [pushOp, lookupOps, List.lookup_cons, hb',
            beq_false_of_ne hbb] using ih

theorem pushOp_keys (blocks : List (Nat × BB)) (c : Nat) (op : LLOp) :
    (pushOp blocks c op).map Prod.fst = blocks.map Prod.fst ∨
      (pushOp blocks c op).map Prod.fst = blocks.map Prod.fst ++ [c] := by
  induction blocks with
  | nil => right; simp [pushOp]
  | cons q rest ih =>
      obtain ⟨b', bb⟩ := q
      by_cases hb : b' = c
      · left; simp [pushOp, hb]
      · rcases ih with h | h
        · left; simp [pushOp, hb, h]
        · right; simp [pushOp, hb, h]

theorem pushOp_keys_mem (blocks : List (Nat × BB)) (c : Nat) (op : LLOp) :
    ∀ p ∈ pushOp blocks c op, p.1 = c ∨ p.1 ∈ blocks.map Prod.fst := by
  intro p hp
  have hm : p.1 ∈ (pushOp blocks c op).map Prod.fst := List.mem_map_of_mem _ hp
  rcases pushOp_keys blocks c op with h | h
  · rw [h] at hm; exact Or.inr hm
  · rw [h] at hm
    rcases List.mem_append.mp hm with hm | hm
    · exact Or.inr hm
    · simp at hm; exact Or.inl hm

theorem lookupOps_append_empty (blocks : List (Nat × BB)) (nb : Nat)
    (name : String) (b : Nat) :
    lookupOps (blocks ++ [(nb, ⟨name, []⟩)]) b = lookupOps blocks b := by
  induction blocks with
  | nil =>
      by_cases hb : b = nb
      · subst hb; simp [lookupOps, List.lookup_cons]
      · simp [lookupOps, List.lookup_cons, beq_false_of_ne hb]
  | cons q rest ih =>
      obtain ⟨b', bb⟩ := q
      by_cases hb : b = b'
      · subst hb
        simp [lookupOps, List.lookup_cons]
      · simpa [lookupOps, List.lookup_cons, beq_false_of_ne hb] using ih

theorem emitsNil (s : St) : Emits s [] s :=
  ⟨rfl, by simp, fun _ _ => rfl, rfl, le_refl _, fun h _ => h, rfl, rfl⟩

theorem Emits.trans {s s1 s2 : St} {xs ys : List LLOp}
    (h1 : Emits s xs s1) (h2 : Emits s1 ys s2) : Emits s (xs ++ ys) s2 := by
  refine ⟨h2.cur_eq.trans h1.cur_eq, ?_, ?_, h2.funcs_eq.trans h1.funcs_eq,
    le_trans h1.nextBlock_mono h2.nextBlock_mono, ?_,
    h2.timing_eq.trans h1.timing_eq, h2.ticks_eq.trans h1.ticks_eq⟩
  · have := h2.cur_ops
    rw [h1.cur_eq] at this
    rw [this, h1.cur_ops, List.append_assoc]
  · intro b hb
    have hb1 : b ≠ s1.cur := by rw [h1.cur_eq]; exact hb
    rw [← h1.cur_eq] at hb
    have := h2.other_ops b hb1
    rw [this, h1.other_ops b (by rw [h1.cur_eq] at hb1; exact hb1)]
  · intro hk hc
    have hk1 := h1.keys_lt hk hc
    have hc1 : s1.cur < s1.nextBlock := by
      rw [h1.cur_eq]; exact lt_of_lt_of_le hc h1.nextBlock_mono
    exact h2.keys_lt hk1 hc1

theorem emits_emit (s : St) (op : LLOp) : Emits s [op] (s.emit op) := by
  refine ⟨rfl, ?_, ?_, rfl, le_refl _, ?_, rfl, rfl⟩
  · exact lookupOps_pushOp_self s.blocks s.cur op
  · exact fun b hb => lookupOps_pushOp_ne s.blocks s.cur op b hb
  · intro hk hc p hp
    rcases pushOp_keys_mem s.blocks s.cur op p hp with h | h
    · simpa [St.emit, h] using hc
    · simp only [List.mem_map] at h
      obtain ⟨q, hq, hq1⟩ := h
      have := hk q hq
      simpa [St.emit, ← hq1] using this

theorem emits_emitVal (s : St) (mk : Nat → LLOp) :
    (s.emitVal mk).1 = .vreg s.nextVal ∧
      Emits s [mk s.nextVal] (s.emitVal mk).2 := by
  refine ⟨rfl, ⟨rfl, ?_, ?_, rfl, le_refl _, ?_, rfl, rfl⟩⟩
  · exact lookupOps_pushOp_self s.blocks s.cur (mk s.nextVal)
  · exact fun b hb => lookupOps_pushOp_ne s.blocks s.cur (mk s.nextVal) b hb
  · intro hk hc p hp
    rcases pushOp_keys_mem s.blocks s.cur (mk s.nextVal) p hp with h | h
    · simpa [St.emitVal, h] using hc
    · simp only [List.mem_map] at h
      obtain ⟨q, hq, hq1⟩ := h
      have := hk q hq
      simpa [St.emitVal, ← hq1] using this

theorem emits_freshVar (s : St) : Emits s [] (s.freshVar).2 :=
  ⟨rfl, by simp [St.freshVar, St.blockOps], fun _ _ => rfl, rfl, le_refl _,
    fun h hc => h, rfl, rfl⟩

theorem emits_freshLabel (s : St) : Emits s [] (s.freshLabel).2 :=
  ⟨rfl, by simp [St.freshLabel, St.blockOps], fun _ _ => rfl, rfl, le_refl _,
    fun h hc => h, rfl, rfl⟩

theorem emits_build_load (wp : WrappedPointer) (nm : String) (s : St) :
    (build_load wp nm s).1 = .vreg s.nextVal ∧
      Emits s [.load s.nextVal (llvm_type_map wp.ty) wp.ptr nm]
        (build_load wp nm s).2 :=
  emits_emitVal s _

theorem lookup_eq_none_of_keys {α β : Type} [BEq α] [LawfulBEq α]
    (l : List (α × β)) (k : α) (h : ∀ p ∈ l, p.1 ≠ k) : l.lookup k = none := by
  induction l with
  | nil => rfl
  | cons q rest ih =>
      have hne : q.1 ≠ k := h q (by simp)
      obtain ⟨a, b⟩ := q
      simp only [List.lookup_cons, beq_false_of_ne (Ne.symm hne)]
      exact ih fun p hp => h p (by simp [hp])

theorem lookup_append_some {α β : Type} [BEq α] [LawfulBEq α]
    (l l' : List (α × β)) (k : α) (w : β) (h : l.lookup k = some w) :
    (l ++ l').lookup k = some w := by
  induction l with
  | nil => simp [List.lookup] at h
  | cons q rest ih =>
      obtain ⟨a, b⟩ := q
      by_cases hk : k = a
      · subst hk
        simpa [List.lookup_cons] using h
      · simp only [List.lookup_cons, beq_false_of_ne hk] at h ⊢
        simpa [List.lookup_cons, beq_false_of_ne hk] using ih h

theorem emits_appendBlock (s : St) (name : String) :
    (s.appendBlock name).1 = s.nextBlock ∧
      (s.appendBlock name).2.nextBlock = s.nextBlock + 1 ∧
      Emits s [] (s.appendBlock name).2 := by
  refine ⟨rfl, rfl, ⟨rfl, ?_, ?_, rfl, by simp [St.appendBlock], ?_, rfl, rfl⟩⟩
  · simpa [St.appendBlock, St.blockOps] using
      (lookupOps_append_empty s.blocks s.nextBlock name s.cur).symm ▸ (by
        simp [St.blockOps, St.appendBlock, lookupOps_append_empty])
  · intro b _
    simp [St.appendBlock, St.blockOps, lookupOps_append_empty]
  · intro hk _ p hp
    simp only [St.appendBlock, List.mem_append, List.mem_singleton] at hp
    rcases hp with hp | hp
    · exact lt_trans (hk p hp) (by simp [St.appendBlock])
    · subst hp; simp [St.appendBlock]

/-! ## Registry and heap lemmas -/

theorem block_map_get_found (bm : BlockMap) (l : String) (s : St) (b : Nat)
    (h : bm.lookup l = some b) : block_map_get bm l s = (b, bm, s) := by
  simp [block_map_get, h]

theorem block_map_get_new (bm : BlockMap) (l : String) (s : St)
    (h : bm.lookup l = none) :
    block_map_get bm l s =
      (s.nextBlock, bm ++ [(l, s.nextBlock)], (s.appendBlock l).2) := by
  simp [block_map_get, h, St.appendBlock]

theorem lookup_append_none {α β : Type} [BEq α] [LawfulBEq α]
    (l l' : List (α × β)) (k : α) (h : l.lookup k = none) :
    (l ++ l').lookup k = l'.lookup k := by
  induction l with
  | nil => simp
  | cons q rest ih =>
      obtain ⟨a, b⟩ := q
      by_cases hk : k = a
      · subst hk; simp [List.lookup_cons] at h
      · simp only [List.lookup_cons, beq_false_of_ne hk] at h
        simpa [List.lookup_cons, beq_false_of_ne hk] using ih h

theorem lookup_mem {α β : Type} [BEq α] [LawfulBEq α]
    (l : List (α × β)) (k : α) (v : β) (h : l.lookup k = some v) :
    (k, v) ∈ l := by
  induction l with
  | nil => simp [List.lookup] at h
  | cons q rest ih =>
      obtain ⟨a, b⟩ := q
      by_cases hk : k = a
      · subst hk
        simp only [List.lookup_cons, beq_self_eq_true] at h
        simp at h
        simp [h]
      · simp only [List.lookup_cons, beq_false_of_ne hk] at h
        exact List.mem_cons_of_mem _ (ih h)

theorem block_map_get_emits (bm : BlockMap) (l : String) (s : St) :
    Emits s [] (block_map_get bm l s).2.2 := by
  cases hl : bm.lookup l with
  | some b0 => rw [block_map_get_found bm l s b0 hl]; exact emitsNil s
  | none =>
      rw [block_map_get_new bm l s hl]
      exact (emits_appendBlock s l).2.2

theorem block_map_get_lookup (bm : BlockMap) (l : String) (s : St) :
    (block_map_get bm l s).2.1.lookup l = some (block_map_get bm l s).1 := by
  cases hl : bm.lookup l with
  | some b0 => rw [block_map_get_found bm l s b0 hl]; exact hl
  | none =>
      rw [block_map_get_new bm l s hl]
      simp only [lookup_append_none bm _ l hl, List.lookup_cons,
        beq_self_eq_true]

theorem block_map_get_grows (bm : BlockMap) (l : String) (s : St)
    (hk : s.keysLt) :
    bmGrows bm (block_map_get bm l s).2.1 s (block_map_get bm l s).2.2 ∧
      (block_map_get bm l s).2.2.keysLt := by
  cases hl : bm.lookup l with
  | some b0 =>
      rw [block_map_get_found bm l s b0 hl]
      exact ⟨⟨⟨[], by simp⟩, fun hi => hi⟩, hk⟩
  | none =>
      rw [block_map_get_new bm l s hl]
      have hfresh : s.blocks.lookup s.nextBlock = none :=
        lookup_eq_none_of_keys s.blocks s.nextBlock
          (fun p hp => Nat.ne_of_lt (hk p hp))
      constructor
      · constructor
        · refine ⟨[(l, s.nextBlock)], rfl, ?_⟩
          intro e he
          simp at he
          subst he
          refine ⟨le_refl _, ?_⟩
          simp only [St.appendBlock, St.blockOps]
          rw [lookupOps_append_empty]
          simp [lookupOps, hfresh]
        · rintro ⟨hb, hnd⟩
          constructor
          · intro e he
            simp only [List.mem_append, List.mem_singleton] at he
            rcases he with he | he
            · exact lt_trans (hb e he) (by simp [St.appendBlock])
            · subst he; simp [St.appendBlock]
          · rw [List.map_append]
            refine List.Nodup.append hnd (by simp) ?_
            intro x hx hx'
            simp only [List.map_cons, List.map_nil, List.mem_singleton] at hx'
            subst hx'
            simp only [List.mem_map] at hx
            obtain ⟨e, he, hee⟩ := hx
            have hbe := hb e he
            rw [hee] at hbe
            exact absurd hbe (lt_irrefl _)
      · intro p hp
        simp only [St.appendBlock, List.mem_append, List.mem_singleton] at hp
        rcases hp with hp | hp
        · exact lt_trans (hk p hp) (by simp [St.appendBlock])
        · subst hp; simp [St.appendBlock]


theorem heap_get_found (h : Heap) (name : String) (wp : WrappedPointer)
    (hl : h.map.lookup name = some wp) : h.get name = .ok wp := by
  simp [Heap.get, hl]

theorem heap_get_missing (h : Heap) (name : String)
    (hl : h.map.lookup name = none) :
    h.get name = .error (.undeclaredVariable name) := by
  simp [Heap.get, hl]

theorem heap_get_err (h : Heap) (name : String) (e : CompileErr)
    (he : h.get name = .error e) :
    e = .undeclaredVariable name ∧ h.map.lookup name = none := by
  unfold Heap.get at he
  split at he
  · cases he
  · cases he
    exact ⟨rfl, by assumption⟩

theorem heap_get_ok (h : Heap) (name : String) (wp : WrappedPointer)
    (hw : h.get name = .ok wp) : h.map.lookup name = some wp := by
  unfold Heap.get at hw
  split at hw
  · cases hw
    next hl => exact hl
  · cases hw

theorem lookup_append_single_ne {α β : Type} [BEq α] [LawfulBEq α]
    (l : List (α × β)) (k : α) (w : β) (v : α) (hv : v ≠ k) :
    (l ++ [(k, w)]).lookup v = l.lookup v := by
  cases hl : l.lookup v with
  | some u => exact lookup_append_some l _ v u hl
  | none =>
      rw [lookup_append_none l _ v hl]
      simp [List.lookup_cons, beq_false_of_ne hv]

theorem heap_add_err (h : Heap) (name : String) (ty : Ty) (s : St)
    (e : CompileErr) (he : h.add name ty s = .error e) :
    e = .typeConflict name := by
  unfold Heap.add at he
  split at he
  · split at he
    · cases he
    · cases he; rfl
  · cases he

theorem heap_add_ok (h : Heap) (name : String) (ty : Ty) (s : St)
    (wp : WrappedPointer) (h' : Heap) (s' : St)
    (hk : h.add name ty s = .ok (wp, h', s')) :
    (∃ ops, Emits s ops s' ∧ termFree ops = true) ∧
      h'.map.lookup name = some wp ∧ wp.ty = ty ∧
      (∀ v w, h.map.lookup v = some w → h'.map.lookup v = some w) ∧
      (∀ v, v ≠ name → h'.map.lookup v = h.map.lookup v) := by
  unfold Heap.add at hk
  split at hk
  next wp0 hl =>
    split at hk
    next hty =>
      cases hk
      exact ⟨⟨[], emitsNil s, rfl⟩, hl, hty.symm ▸ rfl, fun v w hw => hw,
        fun v _ => rfl⟩
    · cases hk
  next hl =>
    cases hk
    refine ⟨⟨[.alloca s.nextSlot (llvm_type_map ty) name], ?_, rfl⟩, ?_, rfl, ?_, ?_⟩
    · have h0 : Emits s [] { s with nextSlot := s.nextSlot + 1 } :=
        ⟨rfl, by simp [St.blockOps], fun _ _ => rfl, rfl, le_refl _,
          fun hkk _ => hkk, rfl, rfl⟩
      simpa using Emits.trans h0 (emits_emit _ _)
    · rw [lookup_append_none h.map _ name hl]
      simp [List.lookup_cons]
    · intro v w hw
      exact lookup_append_some h.map _ v w hw
    · intro v hv
      exact lookup_append_single_ne h.map name _ v hv

theorem getFn_err (s : St) (n : String) (e : CompileErr)
    (he : getFn s n = .error e) : e = .unresolvedCallee n := by
  unfold getFn at he
  split at he
  · cases he
  · cases he; rfl

theorem getFn_found (s : St) (n : String) (t : FnType)
    (hf : s.getFunction n = some t) : getFn s n = .ok t := by
  simp [getFn, hf]

theorem keysLt_pushOp (blocks : List (Nat × BB)) (c : Nat) (op : LLOp)
    (n : Nat) (hk : ∀ p ∈ blocks, p.1 < n) (hc : c < n) :
    ∀ p ∈ pushOp blocks c op, p.1 < n := by
  intro p hp
  rcases pushOp_keys_mem blocks c op p hp with h | h
  · rw [h]; exact hc
  · simp only [List.mem_map] at h
    obtain ⟨q, hq, hq1⟩ := h
    rw [← hq1]
    exact hk q hq

theorem emitTimingEnd_err (s : St) (e : CompileErr)
    (he : emitTimingEnd s = .error e) :
    e ≠ .instrumentationPlacement ∧ e ≠ .timingMissing ∧
      ∀ v, e ≠ .undeclaredVariable v := by
  cases hg1 : s.funcs.lookup "_bril_get_ticks_end" with
  | none =>
      unfold emitTimingEnd at he
      simp only [bind, Except.bind, getFn, St.getFunction, St.freshVar,
        St.emitVal, hg1] at he
      cases he
      exact ⟨by simp, by simp, by simp⟩
  | some t1 =>
  cases hts : s.ticksStart with
  | none =>
      unfold emitTimingEnd at he
      simp only [bind, Except.bind, getFn, St.getFunction, St.freshVar,
        St.emitVal, hg1, hts] at he
      cases he
      exact ⟨by simp, by simp, by simp⟩
  | some ts =>
  cases hg2 : s.funcs.lookup "_bril_eprintln_unsigned_int" with
  | none =>
      unfold emitTimingEnd at he
      simp only [bind, Except.bind, getFn, St.getFunction, St.freshVar,
        St.emitVal, hg1, hts, hg2] at he
      cases he
      exact ⟨by simp, by simp, by simp⟩
  | some t2 =>
      unfold emitTimingEnd at he
      simp only [bind, Except.bind, getFn, St.getFunction, St.freshVar,
        St.emitVal, hg1, hts, hg2] at he
      cases he

theorem emitTimingEnd_ok (s : St) (s' : St) (hk : emitTimingEnd s = .ok s') :
    s'.addedTiming = true ∧ s'.cur = s.cur ∧ s'.funcs = s.funcs ∧
      (∃ ops, termFree ops = true ∧
        s'.blockOps s.cur = s.blockOps s.cur ++ ops ∧
        (∀ b, b ≠ s.cur → s'.blockOps b = s.blockOps b)) ∧
      s.nextBlock = s'.nextBlock ∧
      (s.keysLt → s.posOk → s'.keysLt) := by
  cases hg1 : s.funcs.lookup "_bril_get_ticks_end" with
  | none =>
      exfalso
      unfold emitTimingEnd at hk
      simp [bind, Except.bind, getFn, St.getFunction, St.freshVar, hg1] at hk
  | some t1 =>
  cases hts : s.ticksStart with
  | none =>
      exfalso
      unfold emitTimingEnd at hk
      simp [bind, Except.bind, getFn, St.getFunction, St.freshVar, St.emitVal,
        hg1, hts] at hk
  | some ts =>
  cases hg2 : s.funcs.lookup "_bril_eprintln_unsigned_int" with
  | none =>
      exfalso
      unfold emitTimingEnd at hk
      simp [bind, Except.bind, getFn, St.getFunction, St.freshVar, St.emitVal,
        hg1, hts, hg2] at hk
  | some t2 =>
  unfold emitTimingEnd at hk
  simp only [bind, Except.bind, getFn, St.getFunction, St.freshVar, St.emitVal,
    hg1, hts, hg2] at hk
  cases hk
  refine ⟨rfl, rfl, rfl, ?_, rfl, ?_⟩
  · refine ⟨[.call s.nextVal "_bril_get_ticks_end" []
        ("var" ++ toString s.freshCount),
      .ibin (s.nextVal + 1) .sub (.vreg s.nextVal) ts
        ("var" ++ toString (s.freshCount + 1)),
      .call (s.nextVal + 2) "_bril_eprintln_unsigned_int"
        [.vreg (s.nextVal + 1)] "print_ticks"], rfl, ?_, ?_⟩
    · show lookupOps (pushOp (pushOp (pushOp s.blocks s.cur _) s.cur _) s.cur _)
        s.cur = _
      rw [lookupOps_pushOp_self, lookupOps_pushOp_self, lookupOps_pushOp_self]
      simp [St.blockOps]
    · intro b hb
      show lookupOps (pushOp (pushOp (pushOp s.blocks s.cur _) s.cur _) s.cur _)
        b = _
      rw [lookupOps_pushOp_ne _ _ _ _ hb, lookupOps_pushOp_ne _ _ _ _ hb,
        lookupOps_pushOp_ne _ _ _ _ hb]
      rfl
  · intro hkk hc
    intro p hp
    simp only [St.keysLt] at hkk
    exact keysLt_pushOp _ _ _ _ (keysLt_pushOp _ _ _ _
      (keysLt_pushOp _ _ _ _ hkk hc) hc) hc p hp

/-! ## `loadArgs`, `build_op`, `build_effect_op` -/

theorem termFree_append (xs ys : List LLOp) :
    termFree (xs ++ ys) = (termFree xs && termFree ys) := by
  simp [termFree, List.all_append]

theorem loadArgs_err (h : Heap) (args : List String) (s : St) (e : CompileErr)
    (he : loadArgs h args s = .error e) :
    ∃ v, v ∈ args ∧ h.map.lookup v = none ∧ e = .undeclaredVariable v := by
  induction args generalizing s with
  | nil => simp [loadArgs] at he
  | cons a rest ih =>
      unfold loadArgs at he
      simp only [bind, Except.bind] at he
      cases hget : h.get a with
      | error e1 =>
          simp only [hget] at he
          cases he
          obtain ⟨h1, h2⟩ := heap_get_err h a _ hget
          exact ⟨a, by simp, h2, h1⟩
      | ok wp =>
          simp only [hget] at he
          cases hrest : loadArgs h rest (build_load wp (s.freshVar).1
              (s.freshVar).2).2 with
          | error e2 =>
              simp only [hrest] at he
              cases he
              obtain ⟨v, hv1, hv2, hv3⟩ := ih _ hrest
              exact ⟨v, by simp [hv1], hv2, hv3⟩
          | ok p =>
              simp only [hrest] at he
              cases he

theorem loadArgs_ok (h : Heap) (args : List String) (s : St)
    (vs : List Val) (s' : St) (hk : loadArgs h args s = .ok (vs, s')) :
    ∃ ops, Emits s ops s' ∧ termFree ops = true := by
  induction args generalizing s vs with
  | nil =>
      simp only [loadArgs] at hk
      cases hk
      exact ⟨[], emitsNil _, rfl⟩
  | cons a rest ih =>
      unfold loadArgs at hk
      simp only [bind, Except.bind] at hk
      cases hget : h.get a with
      | error e1 => simp only [hget] at hk; cases hk
      | ok wp =>
          simp only [hget] at hk
          cases hrest : loadArgs h rest (build_load wp (s.freshVar).1
              (s.freshVar).2).2 with
          | error e2 => simp only [hrest] at hk; cases hk
          | ok p =>
              simp only [hrest] at hk
              cases hk
              obtain ⟨ops2, he2, ht2⟩ := ih _ _ hrest
              refine ⟨[.load ((s.freshVar).2).nextVal
                  (llvm_type_map wp.ty) wp.ptr (s.freshVar).1] ++ ops2, ?_, ?_⟩
              · exact Emits.trans (Emits.trans (emits_freshVar s) (by
                  simpa using (emits_build_load wp (s.freshVar).1
                    (s.freshVar).2).2)) he2
              · rw [termFree_append, ht2]
                rfl

theorem build_op_spec (h : Heap)
    (opc : List Val → St → Except CompileErr (Val × St))
    (args : List String) (dest : String) (s : St) (vars : List String)
    (hsub : ∀ v, v = dest ∨ v ∈ args → v ∈ vars)
    (hop : ∀ vs s1,
      (∀ e, opc vs s1 = .error e → errSpec h vars e) ∧
      (∀ v s2, opc vs s1 = .ok (v, s2) →
        ∃ ops, Emits s1 ops s2 ∧ termFree ops = true)) :
    (∀ e, build_op h opc args dest s = .error e → errSpec h vars e) ∧
    (∀ s', build_op h opc args dest s = .ok s' →
      ∃ ops, Emits s ops s' ∧ termFree ops = true) := by
  constructor
  · intro e he
    unfold build_op at he
    simp only [bind, Except.bind] at he
    cases hget : h.get dest with
    | error e1 =>
        simp only [hget] at he
        cases he
        obtain ⟨h1, h2⟩ := heap_get_err h dest _ hget
        subst h1
        exact ⟨by simp, by simp, fun v hv => by
          cases hv; exact ⟨hsub _ (Or.inl rfl), h2⟩⟩
    | ok dwp =>
        simp only [hget] at he
        cases hla : loadArgs h args s with
        | error e2 =>
            simp only [hla] at he
            cases he
            obtain ⟨v, hv1, hv2, hv3⟩ := loadArgs_err h args s _ hla
            subst hv3
            exact ⟨by simp, by simp, fun w hw => by
              cases hw; exact ⟨hsub _ (Or.inr hv1), hv2⟩⟩
        | ok p =>
            simp only [hla] at he
            cases hoc : opc p.1 p.2 with
            | error e3 =>
                simp only [hoc] at he
                cases he
                exact (hop p.1 p.2).1 _ hoc
            | ok q =>
                simp only [hoc] at he
                cases he
  · intro s' hk
    unfold build_op at hk
    simp only [bind, Except.bind] at hk
    cases hget : h.get dest with
    | error e1 => simp only [hget] at hk; cases hk
    | ok dwp =>
        simp only [hget] at hk
        cases hla : loadArgs h args s with
        | error e2 => simp only [hla] at hk; cases hk
        | ok p =>
            simp only [hla] at hk
            cases hoc : opc p.1 p.2 with
            | error e3 => simp only [hoc] at hk; cases hk
            | ok q =>
                simp only [hoc] at hk
                cases hk
                obtain ⟨ops1, he1, ht1⟩ := loadArgs_ok h args s p.1 p.2 (by
                  rw [hla])
                obtain ⟨ops2, he2, ht2⟩ := (hop p.1 p.2).2 q.1 q.2 (by
                  rw [hoc])
                refine ⟨(ops1 ++ ops2) ++ [.store dwp.ptr q.1], ?_, ?_⟩
                · exact Emits.trans (Emits.trans he1 he2) (emits_emit q.2 _)
                · rw [termFree_append, termFree_append, ht1, ht2]
                  rfl

theorem build_effect_op_spec (h : Heap)
    (opc : List Val → St → Except CompileErr St)
    (args : List String) (s : St) (vars : List String)
    (hsub : ∀ v, v ∈ args → v ∈ vars)
    (hop : ∀ vs s1,
      (∀ e, opc vs s1 = .error e → errSpec h vars e) ∧
      (∀ s2, opc vs s1 = .ok s2 →
        ∃ ops, Emits s1 ops s2 ∧ termFree ops = true)) :
    (∀ e, build_effect_op h opc args s = .error e → errSpec h vars e) ∧
    (∀ s', build_effect_op h opc args s = .ok s' →
      ∃ ops, Emits s ops s' ∧ termFree ops = true) := by
  constructor
  · intro e he
    unfold build_effect_op at he
    simp only [bind, Except.bind] at he
    cases hla : loadArgs h args s with
    | error e2 =>
        simp only [hla] at he
        cases he
        obtain ⟨v, hv1, hv2, hv3⟩ := loadArgs_err h args s _ hla
        subst hv3
        exact ⟨by simp, by simp, fun w hw => by
          cases hw; exact ⟨hsub _ hv1, hv2⟩⟩
    | ok p =>
        simp only [hla] at he
        exact (hop p.1 p.2).1 e he
  · intro s' hk
    unfold build_effect_op at hk
    simp only [bind, Except.bind] at hk
    cases hla : loadArgs h args s with
    | error e2 => simp only [hla] at hk; cases hk
    | ok p =>
        simp only [hla] at hk
        obtain ⟨ops1, he1, ht1⟩ := loadArgs_ok h args s p.1 p.2 (by rw [hla])
        obtain ⟨ops2, he2, ht2⟩ := (hop p.1 p.2).2 s' hk
        refine ⟨ops1 ++ ops2, Emits.trans he1 he2, ?_⟩
        rw [termFree_append, ht1, ht2]
        rfl

/-! ## Closure and dispatch-case specifications -/

theorem valAt_err (vs : List Val) (i : Nat) (e : CompileErr)
    (he : valAt vs i = .error e) : e = .panicked "index out of bounds" := by
  unfold valAt at he
  split at he
  · cases he
  · cases he; rfl

theorem errSpec_not_undeclared (h : Heap) (vars : List String) (e : CompileErr)
    (h1 : e ≠ .instrumentationPlacement) (h2 : e ≠ .timingMissing)
    (h3 : ∀ v, e ≠ .undeclaredVariable v) : errSpec h vars e :=
  ⟨h1, h2, fun v hv => absurd hv (h3 v)⟩

theorem errSpec_panicked (h : Heap) (vars : List String) (msg : String) :
    errSpec h vars (.panicked msg) :=
  errSpec_not_undeclared h vars _ (by simp) (by simp) (fun v => by simp)

theorem errSpec_unresolved (h : Heap) (vars : List String) (f : String) :
    errSpec h vars (.unresolvedCallee f) :=
  errSpec_not_undeclared h vars _ (by simp) (by simp) (fun v => by simp)

theorem closure1_spec (h : Heap) (vars : List String)
    (mk : Val → Nat → LLOp) (hterm : ∀ a r, (mk a r).isTerm = false) :
    ∀ (vs : List Val) (s1 : St),
      (∀ e, (do
          let a ← valAt vs 0
          Except.ok (s1.emitVal (mk a))) = Except.error e →
        errSpec h vars e) ∧
      (∀ (v : Val) (s2 : St), (do
          let a ← valAt vs 0
          Except.ok (s1.emitVal (mk a))) = Except.ok (v, s2) →
        ∃ ops, Emits s1 ops s2 ∧ termFree ops = true) := by
  intro vs s1
  constructor
  · intro e he
    simp only [bind, Except.bind] at he
    cases h0 : valAt vs 0 with
    | error e0 =>
        simp only [h0] at he
        cases he
        rw [valAt_err vs 0 _ h0]
        exact errSpec_panicked h vars _
    | ok a => simp only [h0] at he; cases he
  · intro v s2 hk
    simp only [bind, Except.bind] at hk
    cases h0 : valAt vs 0 with
    | error e0 => simp only [h0] at hk; cases hk
    | ok a =>
        simp only [h0] at hk
        have hp : s1.emitVal (mk a) = (v, s2) := by
          injection hk
        have hs2 : s2 = (s1.emitVal (mk a)).2 := by rw [hp]
        subst hs2
        exact ⟨[mk a s1.nextVal], (emits_emitVal s1 (mk a)).2,
          by simp [termFree, hterm]⟩

theorem closure2_spec (h : Heap) (vars : List String)
    (mk : Val → Val → Nat → LLOp)
    (hterm : ∀ a b r, (mk a b r).isTerm = false) :
    ∀ (vs : List Val) (s1 : St),
      (∀ e, (do
          let a ← valAt vs 0
          let b ← valAt vs 1
          Except.ok (s1.emitVal (mk a b))) = Except.error e →
        errSpec h vars e) ∧
      (∀ (v : Val) (s2 : St), (do
          let a ← valAt vs 0
          let b ← valAt vs 1
          Except.ok (s1.emitVal (mk a b))) = Except.ok (v, s2) →
        ∃ ops, Emits s1 ops s2 ∧ termFree ops = true) := by
  intro vs s1
  constructor
  · intro e he
    simp only [bind, Except.bind] at he
    cases h0 : valAt vs 0 with
    | error e0 =>
        simp only [h0] at he
        cases he
        rw [valAt_err vs 0 _ h0]
        exact errSpec_panicked h vars _
    | ok a =>
        simp only [h0] at he
        cases h1 : valAt vs 1 with
        | error e1 =>
            simp only [h1] at he
            cases he
            rw [valAt_err vs 1 _ h1]
            exact errSpec_panicked h vars _
        | ok b => simp only [h1] at he; cases he
  · intro v s2 hk
    simp only [bind, Except.bind] at hk
    cases h0 : valAt vs 0 with
    | error e0 => simp only [h0] at hk; cases hk
    | ok a =>
        simp only [h0] at hk
        cases h1 : valAt vs 1 with
        | error e1 => simp only [h1] at hk; cases hk
        | ok b =>
            simp only [h1] at hk
            have hp : s1.emitVal (mk a b) = (v, s2) := by
              injection hk
            have hs2 : s2 = (s1.emitVal (mk a b)).2 := by rw [hp]
            subst hs2
            exact ⟨[mk a b s1.nextVal], (emits_emitVal s1 (mk a b)).2,
              by simp [termFree, hterm]⟩

theorem closure3_spec (h : Heap) (vars : List String)
    (mk : Val → Val → Val → Nat → LLOp)
    (hterm : ∀ a b c r, (mk a b c r).isTerm = false) :
    ∀ (vs : List Val) (s1 : St),
      (∀ e, (do
          let a ← valAt vs 0
          let b ← valAt vs 1
          let c ← valAt vs 2
          Except.ok (s1.emitVal (mk a b c))) = Except.error e →
        errSpec h vars e) ∧
      (∀ (v : Val) (s2 : St), (do
          let a ← valAt vs 0
          let b ← valAt vs 1
          let c ← valAt vs 2
          Except.ok (s1.emitVal (mk a b c))) = Except.ok (v, s2) →
        ∃ ops, Emits s1 ops s2 ∧ termFree ops = true) := by
  intro vs s1
  constructor
  · intro e he
    simp only [bind, Except.bind] at he
    cases h0 : valAt vs 0 with
    | error e0 =>
        simp only [h0] at he
        cases he
        rw [valAt_err vs 0 _ h0]
        exact errSpec_panicked h vars _
    | ok a =>
        simp only [h0] at he
        cases h1 : valAt vs 1 with
        | error e1 =>
            simp only [h1] at he
            cases he
            rw [valAt_err vs 1 _ h1]
            exact errSpec_panicked h vars _
        | ok b =>
            simp only [h1] at he
            cases h2 : valAt vs 2 with
            | error e2 =>
                simp only [h2] at he
                cases he
                rw [valAt_err vs 2 _ h2]
                exact errSpec_panicked h vars _
            | ok c => simp only [h2] at he; cases he
  · intro v s2 hk
    simp only [bind, Except.bind] at hk
    cases h0 : valAt vs 0 with
    | error e0 => simp only [h0] at hk; cases hk
    | ok a =>
        simp only [h0] at hk
        cases h1 : valAt vs 1 with
        | error e1 => simp only [h1] at hk; cases hk
        | ok b =>
            simp only [h1] at hk
            cases h2 : valAt vs 2 with
            | error e2 => simp only [h2] at hk; cases hk
            | ok c =>
                simp only [h2] at hk
                have hp : s1.emitVal (mk a b c) = (v, s2) := by
                  injection hk
                have hs2 : s2 = (s1.emitVal (mk a b c)).2 := by rw [hp]
                subst hs2
                exact ⟨[mk a b c s1.nextVal], (emits_emitVal s1 (mk a b c)).2,
                  by simp [termFree, hterm]⟩

theorem destArgs_sub (dest : String) (args vars : List String)
    (hv : vars = dest :: args) :
    ∀ v, v = dest ∨ v ∈ args → v ∈ vars := by
  subst hv
  intro v hv
  rcases hv with hv | hv
  · subst hv; exact List.mem_cons_self _ _
  · exact List.mem_cons_of_mem _ hv

theorem buildIBinCase_spec (h : Heap) (tag : IBin) (args : List String)
    (dest : String) (s : St) :
    (∀ e, buildIBinCase h tag args dest s = .error e →
      errSpec h (dest :: args) e) ∧
    (∀ s', buildIBinCase h tag args dest s = .ok s' →
      ∃ ops, Emits s ops s' ∧ termFree ops = true) := by
  obtain ⟨herr, hok⟩ := build_op_spec h _ args dest (s.freshVar).2
    (dest :: args) (destArgs_sub dest args _ rfl)
    (closure2_spec h (dest :: args)
      (fun a b r => LLOp.ibin r tag a b (s.freshVar).1) (fun a b r => rfl))
  constructor
  · intro e he
    exact herr e he
  · intro s' hk
    obtain ⟨ops, hemits, hterm⟩ := hok s' hk
    exact ⟨ops, by simpa using Emits.trans (emits_freshVar s) hemits, hterm⟩

theorem buildICmpCase_spec (h : Heap) (p : IPred) (args : List String)
    (dest : String) (s : St) :
    (∀ e, buildICmpCase h p args dest s = .error e →
      errSpec h (dest :: args) e) ∧
    (∀ s', buildICmpCase h p args dest s = .ok s' →
      ∃ ops, Emits s ops s' ∧ termFree ops = true) := by
  obtain ⟨herr, hok⟩ := build_op_spec h _ args dest (s.freshVar).2
    (dest :: args) (destArgs_sub dest args _ rfl)
    (closure2_spec h (dest :: args)
      (fun a b r => LLOp.icmp r p a b (s.freshVar).1) (fun a b r => rfl))
  refine ⟨fun e he => herr e he, fun s' hk => ?_⟩
  obtain ⟨ops, hemits, hterm⟩ := hok s' hk
  exact ⟨ops, by simpa using Emits.trans (emits_freshVar s) hemits, hterm⟩

theorem buildFBinCase_spec (h : Heap) (tag : FBin) (args : List String)
    (dest : String) (s : St) :
    (∀ e, buildFBinCase h tag args dest s = .error e →
      errSpec h (dest :: args) e) ∧
    (∀ s', buildFBinCase h tag args dest s = .ok s' →
      ∃ ops, Emits s ops s' ∧ termFree ops = true) := by
  obtain ⟨herr, hok⟩ := build_op_spec h _ args dest (s.freshVar).2
    (dest :: args) (destArgs_sub dest args _ rfl)
    (closure2_spec h (dest :: args)
      (fun a b r => LLOp.fbin r tag a b (s.freshVar).1) (fun a b r => rfl))
  refine ⟨fun e he => herr e he, fun s' hk => ?_⟩
  obtain ⟨ops, hemits, hterm⟩ := hok s' hk
  exact ⟨ops, by simpa using Emits.trans (emits_freshVar s) hemits, hterm⟩

theorem buildFCmpCase_spec (h : Heap) (p : FPred) (args : List String)
    (dest : String) (s : St) :
    (∀ e, buildFCmpCase h p args dest s = .error e →
      errSpec h (dest :: args) e) ∧
    (∀ s', buildFCmpCase h p args dest s = .ok s' →
      ∃ ops, Emits s ops s' ∧ termFree ops = true) := by
  obtain ⟨herr, hok⟩ := build_op_spec h _ args dest (s.freshVar).2
    (dest :: args) (destArgs_sub dest args _ rfl)
    (closure2_spec h (dest :: args)
      (fun a b r => LLOp.fcmp r p a b (s.freshVar).1) (fun a b r => rfl))
  refine ⟨fun e he => herr e he, fun s' hk => ?_⟩
  obtain ⟨ops, hemits, hterm⟩ := hok s' hk
  exact ⟨ops, by simpa using Emits.trans (emits_freshVar s) hemits, hterm⟩

theorem buildIntrinsicCase_spec (h : Heap) (intrinsic : String)
    (args : List String) (dest : String) (s : St) :
    (∀ e, buildIntrinsicCase h intrinsic args dest s = .error e →
      errSpec h (dest :: args) e) ∧
    (∀ s', buildIntrinsicCase h intrinsic args dest s = .ok s' →
      ∃ ops, Emits s ops s' ∧ termFree ops = true) := by
  obtain ⟨herr, hok⟩ := build_op_spec h
    (fun vs s1 => Except.ok
      (s1.emitVal (fun r => LLOp.call r intrinsic vs (s.freshVar).1)))
    args dest (s.freshVar).2
    (dest :: args) (destArgs_sub dest args _ rfl)
    (fun vs s1 => by
      constructor
      · intro e he
        cases he
      · intro v s2 hk
        have hp : s1.emitVal
            (fun r => LLOp.call r intrinsic vs (s.freshVar).1) = (v, s2) := by
          injection hk
        have hs2 : s2 = (s1.emitVal
            (fun r => LLOp.call r intrinsic vs (s.freshVar).1)).2 := by rw [hp]
        subst hs2
        exact ⟨[.call s1.nextVal intrinsic vs (s.freshVar).1],
          (emits_emitVal s1
            (fun r => LLOp.call r intrinsic vs (s.freshVar).1)).2, rfl⟩)
  refine ⟨fun e he => herr e he, fun s' hk => ?_⟩
  obtain ⟨ops, hemits, hterm⟩ := hok s' hk
  exact ⟨ops, by simpa using Emits.trans (emits_freshVar s) hemits, hterm⟩

theorem buildFMinMaxCase_spec (h : Heap) (p : FPred) (args : List String)
    (dest : String) (s : St) :
    (∀ e, buildFMinMaxCase h p args dest s = .error e →
      errSpec h (dest :: args) e) ∧
    (∀ s', buildFMinMaxCase h p args dest s = .ok s' →
      ∃ ops, Emits s ops s' ∧ termFree ops = true) := by
  obtain ⟨herr, hok⟩ := build_op_spec h
    (fun vs s1 => do
      let a ← valAt vs 0
      let b ← valAt vs 1
      let q := s1.emitVal (fun r => LLOp.fcmp r p a b (s.freshVar).1)
      Except.ok (q.2.emitVal
        (fun r => LLOp.select r q.1 a b (((s.freshVar).2).freshVar).1)))
    args dest (((s.freshVar).2).freshVar).2
    (dest :: args) (destArgs_sub dest args _ rfl)
    (fun vs s1 => by
      constructor
      · intro e he
        simp only [bind, Except.bind] at he
        cases h0 : valAt vs 0 with
        | error e0 =>
            simp only [h0] at he
            cases he
            rw [valAt_err vs 0 _ h0]
            exact errSpec_panicked h _ _
        | ok a =>
            simp only [h0] at he
            cases h1 : valAt vs 1 with
            | error e1 =>
                simp only [h1] at he
                cases he
                rw [valAt_err vs 1 _ h1]
                exact errSpec_panicked h _ _
            | ok b => simp only [h1] at he; cases he
      · intro v s2 hk
        simp only [bind, Except.bind] at hk
        cases h0 : valAt vs 0 with
        | error e0 => simp only [h0] at hk; cases hk
        | ok a =>
            simp only [h0] at hk
            cases h1 : valAt vs 1 with
            | error e1 => simp only [h1] at hk; cases hk
            | ok b =>
                simp only [h1] at hk
                have hp : ((s1.emitVal (fun r => LLOp.fcmp r p a b
                    (s.freshVar).1)).2.emitVal
                      (fun r => LLOp.select r (s1.emitVal (fun r =>
                        LLOp.fcmp r p a b (s.freshVar).1)).1 a b
                        (((s.freshVar).2).freshVar).1)) = (v, s2) := by
                  injection hk
                have hs2 : s2 = ((s1.emitVal (fun r => LLOp.fcmp r p a b
                    (s.freshVar).1)).2.emitVal
                      (fun r => LLOp.select r (s1.emitVal (fun r =>
                        LLOp.fcmp r p a b (s.freshVar).1)).1 a b
                        (((s.freshVar).2).freshVar).1)).2 := by rw [hp]
                subst hs2
                refine ⟨_ , Emits.trans (emits_emitVal s1 _).2
                  (emits_emitVal _ _).2, rfl⟩)
  refine ⟨fun e he => herr e he, fun s' hk => ?_⟩
  obtain ⟨ops, hemits, hterm⟩ := hok s' hk
  refine ⟨ops, ?_, hterm⟩
  have := Emits.trans (emits_freshVar s)
    (Emits.trans (emits_freshVar (s.freshVar).2) hemits)
  simpa using this

theorem Emits.nil_blockOps {s s' : St} (he : Emits s [] s') :
    ∀ b, s'.blockOps b = s.blockOps b := by
  intro b
  by_cases hb : b = s.cur
  · subst hb
    simpa using he.cur_ops
  · exact he.other_ops b hb

theorem bmGrows_rfl (bm : BlockMap) (s : St) : bmGrows bm bm s s :=
  ⟨⟨[], by simp⟩, fun hi => hi⟩

theorem bmGrows_emits {bm bm' : BlockMap} {s s1 s' : St} {ops : List LLOp}
    (hg : bmGrows bm bm' s s1) (he : Emits s1 ops s') (hpos : s.posOk)
    (hcur : s1.cur = s.cur) : bmGrows bm bm' s s' := by
  obtain ⟨⟨ne, hne, hnew⟩, hinv⟩ := hg
  refine ⟨⟨ne, hne, ?_⟩, ?_⟩
  · intro e heq
    obtain ⟨h1, h2⟩ := hnew e heq
    refine ⟨h1, ?_⟩
    rw [he.other_ops e.2 ?_, h2]
    rw [hcur]
    intro hEq
    have : e.2 < s.nextBlock := hEq ▸ hpos
    exact absurd h1 (not_le_of_lt this)
  · intro hi
    obtain ⟨hb, hnd⟩ := hinv hi
    exact ⟨fun e he' => lt_of_lt_of_le (hb e he') he.nextBlock_mono, hnd⟩

theorem bmGrows_trans {bm bm1 bm2 : BlockMap} {s s1 s2 : St}
    (hg1 : bmGrows bm bm1 s s1) (hg2 : bmGrows bm1 bm2 s1 s2)
    (hall : ∀ b, s2.blockOps b = s1.blockOps b)
    (hnb : s.nextBlock ≤ s1.nextBlock) : bmGrows bm bm2 s s2 := by
  obtain ⟨⟨ne1, hne1, hnew1⟩, hinv1⟩ := hg1
  obtain ⟨⟨ne2, hne2, hnew2⟩, hinv2⟩ := hg2
  refine ⟨⟨ne1 ++ ne2, by rw [hne2, hne1, List.append_assoc], ?_⟩,
    fun hi => hinv2 (hinv1 hi)⟩
  intro e heq
  rcases List.mem_append.mp heq with heq | heq
  · obtain ⟨h1, h2⟩ := hnew1 e heq
    exact ⟨h1, by rw [hall, h2]⟩
  · obtain ⟨h1, h2⟩ := hnew2 e heq
    exact ⟨le_trans hnb h1, h2⟩

theorem emits_sep_if (c : Prop) [Decidable c] (s : St) (mk : Nat → LLOp) :
    Emits s (if c then [mk s.nextVal] else [])
      (if c then (s.emitVal mk).2 else s) := by
  by_cases hc : c
  · simpa [hc] using (emits_emitVal s mk).2
  · simpa [hc] using emitsNil s

theorem printArgsLoop_spec (h : Heap) (len : Nat) (args0 : List String)
    (vars : List String) (hsub : ∀ v, v ∈ args0 → v ∈ vars) :
    ∀ (i : Nat) (s : St),
      (∀ e, printArgsLoop h len args0 i s = .error e → errSpec h vars e) ∧
      (∀ s', printArgsLoop h len args0 i s = .ok s' →
        ∃ ops, Emits s ops s' ∧ termFree ops = true) := by
  induction args0 with
  | nil =>
      intro i s
      constructor
      · intro e he
        simp [printArgsLoop] at he
      · intro s' hk
        simp only [printArgsLoop] at hk
        cases hk
        exact ⟨[], emitsNil _, rfl⟩
  | cons a rest ih =>
      intro i s
      have hsub' : ∀ v, v ∈ rest → v ∈ vars :=
        fun v hv => hsub v (List.mem_cons_of_mem _ hv)
      have ih' := fun i2 s2 => ih hsub' i2 s2
      constructor
      · intro e he
        unfold printArgsLoop at he
        simp only [bind, Except.bind] at he
        cases hget : h.get a with
        | error e0 =>
            simp only [hget] at he
            cases he
            obtain ⟨h1, h2⟩ := heap_get_err h a _ hget
            subst h1
            exact ⟨by simp, by simp, fun v hv => by
              cases hv
              exact ⟨hsub _ (List.mem_cons_self _ _), h2⟩⟩
        | ok wp =>
            simp only [hget] at he
            cases hty : wp.ty with
            | int =>
                simp only [hty] at he
                exact (ih' (i + 1) _).1 e he
            | bool =>
                simp only [hty] at he
                exact (ih' (i + 1) _).1 e he
            | float =>
                simp only [hty] at he
                exact (ih' (i + 1) _).1 e he
            | pointer pt =>
                simp only [hty] at he
                cases he
                exact errSpec_panicked h vars _
      · intro s' hk
        unfold printArgsLoop at hk
        simp only [bind, Except.bind] at hk
        cases hget : h.get a with
        | error e0 => simp only [hget] at hk; cases hk
        | ok wp =>
            simp only [hget] at hk
            cases hty : wp.ty with
            | int =>
                simp only [hty] at hk
                obtain ⟨ops2, he2, ht2⟩ := (ih' (i + 1) _).2 s' hk
                refine ⟨_, Emits.trans (Emits.trans (Emits.trans
                  (Emits.trans (emits_freshVar s)
                    (emits_build_load wp (s.freshVar).1 (s.freshVar).2).2)
                  (emits_emitVal _ _).2)
                  (emits_sep_if (i < len - 1) _ _)) he2, ?_⟩
                rw [termFree_append, termFree_append, termFree_append,
                  termFree_append, ht2]
                by_cases hsep : i < len - 1 <;>
                  simp [hsep, termFree, LLOp.isTerm]
            | bool =>
                simp only [hty] at hk
                obtain ⟨ops2, he2, ht2⟩ := (ih' (i + 1) _).2 s' hk
                refine ⟨_, Emits.trans (Emits.trans (Emits.trans (Emits.trans
                  (Emits.trans (emits_freshVar s)
                    (emits_build_load wp (s.freshVar).1 (s.freshVar).2).2)
                  (emits_emitVal _ _).2)
                  (emits_emitVal _ _).2)
                  (emits_sep_if (i < len - 1) _ _)) he2, ?_⟩
                rw [termFree_append, termFree_append, termFree_append,
                  termFree_append, termFree_append, ht2]
                by_cases hsep : i < len - 1 <;>
                  simp [hsep, termFree, LLOp.isTerm]
            | float =>
                simp only [hty] at hk
                obtain ⟨ops2, he2, ht2⟩ := (ih' (i + 1) _).2 s' hk
                refine ⟨_, Emits.trans (Emits.trans (Emits.trans
                  (Emits.trans (emits_freshVar s)
                    (emits_build_load wp (s.freshVar).1 (s.freshVar).2).2)
                  (emits_emitVal _ _).2)
                  (emits_sep_if (i < len - 1) _ _)) he2, ?_⟩
                rw [termFree_append, termFree_append, termFree_append,
                  termFree_append, ht2]
                by_cases hsep : i < len - 1 <;>
                  simp [hsep, termFree, LLOp.isTerm]
            | pointer pt =>
                simp only [hty] at hk
                cases hk

theorem build_effect_op_shape (h : Heap)
    (opc : List Val → St → Except CompileErr St)
    (args : List String) (s : St) (vars : List String)
    (P : List LLOp → Prop)
    (hsub : ∀ v, v ∈ args → v ∈ vars)
    (hop : ∀ vs s1,
      (∀ e, opc vs s1 = .error e → errSpec h vars e) ∧
      (∀ s2, opc vs s1 = .ok s2 →
        ∃ ops, Emits s1 ops s2 ∧ P ops)) :
    (∀ e, build_effect_op h opc args s = .error e → errSpec h vars e) ∧
    (∀ s', build_effect_op h opc args s = .ok s' →
      ∃ ops1 ops2, Emits s (ops1 ++ ops2) s' ∧ termFree ops1 = true ∧
        P ops2) := by
  constructor
  · intro e he
    unfold build_effect_op at he
    simp only [bind, Except.bind] at he
    cases hla : loadArgs h args s with
    | error e2 =>
        simp only [hla] at he
        cases he
        obtain ⟨v, hv1, hv2, hv3⟩ := loadArgs_err h args s _ hla
        subst hv3
        exact ⟨by simp, by simp, fun w hw => by
          cases hw; exact ⟨hsub _ hv1, hv2⟩⟩
    | ok p =>
        simp only [hla] at he
        exact (hop p.1 p.2).1 e he
  · intro s' hk
    unfold build_effect_op at hk
    simp only [bind, Except.bind] at hk
    cases hla : loadArgs h args s with
    | error e2 => simp only [hla] at hk; cases hk
    | ok p =>
        simp only [hla] at hk
        obtain ⟨ops1, he1, ht1⟩ := loadArgs_ok h args s p.1 p.2 (by rw [hla])
        obtain ⟨ops2, he2, ht2⟩ := (hop p.1 p.2).2 s' hk
        exact ⟨ops1, ops2, Emits.trans he1 he2, ht1, ht2⟩

theorem valueCase_spec (i : Instruction) (h : Heap) (bm : BlockMap) (s : St)
    (f : Except CompileErr St) (vars : List String)
    (hf : (∀ e, f = .error e → errSpec h vars e) ∧
          (∀ s', f = .ok s' → ∃ ops, Emits s ops s' ∧ termFree ops = true))
    (hif : build_instruction i h bm s =
      (do let s2 ← f; Except.ok (bm, s2)))
    (hrv : referencedVars i = vars)
    (hterm : is_terminating_instr (some i) = false) :
    (∀ e, build_instruction i h bm s = .error e →
      errSpec h (referencedVars i) e) ∧
    (∀ bm' s', build_instruction i h bm s = .ok (bm', s') →
      (∃ ops, Emits s ops s' ∧ opsShape i ops) ∧
      (s.keysLt → s.posOk → bmGrows bm bm' s s')) := by
  rw [hif, hrv]
  constructor
  · intro e he
    simp only [bind, Except.bind] at he
    cases hc : f with
    | error e0 =>
        simp only [hc] at he
        cases he
        exact hf.1 _ hc
    | ok s0 => simp only [hc] at he; cases he
  · intro bm' s' hk
    simp only [bind, Except.bind] at hk
    cases hc : f with
    | error e0 => simp only [hc] at hk; cases hk
    | ok s0 =>
        simp only [hc] at hk
        cases hk
        obtain ⟨ops, he1, ht1⟩ := hf.2 _ hc
        exact ⟨⟨ops, he1, by simp only [opsShape, hterm, if_false,
            Bool.false_eq_true]; exact ht1⟩,
          fun hkk hpos => bmGrows_emits (bmGrows_rfl bm s) he1 hpos rfl⟩

theorem constCase_spec (i : Instruction) (h : Heap) (bm : BlockMap) (s : St)
    (dest : String) (v : Val)
    (hif : build_instruction i h bm s =
      (do let dwp ← h.get dest; Except.ok (bm, s.emit (.store dwp.ptr v))))
    (hrv : referencedVars i = [dest])
    (hterm : is_terminating_instr (some i) = false) :
    (∀ e, build_instruction i h bm s = .error e →
      errSpec h (referencedVars i) e) ∧
    (∀ bm' s', build_instruction i h bm s = .ok (bm', s') →
      (∃ ops, Emits s ops s' ∧ opsShape i ops) ∧
      (s.keysLt → s.posOk → bmGrows bm bm' s s')) := by
  rw [hif, hrv]
  constructor
  · intro e he
    simp only [bind, Except.bind] at he
    cases hc : h.get dest with
    | error e0 =>
        simp only [hc] at he
        cases he
        obtain ⟨h1, h2⟩ := heap_get_err h dest _ hc
        subst h1
        exact ⟨by simp, by simp, fun w hw => by
          cases hw; exact ⟨List.mem_cons_self _ _, h2⟩⟩
    | ok dwp => simp only [hc] at he; cases he
  · intro bm' s' hk
    simp only [bind, Except.bind] at hk
    cases hc : h.get dest with
    | error e0 => simp only [hc] at hk; cases hk
    | ok dwp =>
        simp only [hc] at hk
        cases hk
        refine ⟨⟨[.store dwp.ptr v], emits_emit s _, by
          simp only [opsShape, hterm, if_false, Bool.false_eq_true]
          rfl⟩,
          fun hkk hpos => bmGrows_emits (bmGrows_rfl bm s) (emits_emit s _)
            hpos rfl⟩

theorem exbind_err {α β : Type} {e : Except CompileErr α}
    {f : α → Except CompileErr β} {er : CompileErr}
    (hb : (e >>= f) = .error er) :
    e = .error er ∨ ∃ a, e = .ok a ∧ f a = .error er := by
  cases e with
  | error e0 =>
      left
      have : e0 = er := by
        simpa [bind, Except.bind] using hb
      rw [this]
  | ok a =>
      right
      exact ⟨a, rfl, by simpa [bind, Except.bind] using hb⟩

theorem exbind_ok {α β : Type} {e : Except CompileErr α}
    {f : α → Except CompileErr β} {b : β}
    (hb : (e >>= f) = .ok b) : ∃ a, e = .ok a ∧ f a = .ok b := by
  cases e with
  | error e0 => simp [bind, Except.bind] at hb
  | ok a => exact ⟨a, rfl, by simpa [bind, Except.bind] using hb⟩

theorem freshVar_build_op_spec (h : Heap)
    (opc : List Val → St → Except CompileErr (Val × St))
    (args : List String) (dest : String) (s : St) (vars : List String)
    (hsub : ∀ v, v = dest ∨ v ∈ args → v ∈ vars)
    (hop : ∀ vs s1,
      (∀ e, opc vs s1 = .error e → errSpec h vars e) ∧
      (∀ v s2, opc vs s1 = .ok (v, s2) →
        ∃ ops, Emits s1 ops s2 ∧ termFree ops = true)) :
    (∀ e, build_op h opc args dest (s.freshVar).2 = .error e →
      errSpec h vars e) ∧
    (∀ s', build_op h opc args dest (s.freshVar).2 = .ok s' →
      ∃ ops, Emits s ops s' ∧ termFree ops = true) := by
  obtain ⟨h1, h2⟩ := build_op_spec h opc args dest (s.freshVar).2 vars hsub hop
  refine ⟨h1, fun s' hk => ?_⟩
  obtain ⟨ops, he, ht⟩ := h2 s' hk
  exact ⟨ops, by simpa using Emits.trans (emits_freshVar s) he, ht⟩

theorem build_instruction_spec (i : Instruction) (h : Heap) (bm : BlockMap)
    (s : St) :
    (∀ e, build_instruction i h bm s = .error e →
      errSpec h (referencedVars i) e) ∧
    (∀ bm' s', build_instruction i h bm s = .ok (bm', s') →
      (∃ ops, Emits s ops s' ∧ opsShape i ops) ∧
      (s.keysLt → s.posOk → bmGrows bm bm' s s')) := by
  cases i with
  | constant dest op cty val =>
      cases op
      cases val with
      | int iv =>
          cases cty with
          | int => exact constCase_spec _ h bm s dest _ rfl rfl rfl
          | bool => exact constCase_spec _ h bm s dest _ rfl rfl rfl
          | float => exact constCase_spec _ h bm s dest _ rfl rfl rfl
          | pointer pt => exact constCase_spec _ h bm s dest _ rfl rfl rfl
      | bool b =>
          cases cty with
          | int => exact constCase_spec _ h bm s dest _ rfl rfl rfl
          | bool => exact constCase_spec _ h bm s dest _ rfl rfl rfl
          | float => exact constCase_spec _ h bm s dest _ rfl rfl rfl
          | pointer pt => exact constCase_spec _ h bm s dest _ rfl rfl rfl
      | float q =>
          cases cty with
          | int => exact constCase_spec _ h bm s dest _ rfl rfl rfl
          | bool => exact constCase_spec _ h bm s dest _ rfl rfl rfl
          | float => exact constCase_spec _ h bm s dest _ rfl rfl rfl
          | pointer pt => exact constCase_spec _ h bm s dest _ rfl rfl rfl
  | value args dest funcs labels op opty =>
      cases op with
      | add =>
          exact valueCase_spec _ h bm s _ _
            (buildIBinCase_spec h .add args dest s) rfl rfl rfl
      | sub =>
          exact valueCase_spec _ h bm s _ _
            (buildIBinCase_spec h .sub args dest s) rfl rfl rfl
      | mul =>
          exact valueCase_spec _ h bm s _ _
            (buildIBinCase_spec h .mul args dest s) rfl rfl rfl
      | div =>
          exact valueCase_spec _ h bm s _ _
            (buildIBinCase_spec h .sdiv args dest s) rfl rfl rfl
      | bitand =>
          exact valueCase_spec _ h bm s _ _
            (buildIBinCase_spec h .and args dest s) rfl rfl rfl
      | and =>
          exact valueCase_spec _ h bm s _ _
            (buildIBinCase_spec h .and args dest s) rfl rfl rfl
      | or =>
          exact valueCase_spec _ h bm s _ _
            (buildIBinCase_spec h .or args dest s) rfl rfl rfl
      | shl =>
          exact valueCase_spec _ h bm s _ _
            (buildIBinCase_spec h .shl args dest s) rfl rfl rfl
      | shr =>
          exact valueCase_spec _ h bm s _ _
            (buildIBinCase_spec h .lshr args dest s) rfl rfl rfl
      | eq =>
          exact valueCase_spec _ h bm s _ _
            (buildICmpCase_spec h .eq args dest s) rfl rfl rfl
      | lt =>
          exact valueCase_spec _ h bm s _ _
            (buildICmpCase_spec h .slt args dest s) rfl rfl rfl
      | gt =>
          exact valueCase_spec _ h bm s _ _
            (buildICmpCase_spec h .sgt args dest s) rfl rfl rfl
      | le =>
          exact valueCase_spec _ h bm s _ _
            (buildICmpCase_spec h .sle args dest s) rfl rfl rfl
      | ge =>
          exact valueCase_spec _ h bm s _ _
            (buildICmpCase_spec h .sge args dest s) rfl rfl rfl
      | fadd =>
          exact valueCase_spec _ h bm s _ _
            (buildFBinCase_spec h .fadd args dest s) rfl rfl rfl
      | fsub =>
          exact valueCase_spec _ h bm s _ _
            (buildFBinCase_spec h .fsub args dest s) rfl rfl rfl
      | fmul =>
          exact valueCase_spec _ h bm s _ _
            (buildFBinCase_spec h .fmul args dest s) rfl rfl rfl
      | fdiv =>
          exact valueCase_spec _ h bm s _ _
            (buildFBinCase_spec h .fdiv args dest s) rfl rfl rfl
      | feq =>
          exact valueCase_spec _ h bm s _ _
            (buildFCmpCase_spec h .oeq args dest s) rfl rfl rfl
      | flt =>
          exact valueCase_spec _ h bm s _ _
            (buildFCmpCase_spec h .olt args dest s) rfl rfl rfl
      | fgt =>
          exact valueCase_spec _ h bm s _ _
            (buildFCmpCase_spec h .ogt args dest s) rfl rfl rfl
      | fle =>
          exact valueCase_spec _ h bm s _ _
            (buildFCmpCase_spec h .ole args dest s) rfl rfl rfl
      | fge =>
          exact valueCase_spec _ h bm s _ _
            (buildFCmpCase_spec h .oge args dest s) rfl rfl rfl
      | fmax =>
          exact valueCase_spec _ h bm s _ _
            (buildFMinMaxCase_spec h .ogt args dest s) rfl rfl rfl
      | fmin =>
          exact valueCase_spec _ h bm s _ _
            (buildFMinMaxCase_spec h .olt args dest s) rfl rfl rfl
      | smax =>
          exact valueCase_spec _ h bm s _ _
            (buildIntrinsicCase_spec h "llvm.smax.i64" args dest s) rfl rfl rfl
      | smin =>
          exact valueCase_spec _ h bm s _ _
            (buildIntrinsicCase_spec h "llvm.smin.i64" args dest s) rfl rfl rfl
      | neg =>
          exact valueCase_spec _ h bm s _ _
            (freshVar_build_op_spec h _ args dest s _
            (destArgs_sub dest args _ rfl)
            (closure1_spec h _ (fun a r => LLOp.ineg r a (s.freshVar).1)
              (fun a r => rfl))) rfl rfl rfl
      | not =>
          exact valueCase_spec _ h bm s _ _
            (freshVar_build_op_spec h _ args dest s _
            (destArgs_sub dest args _ rfl)
            (closure1_spec h _ (fun a r => LLOp.inot r a (s.freshVar).1)
              (fun a r => rfl))) rfl rfl rfl
      | select =>
          exact valueCase_spec _ h bm s _ _
            (freshVar_build_op_spec h _ args dest s _
            (destArgs_sub dest args _ rfl)
            (closure3_spec h _
              (fun a b c r => LLOp.select r a b c (s.freshVar).1)
              (fun a b c r => rfl))) rfl rfl rfl
      | id =>
          exact valueCase_spec _ h bm s _ _
            (build_op_spec h _ args dest s _ (destArgs_sub dest args _ rfl)
            (fun vs s1 => by
              constructor
              · intro e he
                simp only [bind, Except.bind] at he
                cases h0 : valAt vs 0 with
                | error e0 =>
                    simp only [h0] at he
                    cases he
                    rw [valAt_err vs 0 _ h0]
                    exact errSpec_panicked h _ _
                | ok a => simp only [h0] at he; cases he
              · intro v s2 hk
                simp only [bind, Except.bind] at hk
                cases h0 : valAt vs 0 with
                | error e0 => simp only [h0] at hk; cases hk
                | ok a =>
                    simp only [h0] at hk
                    cases hk
                    exact ⟨[], emitsNil _, rfl⟩)) rfl rfl rfl
      | phi =>
          refine ⟨fun e he => ?_, fun bm' s' hk => ?_⟩
          · cases he
            exact errSpec_not_undeclared h _ _ (by simp) (by simp)
              (fun v => by simp)
          · cases hk
      | alloc =>
          have hspec := fun (ty : Ty) => freshVar_build_op_spec h
            (fun vs s2 => do
              let c ← valAt vs 0
              Except.ok (s2.emitVal (fun r =>
                LLOp.arrayMalloc r (llvm_type_map ty) c (s.freshVar).1)))
            args dest s (dest :: args) (destArgs_sub dest args _ rfl)
            (closure1_spec h _
              (fun c r => LLOp.arrayMalloc r (llvm_type_map ty) c
                (s.freshVar).1)
              (fun c r => rfl))
          constructor
          · intro e he
            simp only [build_instruction] at he
            cases hu : unwrap_bril_ptrtype opty with
            | none =>
                rw [hu] at he
                rcases exbind_err he with he1 | ⟨y, hy, he2⟩
                · cases he1
                  exact errSpec_panicked h _ _
                · cases hy
            | some ty =>
                rw [hu] at he
                rcases exbind_err he with he1 | ⟨y, hy, he2⟩
                · cases he1
                · cases hy
                  rcases exbind_err he2 with he3 | ⟨s0, hs0, he4⟩
                  · exact (hspec ty).1 _ he3
                  · cases he4
          · intro bm' s' hk
            simp only [build_instruction] at hk
            cases hu : unwrap_bril_ptrtype opty with
            | none =>
                rw [hu] at hk
                obtain ⟨y, hy, hk2⟩ := exbind_ok hk
                cases hy
            | some ty =>
            rw [hu] at hk
            obtain ⟨y, hy, hk2⟩ := exbind_ok hk
            cases hy
            obtain ⟨s0, hs0, hk3⟩ := exbind_ok hk2
            cases hk3
            obtain ⟨ops, he1, ht1⟩ := (hspec ty).2 _ hs0
            exact ⟨⟨ops, he1, by
              simp only [opsShape, is_terminating_instr]
              exact ht1⟩,
              fun hkk hpos => bmGrows_emits (bmGrows_rfl bm s) he1 hpos rfl⟩
      | load =>
          exact valueCase_spec _ h bm s _ _
            (freshVar_build_op_spec h _ args dest s _
              (destArgs_sub dest args _ rfl)
              (closure1_spec h _
                (fun p r => LLOp.load r (llvm_type_map opty) p (s.freshVar).1)
                (fun p r => rfl))) rfl rfl rfl
      | ptradd =>
          have hspec := fun (ty : Ty) => freshVar_build_op_spec h
            (fun vs s2 => do
              let p ← valAt vs 0
              let idx ← valAt vs 1
              Except.ok (s2.emitVal (fun r =>
                LLOp.gep r (llvm_type_map ty) p idx (s.freshVar).1)))
            args dest s (dest :: args) (destArgs_sub dest args _ rfl)
            (closure2_spec h _
              (fun p idx r => LLOp.gep r (llvm_type_map ty) p idx
                (s.freshVar).1)
              (fun p idx r => rfl))
          constructor
          · intro e he
            simp only [build_instruction] at he
            cases hu : unwrap_bril_ptrtype opty with
            | none =>
                rw [hu] at he
                rcases exbind_err he with he1 | ⟨y, hy, he2⟩
                · cases he1
                  exact errSpec_panicked h _ _
                · cases hy
            | some ty =>
                rw [hu] at he
                rcases exbind_err he with he1 | ⟨y, hy, he2⟩
                · cases he1
                · cases hy
                  rcases exbind_err he2 with he3 | ⟨s0, hs0, he4⟩
                  · exact (hspec ty).1 _ he3
                  · cases he4
          · intro bm' s' hk
            simp only [build_instruction] at hk
            cases hu : unwrap_bril_ptrtype opty with
            | none =>
                rw [hu] at hk
                obtain ⟨y, hy, hk2⟩ := exbind_ok hk
                cases hy
            | some ty =>
            rw [hu] at hk
            obtain ⟨y, hy, hk2⟩ := exbind_ok hk
            cases hy
            obtain ⟨s0, hs0, hk3⟩ := exbind_ok hk2
            cases hk3
            obtain ⟨ops, he1, ht1⟩ := (hspec ty).2 _ hs0
            exact ⟨⟨ops, he1, by
              simp only [opsShape, is_terminating_instr]
              exact ht1⟩,
              fun hkk hpos => bmGrows_emits (bmGrows_rfl bm s) he1 hpos rfl⟩
      | abs =>
          constructor
          · intro e he
            simp only [build_instruction] at he
            rcases exbind_err he with he1 | ⟨p, hp, he2⟩
            · obtain ⟨v, hv1, hv2, hv3⟩ := loadArgs_err h args _ _ he1
              subst hv3
              exact ⟨by simp, by simp, fun w hw => by
                cases hw
                exact ⟨List.mem_cons_of_mem _ hv1, hv2⟩⟩
            · rcases exbind_err he2 with he3 | ⟨dwp, hdwp, he4⟩
              · obtain ⟨h1, h2⟩ := heap_get_err h dest _ he3
                subst h1
                exact ⟨by simp, by simp, fun w hw => by
                  cases hw
                  exact ⟨List.mem_cons_self _ _, h2⟩⟩
              · cases he4
          · intro bm' s' hk
            simp only [build_instruction] at hk
            obtain ⟨p, hp, hk2⟩ := exbind_ok hk
            obtain ⟨dwp, hdwp, hk3⟩ := exbind_ok hk2
            cases hk3
            obtain ⟨ops1, he1, ht1⟩ := loadArgs_ok h args _ p.1 p.2
              (by rw [hp])
            refine ⟨⟨[] ++ ops1 ++ [.call p.2.nextVal "llvm.abs.i64"
                (p.1 ++ [Val.boolConst false]) (s.freshVar).1] ++
                [.store dwp.ptr (Val.vreg p.2.nextVal)], ?_, ?_⟩,
              fun hkk hpos => ?_⟩
            · exact Emits.trans (Emits.trans (Emits.trans
                (emits_freshVar s) he1) (emits_emitVal p.2
                  (fun r => LLOp.call r "llvm.abs.i64"
                    (p.1 ++ [Val.boolConst false]) (s.freshVar).1)).2)
                (emits_emit _ _)
            · simp only [opsShape, is_terminating_instr]
              rw [termFree_append, termFree_append, termFree_append, ht1]
              rfl
            · exact bmGrows_emits (bmGrows_rfl bm s)
                (Emits.trans (Emits.trans (Emits.trans
                  (emits_freshVar s) he1) (emits_emitVal p.2
                    (fun r => LLOp.call r "llvm.abs.i64"
                      (p.1 ++ [Val.boolConst false]) (s.freshVar).1)).2)
                  (emits_emit _ _)) hpos rfl
      | call =>
          have hcl : ∀ (f0 : String) (fnty : FnType), ∀ (vs : List Val)
              (s1 : St),
              (∀ e, ((fun vs (s2 : St) =>
                  let q := s2.emitVal (fun r => LLOp.call r
                    (if f0 = "main" then "_main" else f0) vs (s.freshVar).1)
                  match fnty.ret with
                  | some _ => Except.ok q
                  | none => Except.error
                      (CompileErr.panicked "value call to void function"))
                    vs s1) = .error e →
                errSpec h (dest :: args) e) ∧
              (∀ v s2, ((fun vs (s2 : St) =>
                  let q := s2.emitVal (fun r => LLOp.call r
                    (if f0 = "main" then "_main" else f0) vs (s.freshVar).1)
                  match fnty.ret with
                  | some _ => Except.ok q
                  | none => Except.error
                      (CompileErr.panicked "value call to void function"))
                    vs s1) = .ok (v, s2) →
                ∃ ops, Emits s1 ops s2 ∧ termFree ops = true) := by
            intro f0 fnty vs s1
            constructor
            · intro e he2
              simp only at he2
              cases hr : fnty.ret with
              | some t => rw [hr] at he2; cases he2
              | none =>
                  rw [hr] at he2
                  cases he2
                  exact errSpec_panicked h _ _
            · intro v s2 hk2
              simp only at hk2
              cases hr : fnty.ret with
              | some t =>
                  rw [hr] at hk2
                  have hpq : s1.emitVal (fun r => LLOp.call r
                      (if f0 = "main" then "_main" else f0) vs
                      (s.freshVar).1) = (v, s2) := by
                    injection hk2
                  have hs2 : s2 = (s1.emitVal (fun r => LLOp.call r
                      (if f0 = "main" then "_main" else f0) vs
                      (s.freshVar).1)).2 := by rw [hpq]
                  subst hs2
                  exact ⟨[.call s1.nextVal
                      (if f0 = "main" then "_main" else f0) vs
                      (s.freshVar).1],
                    (emits_emitVal s1 (fun r => LLOp.call r
                      (if f0 = "main" then "_main" else f0) vs
                      (s.freshVar).1)).2, rfl⟩
              | none => rw [hr] at hk2; cases hk2
          constructor
          · intro e he
            simp only [build_instruction] at he
            cases hg0 : funcs.get? 0 with
            | none =>
                rw [hg0] at he
                rcases exbind_err he with he1 | ⟨y, hy, he2⟩
                · cases he1
                  exact errSpec_panicked h _ _
                · cases hy
            | some f0 =>
                rw [hg0] at he
                rcases exbind_err he with he1 | ⟨y, hy, he2⟩
                · cases he1
                · cases hy
                  rcases exbind_err he2 with he3 | ⟨fnty, hfnty, he4⟩
                  · rw [getFn_err _ _ _ he3]
                    exact errSpec_unresolved h _ _
                  · rcases exbind_err he4 with he5 | ⟨s0, hs0, he6⟩
                    · exact (freshVar_build_op_spec h _ args dest s _
                        (destArgs_sub dest args _ rfl) (hcl f0 fnty)).1 _ he5
                    · cases he6
          · intro bm' s' hk
            simp only [build_instruction] at hk
            cases hg0 : funcs.get? 0 with
            | none =>
                rw [hg0] at hk
                obtain ⟨y, hy, hk2⟩ := exbind_ok hk
                cases hy
            | some f0 =>
            rw [hg0] at hk
            obtain ⟨y, hy, hk2⟩ := exbind_ok hk
            cases hy
            obtain ⟨fnty, hfnty, hk3⟩ := exbind_ok hk2
            obtain ⟨s0, hs0, hk4⟩ := exbind_ok hk3
            cases hk4
            obtain ⟨ops, he1, ht1⟩ := (freshVar_build_op_spec h _ args dest
              s _ (destArgs_sub dest args _ rfl) (hcl f0 fnty)).2 _ hs0
            exact ⟨⟨ops, he1, by
              simp only [opsShape, is_terminating_instr]
              exact ht1⟩,
              fun hkk hpos => bmGrows_emits (bmGrows_rfl bm s) he1 hpos rfl⟩
  | effect args funcs labels op =>
      cases op with
      | jump =>
          constructor
          · intro e he
            simp only [build_instruction] at he
            cases hg0 : labels.get? 0 with
            | none =>
                rw [hg0] at he
                rcases exbind_err he with he1 | ⟨y, hy, he2⟩
                · cases he1
                  exact errSpec_panicked h _ _
                · cases hy
            | some l0 =>
                rw [hg0] at he
                rcases exbind_err he with he1 | ⟨y, hy, he2⟩
                · cases he1
                · cases hy
                  cases he2
          · intro bm' s' hk
            simp only [build_instruction] at hk
            cases hg0 : labels.get? 0 with
            | none =>
                rw [hg0] at hk
                obtain ⟨y, hy, hk2⟩ := exbind_ok hk
                cases hy
            | some l0 =>
            rw [hg0] at hk
            obtain ⟨y, hy, hk2⟩ := exbind_ok hk
            cases hy
            cases hk2
            have hbe := block_map_get_emits bm l0 s
            refine ⟨⟨[] ++ [.br (block_map_get bm l0 s).1], ?_, ?_⟩,
              fun hkk hpos => ?_⟩
            · exact Emits.trans hbe (emits_emit _ _)
            · simp only [opsShape, is_terminating_instr, if_true]
              exact ⟨[], .br (block_map_get bm l0 s).1, rfl, rfl, rfl⟩
            · exact bmGrows_emits (block_map_get_grows bm l0 s hkk).1
                (emits_emit _ _) hpos hbe.cur_eq
      | branch =>
          have hcl : ∀ (tb fb : Nat), ∀ (vs : List Val) (s1 : St),
              (∀ e, ((fun vs (s2 : St) => do
                  let c ← valAt vs 0
                  Except.ok (s2.emit (.condbr c tb fb))) vs s1) = .error e →
                errSpec h args e) ∧
              (∀ s2, ((fun vs (s2 : St) => do
                  let c ← valAt vs 0
                  Except.ok (s2.emit (.condbr c tb fb))) vs s1) = .ok s2 →
                ∃ ops, Emits s1 ops s2 ∧
                  ∃ t, ops = [t] ∧ t.isTerm = true) := by
            intro tb fb vs s1
            constructor
            · intro e he2
              simp only [bind, Except.bind] at he2
              cases h0 : valAt vs 0 with
              | error e0 =>
                  simp only [h0] at he2
                  cases he2
                  rw [valAt_err vs 0 _ h0]
                  exact errSpec_panicked h _ _
              | ok c => simp only [h0] at he2; cases he2
            · intro s2 hk2
              simp only [bind, Except.bind] at hk2
              cases h0 : valAt vs 0 with
              | error e0 => simp only [h0] at hk2; cases hk2
              | ok c =>
                  simp only [h0] at hk2
                  cases hk2
                  exact ⟨[.condbr c tb fb], emits_emit s1 _,
                    .condbr c tb fb, rfl, rfl⟩
          constructor
          · intro e he
            simp only [build_instruction] at he
            cases hg0 : labels.get? 0 with
            | none =>
                rw [hg0] at he
                rcases exbind_err he with he1 | ⟨y, hy, he2⟩
                · cases he1
                  exact errSpec_panicked h _ _
                · cases hy
            | some l0 =>
                rw [hg0] at he
                rcases exbind_err he with he1 | ⟨y, hy, he2⟩
                · cases he1
                · cases hy
                  cases hg1 : labels.get? 1 with
                  | none =>
                      rw [hg1] at he2
                      rcases exbind_err he2 with he3 | ⟨y1, hy1, he4⟩
                      · cases he3
                        exact errSpec_panicked h _ _
                      · cases hy1
                  | some l1 =>
                      rw [hg1] at he2
                      rcases exbind_err he2 with he3 | ⟨y1, hy1, he4⟩
                      · cases he3
                      · cases hy1
                        rcases exbind_err he4 with he5 | ⟨s0, hs0, he6⟩
                        · obtain ⟨herr, _⟩ := build_effect_op_shape h _
                            args _ args
                            (fun ops => ∃ t, ops = [t] ∧ t.isTerm = true)
                            (fun v hv => hv) (hcl _ _)
                          exact herr _ he5
                        · cases he6
          · intro bm' s' hk
            simp only [build_instruction] at hk
            cases hg0 : labels.get? 0 with
            | none =>
                rw [hg0] at hk
                obtain ⟨y, hy, hk2⟩ := exbind_ok hk
                cases hy
            | some l0 =>
            rw [hg0] at hk
            obtain ⟨y, hy, hk2⟩ := exbind_ok hk
            cases hy
            cases hg1 : labels.get? 1 with
            | none =>
                rw [hg1] at hk2
                obtain ⟨y1, hy1, hk3⟩ := exbind_ok hk2
                cases hy1
            | some l1 =>
            rw [hg1] at hk2
            obtain ⟨y1, hy1, hk3⟩ := exbind_ok hk2
            cases hy1
            obtain ⟨s0, hs0, hk4⟩ := exbind_ok hk3
            cases hk4
            obtain ⟨_, hok⟩ := build_effect_op_shape h _ args _ args
              (fun ops => ∃ t, ops = [t] ∧ t.isTerm = true)
              (fun v hv => hv) (hcl _ _)
            obtain ⟨ops1, ops2, he1, ht1, t, hts, htt⟩ := hok _ hs0
            subst hts
            have hbe1 := block_map_get_emits bm l0 s
            have hbe2 := block_map_get_emits (block_map_get bm l0 s).2.1 l1
              (block_map_get bm l0 s).2.2
            refine ⟨⟨([] ++ []) ++ (ops1 ++ [t]), ?_, ?_⟩,
              fun hkk hpos => ?_⟩
            · exact Emits.trans (Emits.trans hbe1 hbe2) he1
            · simp only [opsShape, is_terminating_instr, if_true]
              refine ⟨([] ++ []) ++ ops1, t, by simp, ?_,
                htt⟩
              rw [termFree_append, termFree_append, ht1]
              rfl
            · have hg1g := block_map_get_grows bm l0 s hkk
              have hg2g := block_map_get_grows (block_map_get bm l0 s).2.1
                l1 (block_map_get bm l0 s).2.2 hg1g.2
              exact bmGrows_emits (bmGrows_trans hg1g.1 hg2g.1
                hbe2.nil_blockOps hbe1.nextBlock_mono) he1 hpos
                (by rw [hbe2.cur_eq, hbe1.cur_eq])
      | call =>
          have hcl : ∀ (f0 : String), ∀ (vs : List Val) (s1 : St),
              (∀ e, ((fun vs (s2 : St) => Except.ok
                  ((s2.emitVal (fun r => LLOp.call r
                    (if f0 = "main" then "_main" else f0) vs
                    (s.freshVar).1)).2) : List Val → St →
                      Except CompileErr St) vs s1) = .error e →
                errSpec h args e) ∧
              (∀ s2, ((fun vs (s2 : St) => Except.ok
                  ((s2.emitVal (fun r => LLOp.call r
                    (if f0 = "main" then "_main" else f0) vs
                    (s.freshVar).1)).2) : List Val → St →
                      Except CompileErr St) vs s1) = .ok s2 →
                ∃ ops, Emits s1 ops s2 ∧ termFree ops = true) := by
            intro f0 vs s1
            constructor
            · intro e he2
              cases he2
            · intro s2 hk2
              cases hk2
              exact ⟨[.call s1.nextVal
                  (if f0 = "main" then "_main" else f0) vs (s.freshVar).1],
                (emits_emitVal s1 (fun r => LLOp.call r
                  (if f0 = "main" then "_main" else f0) vs
                  (s.freshVar).1)).2, rfl⟩
          constructor
          · intro e he
            simp only [build_instruction] at he
            cases hg0 : funcs.get? 0 with
            | none =>
                rw [hg0] at he
                rcases exbind_err he with he1 | ⟨y, hy, he2⟩
                · cases he1
                  exact errSpec_panicked h _ _
                · cases hy
            | some f0 =>
                rw [hg0] at he
                rcases exbind_err he with he1 | ⟨y, hy, he2⟩
                · cases he1
                · cases hy
                  rcases exbind_err he2 with he3 | ⟨fnty, hfnty, he4⟩
                  · rw [getFn_err _ _ _ he3]
                    exact errSpec_unresolved h _ _
                  · rcases exbind_err he4 with he5 | ⟨s0, hs0, he6⟩
                    · obtain ⟨herr, _⟩ := build_effect_op_spec h _ args
                        (s.freshVar).2 args (fun v hv => hv) (hcl f0)
                      exact herr _ he5
                    · cases he6
          · intro bm' s' hk
            simp only [build_instruction] at hk
            cases hg0 : funcs.get? 0 with
            | none =>
                rw [hg0] at hk
                obtain ⟨y, hy, hk2⟩ := exbind_ok hk
                cases hy
            | some f0 =>
            rw [hg0] at hk
            obtain ⟨y, hy, hk2⟩ := exbind_ok hk
            cases hy
            obtain ⟨fnty, hfnty, hk3⟩ := exbind_ok hk2
            obtain ⟨s0, hs0, hk4⟩ := exbind_ok hk3
            cases hk4
            obtain ⟨_, hok⟩ := build_effect_op_spec h _ args
              (s.freshVar).2 args (fun v hv => hv) (hcl f0)
            obtain ⟨ops, he1, ht1⟩ := hok _ hs0
            refine ⟨⟨ops, by simpa using Emits.trans (emits_freshVar s) he1,
              by
                simp only [opsShape, is_terminating_instr]
                exact ht1⟩,
              fun hkk hpos => bmGrows_emits (bmGrows_rfl bm s)
                (by simpa using Emits.trans (emits_freshVar s) he1)
                hpos rfl⟩
      | ret =>
          cases args with
          | nil =>
              constructor
              · intro e he
                simp only [build_instruction] at he
                cases he
              · intro bm' s' hk
                simp only [build_instruction] at hk
                cases hk
                refine ⟨⟨[.ret none], emits_emit s _, ?_⟩,
                  fun hkk hpos => bmGrows_emits (bmGrows_rfl bm s)
                    (emits_emit s _) hpos rfl⟩
                simp only [opsShape, is_terminating_instr, if_true]
                exact ⟨[], .ret none, rfl, rfl, rfl⟩
          | cons a0 rest =>
              constructor
              · intro e he
                simp only [build_instruction] at he
                rcases exbind_err he with he1 | ⟨wp, hwp, he2⟩
                · obtain ⟨h1, h2⟩ := heap_get_err h a0 _ he1
                  subst h1
                  exact ⟨by simp, by simp, fun w hw => by
                    cases hw
                    exact ⟨List.mem_cons_self _ _, h2⟩⟩
                · cases he2
              · intro bm' s' hk
                simp only [build_instruction] at hk
                obtain ⟨wp, hwp, hk2⟩ := exbind_ok hk
                cases hk2
                refine ⟨⟨[] ++ [.load ((s.freshVar).2).nextVal
                    (llvm_type_map wp.ty) wp.ptr (s.freshVar).1] ++
                    [.ret (some (build_load wp (s.freshVar).1
                      (s.freshVar).2).1)], ?_, ?_⟩,
                  fun hkk hpos => ?_⟩
                · exact Emits.trans (Emits.trans (emits_freshVar s)
                    (emits_build_load wp (s.freshVar).1 (s.freshVar).2).2)
                    (emits_emit _ _)
                · simp only [opsShape, is_terminating_instr, if_true]
                  exact ⟨_, _, rfl, rfl, rfl⟩
                · exact bmGrows_emits (bmGrows_rfl bm s)
                    (Emits.trans (Emits.trans (emits_freshVar s)
                      (emits_build_load wp (s.freshVar).1 (s.freshVar).2).2)
                      (emits_emit _ _)) hpos rfl
      | print =>
          constructor
          · intro e he
            simp only [build_instruction] at he
            rcases exbind_err he with he1 | ⟨t1, ht1, he2⟩
            · rw [getFn_err _ _ _ he1]
              exact errSpec_unresolved h _ _
            · rcases exbind_err he2 with he3 | ⟨t2, ht2, he4⟩
              · rw [getFn_err _ _ _ he3]
                exact errSpec_unresolved h _ _
              · rcases exbind_err he4 with he5 | ⟨t3, ht3, he6⟩
                · rw [getFn_err _ _ _ he5]
                  exact errSpec_unresolved h _ _
                · rcases exbind_err he6 with he7 | ⟨t4, ht4, he8⟩
                  · rw [getFn_err _ _ _ he7]
                    exact errSpec_unresolved h _ _
                  · rcases exbind_err he8 with he9 | ⟨t5, ht5, he10⟩
                    · rw [getFn_err _ _ _ he9]
                      exact errSpec_unresolved h _ _
                    · rcases exbind_err he10 with he11 | ⟨s0, hs0, he12⟩
                      · exact (printArgsLoop_spec h args.length args args
                          (fun v hv => hv) 0 s).1 _ he11
                      · cases he12
          · intro bm' s' hk
            simp only [build_instruction] at hk
            obtain ⟨t1, ht1, hk2⟩ := exbind_ok hk
            obtain ⟨t2, ht2, hk3⟩ := exbind_ok hk2
            obtain ⟨t3, ht3, hk4⟩ := exbind_ok hk3
            obtain ⟨t4, ht4, hk5⟩ := exbind_ok hk4
            obtain ⟨t5, ht5, hk6⟩ := exbind_ok hk5
            obtain ⟨s0, hs0, hk7⟩ := exbind_ok hk6
            cases hk7
            obtain ⟨ops, he1, hterm1⟩ := (printArgsLoop_spec h args.length
              args args (fun v hv => hv) 0 s).2 _ hs0
            refine ⟨⟨ops ++ [.call s0.nextVal "_bril_print_end" []
                "print_end"], Emits.trans he1 (emits_emitVal s0
                  (fun r => LLOp.call r "_bril_print_end" []
                    "print_end")).2, ?_⟩,
              fun hkk hpos => bmGrows_emits (bmGrows_rfl bm s)
                (Emits.trans he1 (emits_emitVal s0
                  (fun r => LLOp.call r "_bril_print_end" []
                    "print_end")).2) hpos rfl⟩
            simp only [opsShape, is_terminating_instr]
            rw [termFree_append, hterm1]
            rfl
      | nop =>
          refine ⟨?_, ?_⟩
          · intro e he
            cases he
          · intro bm' s' hk
            cases hk
            exact ⟨⟨[], emitsNil s, by simp [opsShape, is_terminating_instr,
              termFree]⟩, fun hkk hpos => bmGrows_rfl bm s⟩
      | store =>
          exact valueCase_spec _ h bm s _ _
            (build_effect_op_spec h _ args s _ (fun v hv => hv)
              (fun vs s1 => by
                constructor
                · intro e he
                  simp only [bind, Except.bind] at he
                  cases h0 : valAt vs 0 with
                  | error e0 =>
                      simp only [h0] at he
                      cases he
                      rw [valAt_err vs 0 _ h0]
                      exact errSpec_panicked h _ _
                  | ok a =>
                      simp only [h0] at he
                      cases h1 : valAt vs 1 with
                      | error e1 =>
                          simp only [h1] at he
                          cases he
                          rw [valAt_err vs 1 _ h1]
                          exact errSpec_panicked h _ _
                      | ok b => simp only [h1] at he; cases he
                · intro s2 hk
                  simp only [bind, Except.bind] at hk
                  cases h0 : valAt vs 0 with
                  | error e0 => simp only [h0] at hk; cases hk
                  | ok a =>
                      simp only [h0] at hk
                      cases h1 : valAt vs 1 with
                      | error e1 => simp only [h1] at hk; cases hk
                      | ok b =>
                          simp only [h1] at hk
                          cases hk
                          exact ⟨[.store a b], emits_emit s1 _, rfl⟩))
            rfl rfl rfl
      | free =>
          exact valueCase_spec _ h bm s _ _
            (build_effect_op_spec h _ args s _ (fun v hv => hv)
              (fun vs s1 => by
                constructor
                · intro e he
                  simp only [bind, Except.bind] at he
                  cases h0 : valAt vs 0 with
                  | error e0 =>
                      simp only [h0] at he
                      cases he
                      rw [valAt_err vs 0 _ h0]
                      exact errSpec_panicked h _ _
                  | ok a => simp only [h0] at he; cases he
                · intro s2 hk
                  simp only [bind, Except.bind] at hk
                  cases h0 : valAt vs 0 with
                  | error e0 => simp only [h0] at hk; cases hk
                  | ok a =>
                      simp only [h0] at hk
                      cases hk
                      exact ⟨[.free a], emits_emit s1 _, rfl⟩))
            rfl rfl rfl

/-! ## Claim C4, C10 and C5 -/

/-- C4: the Variable Store's declare operation (`Heap::add`): an unseen
name allocates a fresh stack slot (emitting its `alloca`) and registers it;
a re-declaration at a different type fails fatally with `typeConflict`, so
the error propagates and no module state is produced; a re-declaration at
the registered type succeeds and returns the originally registered slot
with the store and the builder unchanged. -/
theorem claim_C4 (h : Heap) (name : String) (ty : Ty) (s : St) :
    (h.map.lookup name = none →
      Heap.add h name ty s =
        .ok (⟨ty, .slotAddr s.nextSlot⟩,
             ⟨h.map ++ [(name, ⟨ty, .slotAddr s.nextSlot⟩)]⟩,
             ({ s with nextSlot := s.nextSlot + 1 }).emit
               (.alloca s.nextSlot (llvm_type_map ty) name))) ∧
    (∀ wp, h.map.lookup name = some wp → wp.ty ≠ ty →
      Heap.add h name ty s = .error (.typeConflict name)) ∧
    (∀ wp, h.map.lookup name = some wp → wp.ty = ty →
      Heap.add h name ty s = .ok (wp, h, s)) := by
  refine ⟨fun hl => ?_, fun wp hl hne => ?_, fun wp hl he => ?_⟩
  · simp [Heap.add, hl, WrappedPointer.new]
  · simp [Heap.add, hl, hne]
  · simp [Heap.add, hl, he]

theorem claim_C4_witness :
    (⟨[("x", ⟨.int, .slotAddr 0⟩)]⟩ : Heap).map.lookup "x" =
        some ⟨.int, .slotAddr 0⟩ ∧
      WrappedPointer.ty ⟨.int, .slotAddr 0⟩ ≠ .bool ∧
      Heap.add ⟨[("x", ⟨.int, .slotAddr 0⟩)]⟩ "x" .bool initSt =
        .error (.typeConflict "x") :=
  ⟨rfl, by decide,
    (claim_C4 ⟨[("x", ⟨.int, .slotAddr 0⟩)]⟩ "x" .bool initSt).2.1
      ⟨.int, .slotAddr 0⟩ rfl (by decide)⟩

/-- C10: a Constant whose declared type is float but whose literal is an
integer stores the float conversion of that integer into the destination
slot — the `as f64` cast, embedded as `FVal.ofInt`, whose numeric value is
the rational image of the integer — not the integer representation. -/
theorem claim_C10 (dest : String) (iv : Int) (h : Heap) (bm : BlockMap)
    (s : St) (wp : WrappedPointer) (hget : h.get dest = .ok wp) :
    build_instruction (.constant dest .const .float (.int iv)) h bm s =
      .ok (bm, s.emit (.store wp.ptr (.floatConst (.ofInt iv)))) ∧
    (FVal.ofInt iv).toRatQ = some (iv : ℚ) ∧
    ∀ i2 : Int, Val.floatConst (.ofInt iv) ≠ .intConst i2 := by
  refine ⟨?_, rfl, fun i2 => by simp⟩
  simp only [build_instruction, bind, Except.bind, hget]

theorem claim_C10_witness :
    (⟨[("d", ⟨.float, .slotAddr 0⟩)]⟩ : Heap).get "d" =
        .ok ⟨.float, .slotAddr 0⟩ ∧
      build_instruction (.constant "d" .const .float (.int 7))
          ⟨[("d", ⟨.float, .slotAddr 0⟩)]⟩ [] initSt =
        .ok ([], initSt.emit (.store (.slotAddr 0) (.floatConst (.ofInt 7)))) :=
  ⟨rfl, (claim_C10 "d" 7 ⟨[("d", ⟨.float, .slotAddr 0⟩)]⟩ [] initSt
      ⟨.float, .slotAddr 0⟩ rfl).1⟩

/-- C5: a Label item resolves or creates its block — `block_map_get`
returns a registered label's block with registry and state unchanged, and
for an unknown label creates and registers a fresh (hence empty) block —
then, unless the previous block was already terminated, an unconditional
jump into the label's block is emitted from it; emission switches to the
label's block and the last-emitted-instruction state resets to none. -/
theorem claim_C5 (aT iM : Bool) (h : Heap) (fuel : Nat) (l : String)
    (rest : List Code) (last : Option Instruction) (bm : BlockMap) (s : St) :
    (lowerCodesAux aT iM h (fuel + 1) (.label l :: rest) last bm s =
      if is_terminating_instr last then
        lowerCodesAux aT iM h fuel rest none (block_map_get bm l s).2.1
          ((block_map_get bm l s).2.2.positionAtEnd (block_map_get bm l s).1)
      else
        lowerCodesAux aT iM h fuel rest none (block_map_get bm l s).2.1
          ((((block_map_get bm l s).2.2).emit
              (.br (block_map_get bm l s).1)).positionAtEnd
            (block_map_get bm l s).1)) ∧
    (∀ b, bm.lookup l = some b → block_map_get bm l s = (b, bm, s)) ∧
    (bm.lookup l = none →
      block_map_get bm l s =
        (s.nextBlock, bm ++ [(l, s.nextBlock)], (s.appendBlock l).2)) ∧
    (bm.lookup l = none → s.keysLt →
      ((block_map_get bm l s).2.2).blockOps (block_map_get bm l s).1 = []) := by
  refine ⟨?_, fun b hb => block_map_get_found bm l s b hb,
    fun hn => block_map_get_new bm l s hn, fun hn hk => ?_⟩
  · cases hterm : is_terminating_instr last with
    | true =>
        simp [lowerCodesAux, isPrintCode, isInstructionCode, is_phi, bind,
          Except.bind, hterm]
    | false =>
        simp only [lowerCodesAux, isPrintCode, Bool.and_false,
          Bool.false_and, isInstructionCode, is_phi, bind, Except.bind,
          hterm, Bool.false_eq_true, if_false]
        rw [block_map_get_found _ l _ _ (block_map_get_lookup bm l s)]
  · rw [block_map_get_new bm l s hn]
    simp only [St.appendBlock, St.blockOps, lookupOps_append_empty]
    unfold lookupOps
    rw [lookup_eq_none_of_keys s.blocks s.nextBlock
      (fun p hp => Nat.ne_of_lt (hk p hp))]

theorem claim_C5_witness :
    (([("a", 3)] : BlockMap).lookup "a" = some 3 ∧
      block_map_get [("a", 3)] "a" initSt = (3, [("a", 3)], initSt)) :=
  ⟨rfl, (claim_C5 false false ⟨[]⟩ 0 "a" [] none [("a", 3)] initSt).2.1 3 rfl⟩

/-! ## Claim C7 -/

theorem loadArgs_loads (h : Heap) (args : List String) (s : St)
    (vs : List Val) (s' : St) (hk : loadArgs h args s = .ok (vs, s')) :
    ∃ ops, Emits s ops s' ∧ ops.all isLoadOp = true := by
  induction args generalizing s vs with
  | nil =>
      simp only [loadArgs] at hk
      cases hk
      exact ⟨[], emitsNil _, rfl⟩
  | cons a rest ih =>
      unfold loadArgs at hk
      simp only [bind, Except.bind] at hk
      cases hget : h.get a with
      | error e1 => simp only [hget] at hk; cases hk
      | ok wp =>
          simp only [hget] at hk
          cases hrest : loadArgs h rest (build_load wp (s.freshVar).1
              (s.freshVar).2).2 with
          | error e2 => simp only [hrest] at hk; cases hk
          | ok p =>
              simp only [hrest] at hk
              cases hk
              obtain ⟨ops2, he2, ht2⟩ := ih _ _ hrest
              refine ⟨[.load ((s.freshVar).2).nextVal
                  (llvm_type_map wp.ty) wp.ptr (s.freshVar).1] ++ ops2, ?_, ?_⟩
              · exact Emits.trans (Emits.trans (emits_freshVar s) (by
                  simpa using (emits_build_load wp (s.freshVar).1
                    (s.freshVar).2).2)) he2
              · simp [List.all_append, ht2, isLoadOp]

theorem buildFMinMax_shape (h : Heap) (p : FPred) (args : List String)
    (dest : String) (s : St) (s' : St)
    (hk : buildFMinMaxCase h p args dest s = .ok s') :
    ∃ pre c r a b pv n1 n2,
      Emits s (pre ++ [.fcmp c p a b n1, .select r (.vreg c) a b n2,
        .store pv (.vreg r)]) s' ∧ pre.all isLoadOp = true := by
  unfold buildFMinMaxCase build_op at hk
  obtain ⟨dwp, hdwp, hk1⟩ := exbind_ok hk
  obtain ⟨pr, hpr, hk2⟩ := exbind_ok hk1
  obtain ⟨vs, s3⟩ := pr
  obtain ⟨v4, hcl, hk3⟩ := exbind_ok hk2
  obtain ⟨v, s4⟩ := v4
  cases hk3
  simp only [bind, Except.bind] at hcl
  cases ha : valAt vs 0 with
  | error e0 => simp only [ha] at hcl; cases hcl
  | ok a =>
  simp only [ha] at hcl
  cases hb : valAt vs 1 with
  | error e0 => simp only [hb] at hcl; cases hcl
  | ok b =>
  simp only [hb] at hcl
  cases hcl
  obtain ⟨pre, hel, hall⟩ := loadArgs_loads h args _ vs s3 hpr
  refine ⟨pre, s3.nextVal,
    ((s3.emitVal (fun r => LLOp.fcmp r p a b (s.freshVar).1)).2).nextVal,
    a, b, dwp.ptr, (s.freshVar).1,
    (((s.freshVar).2).freshVar).1, ?_, hall⟩
  have e0 : Emits s [] ((((s.freshVar).2).freshVar).2) := by
    simpa using Emits.trans (emits_freshVar s) (emits_freshVar _)
  have hf := (emits_emitVal s3 (fun r => LLOp.fcmp r p a b (s.freshVar).1)).2
  have hsel := (emits_emitVal (s3.emitVal
      (fun r => LLOp.fcmp r p a b (s.freshVar).1)).2
    (fun r => LLOp.select r (Val.vreg s3.nextVal) a b
      ((((s.freshVar).2).freshVar).1))).2
  have hst := emits_emit ((s3.emitVal
      (fun r => LLOp.fcmp r p a b (s.freshVar).1)).2.emitVal
    (fun r => LLOp.select r (Val.vreg s3.nextVal) a b
      ((((s.freshVar).2).freshVar).1))).2
    (LLOp.store dwp.ptr (Val.vreg ((s3.emitVal
      (fun r => LLOp.fcmp r p a b (s.freshVar).1)).2.nextVal)))
  have hall2 := Emits.trans (Emits.trans (Emits.trans
    (Emits.trans e0 hel) hf) hsel) hst
  simpa using hall2

/-- C7: every float comparison (feq, flt, fgt, fle, fge) lowers through an
ordered predicate (OEQ, OLT, OGT, OLE, OGE), and ordered predicates yield
false whenever an operand is NaN; fmax and fmin lower through the
OGT-resp.-OLT compare feeding an explicit select — argument loads, a
`fcmp`, a `select` on its result and the destination store, with no
intrinsic call — whose compare-then-select value deterministically picks
the second operand on NaN operands and on numeric ties. -/
theorem claim_C7 (h : Heap) (bm : BlockMap) (s : St) (args : List String)
    (dest : String) (f : List String) (l : List String) (ty : Ty) :
    (build_instruction (.value args dest f l .feq ty) h bm s =
      buildFCmpCase h .oeq args dest s >>= fun s => .ok (bm, s)) ∧
    (build_instruction (.value args dest f l .flt ty) h bm s =
      buildFCmpCase h .olt args dest s >>= fun s => .ok (bm, s)) ∧
    (build_instruction (.value args dest f l .fgt ty) h bm s =
      buildFCmpCase h .ogt args dest s >>= fun s => .ok (bm, s)) ∧
    (build_instruction (.value args dest f l .fle ty) h bm s =
      buildFCmpCase h .ole args dest s >>= fun s => .ok (bm, s)) ∧
    (build_instruction (.value args dest f l .fge ty) h bm s =
      buildFCmpCase h .oge args dest s >>= fun s => .ok (bm, s)) ∧
    ([FPred.oeq, .olt, .ogt, .ole, .oge].all FPred.isOrdered = true) ∧
    (∀ p : FPred, p.isOrdered = true → ∀ x y : FVal,
      x = .nan ∨ y = .nan → evalFCmp p x y = false) ∧
    (build_instruction (.value args dest f l .fmax ty) h bm s =
      buildFMinMaxCase h .ogt args dest s >>= fun s => .ok (bm, s)) ∧
    (build_instruction (.value args dest f l .fmin ty) h bm s =
      buildFMinMaxCase h .olt args dest s >>= fun s => .ok (bm, s)) ∧
    (∀ p s', buildFMinMaxCase h p args dest s = .ok s' →
      ∃ pre c r a b pv n1 n2,
        Emits s (pre ++ [.fcmp c p a b n1, .select r (.vreg c) a b n2,
          .store pv (.vreg r)]) s' ∧ pre.all isLoadOp = true) ∧
    (∀ x y : FVal, x = .nan ∨ y = .nan →
      compareSelectSem .ogt x y = y ∧ compareSelectSem .olt x y = y) ∧
    (∀ x y : FVal, x.toRatQ = y.toRatQ →
      compareSelectSem .ogt x y = y ∧ compareSelectSem .olt x y = y) := by
  refine ⟨rfl, rfl, rfl, rfl, rfl, rfl, ?_, rfl, rfl,
    fun p s' hk => buildFMinMax_shape h p args dest s s' hk, ?_, ?_⟩
  · intro p hp x y hxy
    rcases hxy with rfl | rfl
    · cases p <;> simp_all [FPred.isOrdered, evalFCmp, FVal.toRatQ]
    · cases hx : x.toRatQ <;>
        cases p <;> simp_all [FPred.isOrdered, evalFCmp, FVal.toRatQ]
  · intro x y hxy
    rcases hxy with rfl | rfl
    · constructor <;> simp [compareSelectSem, evalFCmp, FVal.toRatQ]
    · cases hx : x.toRatQ <;>
        constructor <;> simp [compareSelectSem, evalFCmp, FVal.toRatQ, hx]
  · intro x y hxy
    cases hx : x.toRatQ with
    | none =>
        rw [hx] at hxy
        constructor <;>
          simp [compareSelectSem, evalFCmp, hx, hxy.symm]
    | some q =>
        rw [hx] at hxy
        constructor <;>
          simp [compareSelectSem, evalFCmp, hx, hxy.symm, lt_irrefl]

theorem claim_C7_witness :
    (FPred.isOrdered .oeq = true ∧
      (FVal.nan = FVal.nan ∨ FVal.lit 0 = FVal.nan) ∧
      evalFCmp .oeq .nan (.lit 0) = false) ∧
    (FVal.toRatQ (.lit 2) = FVal.toRatQ (.ofInt 2) ∧
      compareSelectSem .ogt (.lit 2) (.ofInt 2) = .ofInt 2) ∧
    (buildFMinMaxCase
        ⟨[("a", ⟨.float, .slotAddr 0⟩), ("b", ⟨.float, .slotAddr 1⟩),
          ("d", ⟨.float, .slotAddr 2⟩)]⟩ .ogt ["a", "b"] "d" initSt =
      .ok { initSt with
              freshCount := 4, nextVal := 4,
              blocks := [(0, ⟨"", [.load 0 .f64 (.slotAddr 0) "var2",
                .load 1 .f64 (.slotAddr 1) "var3",
                .fcmp 2 .ogt (.vreg 0) (.vreg 1) "var0",
                .select 3 (.vreg 2) (.vreg 0) (.vreg 1) "var1",
                .store (.slotAddr 2) (.vreg 3)]⟩)] } ∧
      ∃ pre c r a b pv n1 n2,
        Emits initSt (pre ++ [.fcmp c .ogt a b n1,
          .select r (.vreg c) a b n2, .store pv (.vreg r)])
          { initSt with
              freshCount := 4, nextVal := 4,
              blocks := [(0, ⟨"", [.load 0 .f64 (.slotAddr 0) "var2",
                .load 1 .f64 (.slotAddr 1) "var3",
                .fcmp 2 .ogt (.vreg 0) (.vreg 1) "var0",
                .select 3 (.vreg 2) (.vreg 0) (.vreg 1) "var1",
                .store (.slotAddr 2) (.vreg 3)]⟩)] } ∧
        pre.all isLoadOp = true) :=
  ⟨⟨rfl, Or.inl rfl,
    (claim_C7 ⟨[]⟩ [] initSt [] "d" [] [] .float).2.2.2.2.2.2.1 .oeq rfl
      .nan (.lit 0) (Or.inl rfl)⟩,
   ⟨by norm_num [FVal.toRatQ],
    ((claim_C7 ⟨[]⟩ [] initSt [] "d" [] [] .float).2.2.2.2.2.2.2.2.2.2.2
      (.lit 2) (.ofInt 2) (by norm_num [FVal.toRatQ])).1⟩,
   ⟨rfl,
    (claim_C7 ⟨[("a", ⟨.float, .slotAddr 0⟩), ("b", ⟨.float, .slotAddr 1⟩),
        ("d", ⟨.float, .slotAddr 2⟩)]⟩ [] initSt ["a", "b"] "d" [] []
        .float).2.2.2.2.2.2.2.2.2.1 .ogt _ rfl⟩⟩

/-! ## Claim C6 -/

/-- C6: when the instruction walk of a function ends with the current block
unterminated, a void function receives a bare return; a function with a
return type receives an unconditional jump to the first registered —
already existing — block, never a synthesized return value; and an empty
block registry is the fatal assertion case. -/
theorem claim_C6 (aT : Bool) (ctx : FuncCtx) (s : St)
    (last : Option Instruction) (bm : BlockMap) (s1 : St)
    (hrun : walkBody aT ctx s = .ok (last, bm, s1))
    (hterm : is_terminating_instr last = false) :
    (ctx.returnType = none →
      buildBody aT ctx s = .ok (s1.emit (.ret none))) ∧
    (∀ rt l b r2, ctx.returnType = some rt → bm = (l, b) :: r2 →
      buildBody aT ctx s = .ok (s1.emit (.br b)) ∧ (l, b) ∈ bm) ∧
    (∀ rt, ctx.returnType = some rt → bm = [] →
      buildBody aT ctx s = .error .emptyBlockRegistry) := by
  refine ⟨fun hrt => ?_, fun rt l b r2 hrt hbm => ⟨?_, by simp [hbm]⟩,
    fun rt hrt hbm => ?_⟩
  · simp [buildBody, hrun, bind, Except.bind, hterm, hrt]
  · simp [buildBody, hrun, bind, Except.bind, hterm, hrt, hbm]
  · simp [buildBody, hrun, bind, Except.bind, hterm, hrt, hbm]

theorem claim_C6_witness :
    walkBody false ⟨"f", [], 0, Heap.new, none⟩ initSt =
        .ok (none, [], initSt) ∧
      is_terminating_instr none = false ∧
      buildBody false ⟨"f", [], 0, Heap.new, none⟩ initSt =
        .ok (initSt.emit (.ret none)) :=
  ⟨rfl, rfl,
    (claim_C6 false ⟨"f", [], 0, Heap.new, none⟩ initSt none [] initSt
      rfl rfl).1 rfl⟩

/-- C6 counterexample: a function with a return type whose body registers
no block ends in the registry assertion — lowering fails fatally instead of
emitting the jump the claim promises. -/
theorem claim_C6_counterexample :
    create_module_from_program egNoJumpTarget false =
      .error .emptyBlockRegistry := by
  rfl

/-! ## Phase-one lemmas -/

theorem storeParams_emits (fn : String) (args : List Argument) (i : Nat)
    (h : Heap) (s : St) (h' : Heap) (s' : St)
    (hk : storeParams fn args i h s = .ok (h', s')) :
    ∃ ops, Emits s ops s' ∧ termFree ops = true := by
  induction args generalizing i h s with
  | nil =>
      simp only [storeParams] at hk
      cases hk
      exact ⟨[], emitsNil _, rfl⟩
  | cons a rest ih =>
      unfold storeParams at hk
      simp only [bind, Except.bind] at hk
      cases hadd : h.add a.name a.argType s with
      | error e => simp only [hadd] at hk; cases hk
      | ok t =>
          simp only [hadd] at hk
          obtain ⟨wp, h1, s1⟩ := t
          obtain ⟨ops1, he1, ht1⟩ :=
            (heap_add_ok h a.name a.argType s wp h1 s1 hadd).1
          obtain ⟨ops2, he2, ht2⟩ := ih (i + 1) h1 _ hk
          refine ⟨(ops1 ++ [.store wp.ptr (.param fn i)]) ++ ops2, ?_, ?_⟩
          · exact Emits.trans (Emits.trans he1 (emits_emit s1 _)) he2
          · rw [termFree_append, termFree_append, ht1, ht2]
            rfl

theorem prescan_emits (codes : List Code) (h : Heap) (s : St)
    (h' : Heap) (s' : St) (hk : prescan codes h s = .ok (h', s')) :
    ∃ ops, Emits s ops s' ∧ termFree ops = true := by
  induction codes generalizing h s with
  | nil =>
      simp only [prescan] at hk
      cases hk
      exact ⟨[], emitsNil _, rfl⟩
  | cons c rest ih =>
      cases c with
      | label l => exact ih h s (by simpa [prescan] using hk)
      | instruction i =>
          cases i with
          | effect args fs ls op =>
              exact ih h s (by simpa [prescan] using hk)
          | constant dest op cty val =>
              unfold prescan at hk
              simp only [bind, Except.bind] at hk
              cases hadd : h.add dest cty s with
              | error e => simp only [hadd] at hk; cases hk
              | ok t =>
                  simp only [hadd] at hk
                  obtain ⟨wp, h1, s1⟩ := t
                  obtain ⟨ops1, he1, ht1⟩ :=
                    (heap_add_ok h dest cty s wp h1 s1 hadd).1
                  obtain ⟨ops2, he2, ht2⟩ := ih h1 _ hk
                  refine ⟨ops1 ++ ops2, Emits.trans he1 he2, ?_⟩
                  rw [termFree_append, ht1, ht2]
                  rfl
          | value args dest fs ls vop oty =>
              unfold prescan at hk
              simp only [bind, Except.bind] at hk
              cases hadd : h.add dest oty s with
              | error e => simp only [hadd] at hk; cases hk
              | ok t =>
                  simp only [hadd] at hk
                  obtain ⟨wp, h1, s1⟩ := t
                  obtain ⟨ops1, he1, ht1⟩ :=
                    (heap_add_ok h dest oty s wp h1 s1 hadd).1
                  obtain ⟨ops2, he2, ht2⟩ := ih h1 _ hk
                  refine ⟨ops1 ++ ops2, Emits.trans he1 he2, ?_⟩
                  rw [termFree_append, ht1, ht2]
                  rfl

theorem declareFunction_spec (f : Func) (s : St) (ctx : FuncCtx) (s' : St)
    (hk : declareFunction f s = .ok (ctx, s')) :
    ctx.funcName = (if f.name = "main" then "_main" else f.name) ∧
    ctx.instrs = f.instrs ∧
    ctx.returnType = f.returnType ∧
    s'.funcs = s.funcs ++
      [(ctx.funcName,
        build_functiontype (f.args.map (·.argType)) f.returnType)] ∧
    s'.addedTiming = s.addedTiming ∧
    s'.ticksStart = s.ticksStart ∧
    ctx.entry = s.nextBlock ∧
    s.nextBlock < s'.nextBlock ∧
    s'.cur = ctx.entry ∧
    (∀ b, b ≠ ctx.entry → s'.blockOps b = s.blockOps b) ∧
    (s.keysLt →
      termFree (s'.blockOps ctx.entry) = true ∧ s'.keysLt ∧ s'.posOk) := by
  unfold declareFunction at hk
  obtain ⟨t1, hsp, hk1⟩ := exbind_ok hk
  obtain ⟨h1, s1⟩ := t1
  obtain ⟨t2, hpre, hk2⟩ := exbind_ok hk1
  obtain ⟨h2, s2⟩ := t2
  cases hk2
  obtain ⟨ops1, he1, ht1⟩ := storeParams_emits _ f.args 0 Heap.new _ h1 s1 hsp
  obtain ⟨ops2, he2, ht2⟩ := prescan_emits f.instrs h1 s1 h2 s' hpre
  have he := Emits.trans he1 he2
  have hcur : s'.cur = s.nextBlock := he.cur_eq
  have hsdkeys : s.keysLt →
      (∀ p ∈ (s.blocks ++
        [(s.nextBlock,
          (⟨((s.addFunction (if f.name = "main" then "_main" else f.name)
            (build_functiontype (f.args.map (·.argType))
              f.returnType)).freshLabel).1, []⟩ : BB))]),
        p.1 < s.nextBlock + 1) := by
    intro hkl p hp
    rcases List.mem_append.1 hp with hp | hp
    · exact Nat.lt_succ_of_lt (hkl p hp)
    · simp only [List.mem_singleton] at hp
      subst hp
      exact Nat.lt_succ_self _
  refine ⟨rfl, rfl, rfl, ?_, he.timing_eq, he.ticks_eq, rfl,
    lt_of_lt_of_le (Nat.lt_succ_self _) he.nextBlock_mono, he.cur_eq,
    fun b hb => ?_, fun hkl => ⟨?_, ?_, ?_⟩⟩
  · rw [he.funcs_eq]
    rfl
  · rw [he.other_ops b hb]
    exact lookupOps_append_empty s.blocks s.nextBlock
      ("label" ++ toString s.freshCount) b
  · have hco := he.cur_ops
    simp only [St.blockOps, St.positionAtEnd, St.appendBlock, St.freshLabel,
      St.addFunction] at hco
    have h0 : lookupOps s.blocks s.nextBlock = [] := by
      unfold lookupOps
      rw [lookup_eq_none_of_keys s.blocks s.nextBlock
        (fun p hp => Nat.ne_of_lt (hkl p hp))]
    rw [lookupOps_append_empty, h0] at hco
    show termFree (lookupOps s'.blocks s.nextBlock) = true
    rw [hco, List.nil_append, termFree_append, ht1, ht2]
    rfl
  · refine he.keys_lt ?_ ?_
    · intro p hp
      exact hsdkeys hkl p hp
    · exact Nat.lt_succ_self _
  · show s'.cur < s'.nextBlock
    rw [hcur]
    exact lt_of_lt_of_le (Nat.lt_succ_self _) he.nextBlock_mono

/-! ## Entry-point lemmas -/

theorem setupEntryArgs_emits (args : List Argument) (i : Nat) (h : Heap)
    (s : St) (h' : Heap) (s' : St)
    (hk : setupEntryArgs args i h s = .ok (h', s')) :
    ∃ ops, Emits s ops s' ∧ termFree ops = true := by
  induction args generalizing i h s with
  | nil =>
      simp only [setupEntryArgs] at hk
      cases hk
      exact ⟨[], emitsNil _, rfl⟩
  | cons a rest ih =>
      unfold setupEntryArgs at hk
      simp only [bind, Except.bind] at hk
      cases hadd : h.add a.name a.argType s with
      | error e => simp only [hadd] at hk; cases hk
      | ok t =>
          simp only [hadd] at hk
          obtain ⟨wp, h1, s1⟩ := t
          cases hpf : parseCallFor a.argType with
          | none => simp only [hpf] at hk; cases hk
          | some pf =>
              simp only [hpf] at hk
              obtain ⟨ops1, he1, ht1⟩ :=
                (heap_add_ok h a.name a.argType s wp h1 s1 hadd).1
              obtain ⟨ops2, he2, ht2⟩ := ih (i + 1) h1 _ hk
              have hg := (emits_emitVal s1 (fun r =>
                LLOp.gep r .ptr (.param "main" 1)
                  (.intConst (Int.ofNat (i + 1))) "calculate offset")).2
              have hl := (emits_emitVal (s1.emitVal (fun r =>
                  LLOp.gep r .ptr (.param "main" 1)
                    (.intConst (Int.ofNat (i + 1))) "calculate offset")).2
                (fun r => LLOp.load r .ptr (s1.emitVal (fun r =>
                  LLOp.gep r .ptr (.param "main" 1)
                    (.intConst (Int.ofNat (i + 1))) "calculate offset")).1
                  "load arg")).2
              have hc := (emits_emitVal ((s1.emitVal (fun r =>
                  LLOp.gep r .ptr (.param "main" 1)
                    (.intConst (Int.ofNat (i + 1))) "calculate offset")).2.emitVal
                (fun r => LLOp.load r .ptr (s1.emitVal (fun r =>
                  LLOp.gep r .ptr (.param "main" 1)
                    (.intConst (Int.ofNat (i + 1))) "calculate offset")).1
                  "load arg")).2
                (fun r => LLOp.call r pf.1 [((s1.emitVal (fun r =>
                  LLOp.gep r .ptr (.param "main" 1)
                    (.intConst (Int.ofNat (i + 1))) "calculate offset")).2.emitVal
                  (fun r => LLOp.load r .ptr (s1.emitVal (fun r =>
                    LLOp.gep r .ptr (.param "main" 1)
                      (.intConst (Int.ofNat (i + 1))) "calculate offset")).1
                    "load arg")).1] pf.2)).2
              have hst := emits_emit (((s1.emitVal (fun r =>
                  LLOp.gep r .ptr (.param "main" 1)
                    (.intConst (Int.ofNat (i + 1))) "calculate offset")).2.emitVal
                (fun r => LLOp.load r .ptr (s1.emitVal (fun r =>
                  LLOp.gep r .ptr (.param "main" 1)
                    (.intConst (Int.ofNat (i + 1))) "calculate offset")).1
                  "load arg")).2.emitVal
                (fun r => LLOp.call r pf.1 [((s1.emitVal (fun r =>
                  LLOp.gep r .ptr (.param "main" 1)
                    (.intConst (Int.ofNat (i + 1))) "calculate offset")).2.emitVal
                  (fun r => LLOp.load r .ptr (s1.emitVal (fun r =>
                    LLOp.gep r .ptr (.param "main" 1)
                      (.intConst (Int.ofNat (i + 1))) "calculate offset")).1
                    "load arg")).1] pf.2)).2
                (LLOp.store wp.ptr (((s1.emitVal (fun r =>
                  LLOp.gep r .ptr (.param "main" 1)
                    (.intConst (Int.ofNat (i + 1))) "calculate offset")).2.emitVal
                (fun r => LLOp.load r .ptr (s1.emitVal (fun r =>
                  LLOp.gep r .ptr (.param "main" 1)
                    (.intConst (Int.ofNat (i + 1))) "calculate offset")).1
                  "load arg")).2.emitVal
                (fun r => LLOp.call r pf.1 [((s1.emitVal (fun r =>
                  LLOp.gep r .ptr (.param "main" 1)
                    (.intConst (Int.ofNat (i + 1))) "calculate offset")).2.emitVal
                  (fun r => LLOp.load r .ptr (s1.emitVal (fun r =>
                    LLOp.gep r .ptr (.param "main" 1)
                      (.intConst (Int.ofNat (i + 1))) "calculate offset")).1
                    "load arg")).1] pf.2)).1)
              have hall := Emits.trans (Emits.trans (Emits.trans (Emits.trans
                (Emits.trans he1 hg) hl) hc) hst) he2
              refine ⟨_, hall, ?_⟩
              simp only [termFree_append, ht1, ht2]
              simp [termFree, LLOp.isTerm]

theorem wfOps_concat (xs : List LLOp) (t : LLOp) :
    wfOps (xs ++ [t]) = termFree xs := by
  simp [wfOps, List.dropLast_concat]

theorem termFree_wfOps (xs : List LLOp) (h : termFree xs = true) :
    wfOps xs = true := by
  simp only [wfOps, termFree, List.all_eq_true] at h ⊢
  exact fun x hx => h x (List.dropLast_subset _ hx)

theorem buildEntryPoint_spec (fns : List Func) (s : St) (s' : St)
    (hk : buildEntryPoint fns s = .ok s') :
    ("main", (⟨[.i32, .ptr], some .i32⟩ : FnType)) ∈ s'.funcs ∧
    (s.keysLt → s'.keysLt ∧
      (∀ b, b ≠ s.nextBlock → s'.blockOps b = s.blockOps b) ∧
      wfOps (s'.blockOps s.nextBlock) = true) := by
  unfold buildEntryPoint at hk
  simp only [St.getFunction, St.addFunction, St.positionAtEnd, St.freshLabel,
    St.appendBlock] at hk
  cases hgm : (s.funcs ++
      [("main", (⟨[.i32, .ptr], some .i32⟩ : FnType))]).lookup "_main" with
  | none =>
      rw [hgm] at hk
      obtain ⟨y, hy, hk2⟩ := exbind_ok hk
      cases hy
      cases hk2
      refine ⟨by simp [St.emit], fun hkl => ⟨?_, fun b hb => ?_, ?_⟩⟩
      · intro p hp
        refine keysLt_pushOp _ s.nextBlock _ (s.nextBlock + 1) ?_
          (Nat.lt_succ_self _) p hp
        intro q hq
        rcases List.mem_append.1 hq with hq | hq
        · exact Nat.lt_succ_of_lt (hkl q hq)
        · simp only [List.mem_singleton] at hq
          subst hq
          exact Nat.lt_succ_self _
      · show lookupOps (pushOp (s.blocks ++ [(s.nextBlock,
          (⟨"label" ++ toString s.freshCount, []⟩ : BB))]) s.nextBlock
          (LLOp.ret (some (.intConst 0)))) b = lookupOps s.blocks b
        rw [lookupOps_pushOp_ne _ _ _ b hb]
        exact lookupOps_append_empty s.blocks s.nextBlock _ b
      · show wfOps (lookupOps (pushOp (s.blocks ++ [(s.nextBlock,
          (⟨"label" ++ toString s.freshCount, []⟩ : BB))]) s.nextBlock
          (LLOp.ret (some (.intConst 0)))) s.nextBlock) = true
        rw [lookupOps_pushOp_self]
        rw [lookupOps_append_empty]
        have h0 : lookupOps s.blocks s.nextBlock = [] := by
          unfold lookupOps
          rw [lookup_eq_none_of_keys s.blocks s.nextBlock
            (fun p hp => Nat.ne_of_lt (hkl p hp))]
        rw [h0]
        rfl
  | some fty =>
      rw [hgm] at hk
      cases hf : List.find? (fun f => decide (f.name = "main")) fns with
      | none =>
          rw [hf] at hk
          rcases exbind_ok hk with ⟨y, hy, h2⟩
          cases hy
      | some f0 =>
          rw [hf] at hk
          obtain ⟨f1, hf1, hk1⟩ := exbind_ok hk
          cases hf1
          obtain ⟨t1, hg1, hk2⟩ := exbind_ok hk1
          obtain ⟨t2, hg2, hk3⟩ := exbind_ok hk2
          obtain ⟨t3, hg3, hk4⟩ := exbind_ok hk3
          obtain ⟨p4, hsetup, hk5⟩ := exbind_ok hk4
          obtain ⟨h4, s4⟩ := p4
          obtain ⟨s5, heff, hk6⟩ := exbind_ok hk5
          cases hk6
          obtain ⟨ops1, he1, ht1⟩ :=
            setupEntryArgs_emits f0.args 0 Heap.new _ h4 s4 hsetup
          have hop : ∀ vs s1,
              (∀ e, ((fun vs (s : St) =>
                  (Except.ok ((s.emitVal (fun r => LLOp.call r "_main" vs
                    "call main")).2) : Except CompileErr St)) vs s1) =
                  .error e →
                errSpec h4 (f0.args.map (·.name)) e) ∧
              (∀ s2, ((fun vs (s : St) =>
                  (Except.ok ((s.emitVal (fun r => LLOp.call r "_main" vs
                    "call main")).2) : Except CompileErr St)) vs s1) =
                  .ok s2 →
                ∃ ops, Emits s1 ops s2 ∧ termFree ops = true) := by
            intro vs s1
            constructor
            · intro e he
              cases he
            · intro s2 hk2
              cases hk2
              exact ⟨[LLOp.call s1.nextVal "_main" vs "call main"],
                (emits_emitVal s1 (fun r =>
                  LLOp.call r "_main" vs "call main")).2, rfl⟩
          obtain ⟨ops2, he2, ht2⟩ :=
            (build_effect_op_spec h4 (fun vs s =>
                .ok ((s.emitVal (fun r => LLOp.call r "_main" vs
                  "call main")).2))
              (f0.args.map (·.name)) s4 (f0.args.map (·.name))
              (fun v hv => hv) hop).2 s5 heff
          have he := Emits.trans he1 he2
          refine ⟨?_, fun hkl => ?_⟩
          · show ("main", (⟨[.i32, .ptr], some .i32⟩ : FnType)) ∈
              (s5.emit (LLOp.ret (some (.intConst 0)))).funcs
            show ("main", (⟨[.i32, .ptr], some .i32⟩ : FnType)) ∈ s5.funcs
            rw [he.funcs_eq]
            simp
          · have hkeyssd : ∀ p ∈ (s.blocks ++ [(s.nextBlock,
                (⟨"label" ++ toString s.freshCount, []⟩ : BB))]),
                p.1 < s.nextBlock + 1 := by
              intro q hq
              rcases List.mem_append.1 hq with hq | hq
              · exact Nat.lt_succ_of_lt (hkl q hq)
              · simp only [List.mem_singleton] at hq
                subst hq
                exact Nat.lt_succ_self _
            have hk5lt := he.keys_lt hkeyssd (Nat.lt_succ_self _)
            have hc5 : s5.cur = s.nextBlock := he.cur_eq
            have hpos5 : s5.cur < s5.nextBlock := by
              rw [hc5]
              exact lt_of_lt_of_le (Nat.lt_succ_self _) he.nextBlock_mono
            refine ⟨?_, fun b hb => ?_, ?_⟩
            · intro p hp
              exact keysLt_pushOp s5.blocks s5.cur _ s5.nextBlock hk5lt
                hpos5 p hp
            · show lookupOps (pushOp s5.blocks s5.cur
                (LLOp.ret (some (.intConst 0)))) b = lookupOps s.blocks b
              rw [lookupOps_pushOp_ne _ _ _ b (by rw [hc5]; exact hb)]
              have ho := he.other_ops b (by
                show b ≠ s.nextBlock
                exact hb)
              refine Eq.trans ho ?_
              exact lookupOps_append_empty s.blocks s.nextBlock _ b
            · show wfOps (lookupOps (pushOp s5.blocks s5.cur
                (LLOp.ret (some (.intConst 0)))) s.nextBlock) = true
              rw [← hc5, lookupOps_pushOp_self]
              have h0 : lookupOps s.blocks s.nextBlock = [] := by
                unfold lookupOps
                rw [lookup_eq_none_of_keys s.blocks s.nextBlock
                  (fun p hp => Nat.ne_of_lt (hkl p hp))]
              have hcur0 : St.blockOps s5 s5.cur = ops1 ++ ops2 := by
                rw [hc5]
                refine Eq.trans he.cur_ops ?_
                refine Eq.trans (congrArg (· ++ (ops1 ++ ops2)) ?_)
                  (List.nil_append _)
                exact Eq.trans (lookupOps_append_empty s.blocks
                  s.nextBlock _ s.nextBlock) h0
              show wfOps (St.blockOps s5 s5.cur ++
                [LLOp.ret (some (.intConst 0))]) = true
              rw [hcur0, wfOps_concat, termFree_append, ht1, ht2]
              rfl

/-! ## Claim C8 -/

theorem effect_call_renames (args fr l : List String) (f0 : String)
    (h : Heap) (bm : BlockMap) (s : St) :
    (s.funcs.lookup (if f0 = "main" then "_main" else f0) = none →
      build_instruction (.effect args (f0 :: fr) l .call) h bm s =
        .error (.unresolvedCallee (if f0 = "main" then "_main" else f0))) ∧
    (∀ bm' s', build_instruction (.effect args (f0 :: fr) l .call) h bm s =
        .ok (bm', s') →
      bm' = bm ∧ ∃ pre r vs nm,
        Emits s (pre ++ [.call r (if f0 = "main" then "_main" else f0)
          vs nm]) s' ∧ termFree pre = true) := by
  constructor
  · intro hl
    simp [build_instruction, bind, Except.bind, getFn, St.getFunction, hl]
  · intro bm' s' hk
    simp only [build_instruction] at hk
    obtain ⟨f1, hf1, hk1⟩ := exbind_ok hk
    cases hf1
    obtain ⟨fty, hfty, hk2⟩ := exbind_ok hk1
    obtain ⟨s5, heff, hk3⟩ := exbind_ok hk2
    cases hk3
    refine ⟨rfl, ?_⟩
    have hop : ∀ vs s1,
        (∀ e, ((fun vs (s9 : St) =>
            (Except.ok ((s9.emitVal (fun r => LLOp.call r
              (if f0 = "main" then "_main" else f0) vs
              ((s.freshVar).1))).2) : Except CompileErr St)) vs s1) =
            .error e →
          errSpec h args e) ∧
        (∀ s2, ((fun vs (s9 : St) =>
            (Except.ok ((s9.emitVal (fun r => LLOp.call r
              (if f0 = "main" then "_main" else f0) vs
              ((s.freshVar).1))).2) : Except CompileErr St)) vs s1) =
            .ok s2 →
          ∃ ops, Emits s1 ops s2 ∧
            ∃ r vs2 nm, ops = [.call r
              (if f0 = "main" then "_main" else f0) vs2 nm]) := by
      intro vs s1
      constructor
      · intro e he
        cases he
      · intro s2 hk4
        cases hk4
        exact ⟨[LLOp.call s1.nextVal (if f0 = "main" then "_main" else f0)
            vs ((s.freshVar).1)],
          (emits_emitVal s1 (fun r => LLOp.call r
            (if f0 = "main" then "_main" else f0) vs
            ((s.freshVar).1))).2, s1.nextVal, vs, (s.freshVar).1, rfl⟩
    obtain ⟨ops1, ops2, hem, ht1, r, vs2, nm, hops2⟩ :=
      (build_effect_op_shape h _ args _ args
        (fun ops => ∃ r vs2 nm, ops = [LLOp.call r
          (if f0 = "main" then "_main" else f0) vs2 nm])
        (fun v hv => hv) hop).2 s' heff
    subst hops2
    exact ⟨ops1, r, vs2, nm,
      by simpa using Emits.trans (emits_freshVar s) hem, ht1⟩

theorem value_call_renames (args : List String) (dest : String)
    (fr l : List String) (f0 : String) (ty : Ty) (h : Heap)
    (bm : BlockMap) (s : St) :
    (s.funcs.lookup (if f0 = "main" then "_main" else f0) = none →
      build_instruction (.value args dest (f0 :: fr) l .call ty) h bm s =
        .error (.unresolvedCallee (if f0 = "main" then "_main" else f0))) ∧
    (∀ bm' s', build_instruction (.value args dest (f0 :: fr) l .call ty)
        h bm s = .ok (bm', s') →
      bm' = bm ∧ ∃ pre c vs nm pv,
        Emits s (pre ++ [.call c (if f0 = "main" then "_main" else f0)
          vs nm, .store pv (.vreg c)]) s' ∧ termFree pre = true) := by
  constructor
  · intro hl
    simp [build_instruction, bind, Except.bind, getFn, St.getFunction, hl]
  · intro bm' s' hk
    simp only [build_instruction] at hk
    obtain ⟨f1, hf1, hk1⟩ := exbind_ok hk
    cases hf1
    obtain ⟨fty, hfty, hk2⟩ := exbind_ok hk1
    obtain ⟨s5, hbop, hk3⟩ := exbind_ok hk2
    cases hk3
    refine ⟨rfl, ?_⟩
    unfold build_op at hbop
    obtain ⟨dwp, hdwp, hb1⟩ := exbind_ok hbop
    obtain ⟨pr, hla, hb2⟩ := exbind_ok hb1
    obtain ⟨vs, s3⟩ := pr
    obtain ⟨v4, hcl, hb3⟩ := exbind_ok hb2
    obtain ⟨v, s4⟩ := v4
    cases hb3
    cases hr : fty.ret with
    | none =>
        simp only [hr] at hcl
        cases hcl
    | some rt =>
        simp only [hr] at hcl
        cases hcl
        obtain ⟨lops, hel, htl⟩ := loadArgs_ok h args _ vs s3 hla
        refine ⟨lops, s3.nextVal, vs, (s.freshVar).1, dwp.ptr, ?_, htl⟩
        have hc := (emits_emitVal s3 (fun r => LLOp.call r
          (if f0 = "main" then "_main" else f0) vs ((s.freshVar).1))).2
        have hst := emits_emit (s3.emitVal (fun r => LLOp.call r
            (if f0 = "main" then "_main" else f0) vs ((s.freshVar).1))).2
          (LLOp.store dwp.ptr (Val.vreg s3.nextVal))
        have hall := Emits.trans (Emits.trans (Emits.trans
          (emits_freshVar s) hel) hc) hst
        simpa using hall

/-- C8: the source entry function `main` is lowered under the internal
alternate name `_main` (its declaration registers `_main`, leaving the
literal name free); every call instruction naming `main` — value form or
effect form — resolves and emits its call against `_main`; and the
synthesized process entry point is registered under the literal name
`main`. -/
theorem claim_C8 :
    (∀ f s ctx s', f.name = "main" → declareFunction f s = .ok (ctx, s') →
      ctx.funcName = "_main" ∧
      s'.funcs = s.funcs ++ [("_main",
        build_functiontype (f.args.map (·.argType)) f.returnType)]) ∧
    (∀ args fr l (h : Heap) bm (s : St) bm' s',
      build_instruction (.effect args ("main" :: fr) l .call) h bm s =
        .ok (bm', s') →
      ∃ pre r vs nm, Emits s (pre ++ [.call r "_main" vs nm]) s' ∧
        termFree pre = true) ∧
    (∀ args fr l (h : Heap) bm (s : St),
      s.funcs.lookup "_main" = none →
      build_instruction (.effect args ("main" :: fr) l .call) h bm s =
        .error (.unresolvedCallee "_main")) ∧
    (∀ args dest fr l ty (h : Heap) bm (s : St) bm' s',
      build_instruction (.value args dest ("main" :: fr) l .call ty)
        h bm s = .ok (bm', s') →
      ∃ pre c vs nm pv, Emits s (pre ++ [.call c "_main" vs nm,
        .store pv (.vreg c)]) s' ∧ termFree pre = true) ∧
    (∀ fns s s', buildEntryPoint fns s = .ok s' →
      ("main", (⟨[.i32, .ptr], some .i32⟩ : FnType)) ∈ s'.funcs) := by
  refine ⟨fun f s ctx s' hname hk => ?_, fun args fr l h bm s bm' s' hk => ?_,
    fun args fr l h bm s hl => ?_, fun args dest fr l ty h bm s bm' s' hk => ?_,
    fun fns s s' hk => (buildEntryPoint_spec fns s s' hk).1⟩
  · obtain ⟨h1, _, _, h4, _⟩ := declareFunction_spec f s ctx s' hk
    rw [hname] at h1
    have h2 : ctx.funcName = "_main" := by simpa using h1
    exact ⟨h2, by rw [h4, h2]⟩
  · exact (effect_call_renames args fr l "main" h bm s).2 bm' s' hk |>.2
  · exact (effect_call_renames args fr l "main" h bm s).1 hl
  · exact (value_call_renames args dest fr l "main" ty h bm s).2 bm' s' hk |>.2

theorem claim_C8_witness :
    Func.name ⟨"main", [], [], none⟩ = "main" ∧
    ∃ ctx s', declareFunction ⟨"main", [], [], none⟩ initSt =
        .ok (ctx, s') ∧
      ctx.funcName = "_main" ∧
      s'.funcs = initSt.funcs ++
        [("_main", build_functiontype [] none)] :=
  ⟨rfl, _, _, rfl,
    claim_C8.1 ⟨"main", [], [], none⟩ initSt _ _ rfl rfl⟩

/-! ## Phi lemmas and claim C1 -/

theorem bmGrows_comp {bm bm1 bm2 : BlockMap} {s s1 s2 : St}
    (g1 : bmGrows bm bm1 s s1) (g2 : bmGrows bm1 bm2 s1 s2)
    (hother : ∀ b, b ≠ s1.cur → s2.blockOps b = s1.blockOps b)
    (hcur : s1.cur = s.cur) (hpos : s.posOk)
    (hnb : s.nextBlock ≤ s1.nextBlock) : bmGrows bm bm2 s s2 := by
  obtain ⟨⟨ne1, hne1, hnew1⟩, hinv1⟩ := g1
  obtain ⟨⟨ne2, hne2, hnew2⟩, hinv2⟩ := g2
  refine ⟨⟨ne1 ++ ne2, by rw [hne2, hne1, List.append_assoc], ?_⟩,
    fun hi => hinv2 (hinv1 hi)⟩
  intro e he
  rcases List.mem_append.1 he with hm | hm
  · obtain ⟨h1, h2⟩ := hnew1 e hm
    refine ⟨h1, ?_⟩
    rw [hother e.2 (by
      rw [hcur]
      exact ne_of_gt (lt_of_lt_of_le hpos h1))]
    exact h2
  · obtain ⟨h1, h2⟩ := hnew2 e hm
    exact ⟨le_trans hnb h1, h2⟩

theorem resolveLabels_spec (ls : List String) : ∀ (bm : BlockMap) (s : St),
    Emits s [] (resolveLabels ls bm s).2.2 ∧
    (s.keysLt →
      bmGrows bm (resolveLabels ls bm s).2.1 s (resolveLabels ls bm s).2.2 ∧
      (resolveLabels ls bm s).2.2.keysLt) := by
  induction ls with
  | nil => exact fun bm s => ⟨emitsNil s, fun hk => ⟨bmGrows_rfl bm s, hk⟩⟩
  | cons l rest ih =>
      intro bm s
      obtain ⟨hie, hig⟩ := ih (block_map_get bm l s).2.1
        (block_map_get bm l s).2.2
      have hbe := block_map_get_emits bm l s
      constructor
      · simpa using Emits.trans hbe hie
      · intro hk
        obtain ⟨hg1, hk1⟩ := block_map_get_grows bm l s hk
        obtain ⟨hg2, hk2⟩ := hig hk1
        refine ⟨?_, hk2⟩
        show bmGrows bm (resolveLabels rest _ _).2.1 s
          (resolveLabels rest _ _).2.2
        refine bmGrows_trans hg1 hg2 ?_ hbe.nextBlock_mono
        exact hie.nil_blockOps

theorem getPtrs_err (h : Heap) (as : List String) (e : CompileErr)
    (he : getPtrs h as = .error e) :
    ∃ v, v ∈ as ∧ h.map.lookup v = none ∧ e = .undeclaredVariable v := by
  induction as with
  | nil => simp [getPtrs] at he
  | cons a rest ih =>
      unfold getPtrs at he
      simp only [bind, Except.bind] at he
      cases hget : h.get a with
      | error e1 =>
          simp only [hget] at he
          cases he
          obtain ⟨h1, h2⟩ := heap_get_err h a _ hget
          exact ⟨a, by simp, h2, h1⟩
      | ok wp =>
          simp only [hget] at he
          cases hrest : getPtrs h rest with
          | error e2 =>
              simp only [hrest] at he
              cases he
              obtain ⟨v, hv1, hv2, hv3⟩ := ih hrest
              exact ⟨v, by simp [hv1], hv2, hv3⟩
          | ok ps =>
              simp only [hrest] at he
              cases he

theorem getPtrs_ok (h : Heap) (as : List String) (ptrs : List Val)
    (hk : getPtrs h as = .ok ptrs) :
    List.Forall₂ (fun a p => ∃ wp, h.map.lookup a = some wp ∧ p = wp.ptr)
      as ptrs := by
  induction as generalizing ptrs with
  | nil =>
      simp only [getPtrs] at hk
      cases hk
      exact List.Forall₂.nil
  | cons a rest ih =>
      unfold getPtrs at hk
      simp only [bind, Except.bind] at hk
      cases hget : h.get a with
      | error e1 => simp only [hget] at hk; cases hk
      | ok wp =>
          simp only [hget] at hk
          cases hrest : getPtrs h rest with
          | error e2 => simp only [hrest] at hk; cases hk
          | ok ps =>
              simp only [hrest] at hk
              cases hk
              exact List.Forall₂.cons
                ⟨wp, heap_get_ok h a wp hget, rfl⟩ (ih ps hrest)

theorem build_phi_err (i : Instruction) (h : Heap) (bm : BlockMap) (s : St)
    (e : CompileErr) (he : build_phi i h bm s = .error e) :
    errSpec h (referencedVars i) e := by
  cases i with
  | constant dest op cty val =>
      cases he
      exact errSpec_panicked h _ _
  | effect args fs ls op =>
      cases he
      exact errSpec_panicked h _ _
  | value args dest fs ls vop oty =>
      cases vop <;> try (cases he; exact errSpec_panicked h _ _)
      case phi =>
        unfold build_phi at he
        simp only [bind, Except.bind] at he
        cases hgp : getPtrs h args with
        | error e1 =>
            simp only [hgp] at he
            cases he
            obtain ⟨v, hv1, hv2, hv3⟩ := getPtrs_err h args _ hgp
            subst hv3
            exact ⟨by simp, by simp, fun v2 hv2e => by
              cases hv2e
              exact ⟨by simp [referencedVars, hv1], hv2⟩⟩
        | ok ptrs => simp only [hgp] at he; cases he

theorem forall2_mem_right {α β : Type} {R : α → β → Prop} {as : List α}
    {bs : List β} (h : List.Forall₂ R as bs) : ∀ b ∈ bs, ∃ a, R a b := by
  induction h with
  | nil => simp
  | cons h1 h2 ih =>
      intro b hb
      rcases List.mem_cons.1 hb with rfl | hb
      · exact ⟨_, h1⟩
      · exact ih b hb

theorem build_phi_ok (i : Instruction) (h : Heap) (bm : BlockMap) (s : St)
    (v : Val) (bm' : BlockMap) (s' : St)
    (hk : build_phi i h bm s = .ok (v, bm', s')) :
    (∃ ops, Emits s ops s' ∧ (∀ op ∈ ops, phiOpOk h op) ∧
      termFree ops = true) ∧
    (s.keysLt → s.posOk → bmGrows bm bm' s s' ∧ s'.keysLt) := by
  cases i with
  | constant dest op cty val => cases hk
  | effect args fs ls op => cases hk
  | value args dest fs ls vop oty =>
      cases vop <;> try cases hk
      case phi =>
        unfold build_phi at hk
        simp only [bind, Except.bind] at hk
        cases hgp : getPtrs h args with
        | error e1 => simp only [hgp] at hk; cases hk
        | ok ptrs =>
            simp only [hgp] at hk
            cases hk
            have hfa := getPtrs_ok h args ptrs hgp
            obtain ⟨hre, hrg⟩ := resolveLabels_spec ls bm ((s.freshVar).2)
            have hphi := (emits_emitVal
              (resolveLabels ls bm ((s.freshVar).2)).2.2
              (fun r => LLOp.phi r .ptr
                (ptrs.zip (resolveLabels ls bm ((s.freshVar).2)).1)
                ((s.freshVar).1))).2
            have hmem := forall2_mem_right hfa
            constructor
            · refine ⟨[LLOp.phi
                  ((resolveLabels ls bm ((s.freshVar).2)).2.2).nextVal .ptr
                  (ptrs.zip (resolveLabels ls bm ((s.freshVar).2)).1)
                  ((s.freshVar).1)], ?_, ?_, rfl⟩
              · simpa using Emits.trans
                  (Emits.trans (emits_freshVar s) hre) hphi
              · intro op hop
                simp only [List.mem_singleton] at hop
                subst hop
                refine ⟨_, _, _, rfl, ?_⟩
                intro q hq
                obtain ⟨hq1, _⟩ := List.of_mem_zip hq
                obtain ⟨a, wp, hlw, hpe⟩ := hmem q.1 hq1
                exact ⟨a, wp, hlw, hpe⟩
            · intro hkl hpos
              obtain ⟨hg1, hk1⟩ := hrg hkl
              refine ⟨?_, ?_⟩
              · refine bmGrows_emits (bmGrows_emits hg1 hphi hpos
                  hre.cur_eq) (emitsNil _) hpos ?_
                exact Eq.trans hphi.cur_eq hre.cur_eq
              · refine hphi.keys_lt (fun p hp => hk1 p hp) ?_
                have h1 : (resolveLabels ls bm ((s.freshVar).2)).2.2.cur
                    = s.cur := hre.cur_eq
                rw [h1]
                exact lt_of_lt_of_le hpos hre.nextBlock_mono

theorem errSpec_mono (h : Heap) (vars vars2 : List String) (e : CompileErr)
    (hs : ∀ v ∈ vars, v ∈ vars2) (he : errSpec h vars e) :
    errSpec h vars2 e :=
  ⟨he.1, he.2.1, fun v hv => ⟨hs v (he.2.2 v hv).1, (he.2.2 v hv).2⟩⟩

theorem finish_phi_err (i : Instruction) (h : Heap) (p : Val) (s : St)
    (e : CompileErr) (he : finish_phi i h p s = .error e) :
    errSpec h (referencedVars i) e := by
  cases i with
  | constant dest op cty val =>
      cases he
      exact errSpec_panicked h _ _
  | effect args fs ls op =>
      cases he
      exact errSpec_panicked h _ _
  | value args dest fs ls vop oty =>
      cases vop <;> try (cases he; exact errSpec_panicked h _ _)
      case phi =>
        unfold finish_phi at he
        simp only [bind, Except.bind] at he
        cases hget : h.get dest with
        | error e1 =>
            simp only [hget] at he
            cases he
            obtain ⟨h1, h2⟩ := heap_get_err h dest _ hget
            subst h1
            refine ⟨by simp, by simp, fun v hv => ?_⟩
            cases hv
            exact ⟨by simp [referencedVars], h2⟩
        | ok wp => simp only [hget] at he; cases he

theorem finish_phi_okL (i : Instruction) (h : Heap) (p : Val) (s : St)
    (s' : St) (hk : finish_phi i h p s = .ok s') :
    ∃ ops, Emits s ops s' ∧ (∀ op ∈ ops, loadOrStoreOp op) ∧
      termFree ops = true := by
  cases i with
  | constant dest op cty val => cases hk
  | effect args fs ls op => cases hk
  | value args dest fs ls vop oty =>
      cases vop <;> try cases hk
      case phi =>
        unfold finish_phi at hk
        simp only [bind, Except.bind] at hk
        cases hget : h.get dest with
        | error e1 => simp only [hget] at hk; cases hk
        | ok wp =>
            simp only [hget] at hk
            cases hk
            refine ⟨[.load (((s.freshVar).2).nextVal) (llvm_type_map oty) p
                ((s.freshVar).1),
              .store wp.ptr (.vreg (((s.freshVar).2).nextVal))], ?_, ?_, rfl⟩
            · have hl := (emits_build_load (⟨oty, p⟩ : WrappedPointer)
                ((s.freshVar).1) ((s.freshVar).2)).2
              have hst := emits_emit (build_load (⟨oty, p⟩ : WrappedPointer)
                ((s.freshVar).1) ((s.freshVar).2)).2
                (LLOp.store wp.ptr
                  (build_load (⟨oty, p⟩ : WrappedPointer)
                    ((s.freshVar).1) ((s.freshVar).2)).1)
              simpa using Emits.trans (Emits.trans (emits_freshVar s) hl) hst
            · intro op hop
              rcases List.mem_cons.1 hop with rfl | hop
              · exact Or.inl ⟨_, _, _, _, rfl⟩
              · rcases List.mem_cons.1 hop with rfl | hop
                · exact Or.inr ⟨_, _, rfl⟩
                · cases hop

theorem finish_phi_shape (args : List String) (dest : String)
    (fs ls : List String) (oty : Ty) (h : Heap) (p : Val) (s : St) (s' : St)
    (hk : finish_phi (.value args dest fs ls .phi oty) h p s = .ok s') :
    ∃ dwp r nm, h.map.lookup dest = some dwp ∧
      Emits s [.load r (llvm_type_map oty) p nm,
        .store dwp.ptr (.vreg r)] s' := by
  unfold finish_phi at hk
  simp only [bind, Except.bind] at hk
  cases hget : h.get dest with
  | error e1 => simp only [hget] at hk; cases hk
  | ok wp =>
      simp only [hget] at hk
      cases hk
      refine ⟨wp, ((s.freshVar).2).nextVal, (s.freshVar).1,
        heap_get_ok h dest wp hget, ?_⟩
      have hl := (emits_build_load (⟨oty, p⟩ : WrappedPointer)
        ((s.freshVar).1) ((s.freshVar).2)).2
      have hst := emits_emit (build_load (⟨oty, p⟩ : WrappedPointer)
        ((s.freshVar).1) ((s.freshVar).2)).2
        (LLOp.store wp.ptr
          (build_load (⟨oty, p⟩ : WrappedPointer)
            ((s.freshVar).1) ((s.freshVar).2)).1)
      simpa using Emits.trans (Emits.trans (emits_freshVar s) hl) hst

theorem buildPhis_spec (h : Heap) (run : List Code) :
    ∀ (bm : BlockMap) (s : St),
    (∀ e, buildPhis h run bm s = .error e →
      errSpec h (referencedVarsOfCodes run) e) ∧
    (∀ pairs bm' s', buildPhis h run bm s = .ok (pairs, bm', s') →
      (∃ ops, Emits s ops s' ∧ (∀ op ∈ ops, phiOpOk h op) ∧
        termFree ops = true) ∧
      (∀ pr ∈ pairs, Code.instruction pr.1 ∈ run) ∧
      (s.keysLt → s.posOk → bmGrows bm bm' s s' ∧ s'.keysLt)) := by
  induction run with
  | nil =>
      intro bm s
      constructor
      · intro e he
        cases he
      · intro pairs bm' s' hk
        cases hk
        exact ⟨⟨[], emitsNil _, by simp, rfl⟩, by simp,
          fun hkl _ => ⟨bmGrows_rfl bm s, hkl⟩⟩
  | cons c rest ih =>
      intro bm s
      cases c with
      | label l =>
          constructor
          · intro e he
            cases he
            exact errSpec_panicked h _ _
          · intro pairs bm' s' hk
            cases hk
      | instruction i =>
          constructor
          · intro e he
            unfold buildPhis at he
            rcases exbind_err he with he1 | ⟨t1, ht1, he2⟩
            · refine errSpec_mono h _ _ _ ?_ (build_phi_err i h bm s _ he1)
              intro v hv
              simp [referencedVarsOfCodes, hv]
            · obtain ⟨v1, bm1, s1⟩ := t1
              rcases exbind_err he2 with he3 | ⟨t2, ht2, he4⟩
              · refine errSpec_mono h _ _ _ ?_
                  ((ih bm1 s1).1 _ he3)
                intro v hv
                simp [referencedVarsOfCodes, hv]
              · obtain ⟨p2, bm2, s2⟩ := t2
                cases he4
          · intro pairs bm' s' hk
            unfold buildPhis at hk
            obtain ⟨t1, ht1, hk2⟩ := exbind_ok hk
            obtain ⟨v1, bm1, s1⟩ := t1
            obtain ⟨t2, ht2, hk3⟩ := exbind_ok hk2
            obtain ⟨p2, bm2, s2⟩ := t2
            cases hk3
            obtain ⟨⟨ops1, he1, hphi1, htf1⟩, hg1⟩ :=
              build_phi_ok i h bm s v1 bm1 s1 ht1
            obtain ⟨⟨ops2, he2, hphi2, htf2⟩, hmem2, hg2⟩ :=
              (ih bm1 s1).2 p2 bm' s' ht2
            refine ⟨⟨ops1 ++ ops2, Emits.trans he1 he2, ?_, ?_⟩, ?_, ?_⟩
            · intro op hop
              rcases List.mem_append.1 hop with hop | hop
              · exact hphi1 op hop
              · exact hphi2 op hop
            · rw [termFree_append, htf1, htf2]
              rfl
            · intro pr hpr
              rcases List.mem_cons.1 hpr with rfl | hpr
              · exact List.mem_cons_self _ _
              · exact List.mem_cons_of_mem _ (hmem2 pr hpr)
            · intro hkl hpos
              obtain ⟨hgg1, hkl1⟩ := hg1 hkl hpos
              have hpos1 : s1.posOk := by
                show s1.cur < s1.nextBlock
                rw [he1.cur_eq]
                exact lt_of_lt_of_le hpos he1.nextBlock_mono
              obtain ⟨hgg2, hkl2⟩ := hg2 hkl1 hpos1
              refine ⟨bmGrows_comp hgg1 hgg2 he2.other_ops he1.cur_eq
                hpos he1.nextBlock_mono, hkl2⟩

theorem finishPhis_spec (h : Heap) (pairs : List (Instruction × Val)) :
    ∀ (s : St),
    (∀ e, finishPhis h pairs s = .error e →
      ∃ i, (∃ v, (i, v) ∈ pairs) ∧ errSpec h (referencedVars i) e) ∧
    (∀ s', finishPhis h pairs s = .ok s' →
      ∃ ops, Emits s ops s' ∧ (∀ op ∈ ops, loadOrStoreOp op) ∧
        termFree ops = true) := by
  induction pairs with
  | nil =>
      intro s
      constructor
      · intro e he
        cases he
      · intro s' hk
        cases hk
        exact ⟨[], emitsNil _, by simp, rfl⟩
  | cons pr rest ih =>
      intro s
      obtain ⟨i, v⟩ := pr
      constructor
      · intro e he
        unfold finishPhis at he
        rcases exbind_err he with he1 | ⟨s1, hs1, he2⟩
        · exact ⟨i, ⟨v, List.mem_cons_self _ _⟩,
            finish_phi_err i h v s _ he1⟩
        · obtain ⟨i2, ⟨v2, hv2⟩, hsp⟩ := (ih s1).1 _ he2
          exact ⟨i2, ⟨v2, List.mem_cons_of_mem _ hv2⟩, hsp⟩
      · intro s' hk
        unfold finishPhis at hk
        obtain ⟨s1, hs1, hk2⟩ := exbind_ok hk
        obtain ⟨ops1, he1, hl1, ht1⟩ := finish_phi_okL i h v s s1 hs1
        obtain ⟨ops2, he2, hl2, ht2⟩ := (ih s1).2 s' hk2
        refine ⟨ops1 ++ ops2, Emits.trans he1 he2, ?_, ?_⟩
        · intro op hop
          rcases List.mem_append.1 hop with hop | hop
          · exact hl1 op hop
          · exact hl2 op hop
        · rw [termFree_append, ht1, ht2]
          rfl

theorem build_phi_shape (args : List String) (dest : String)
    (f labels : List String) (oty : Ty) (h : Heap) (bm : BlockMap) (s : St)
    (v : Val) (bm' : BlockMap) (s' : St)
    (hk : build_phi (.value args dest f labels .phi oty) h bm s =
      .ok (v, bm', s')) :
    ∃ r ptrs nm, v = .vreg r ∧ getPtrs h args = .ok ptrs ∧
      List.Forall₂ (fun a p => ∃ wp, h.map.lookup a = some wp ∧ p = wp.ptr)
        args ptrs ∧
      Emits s [.phi r .ptr
        (ptrs.zip (resolveLabels labels bm ((s.freshVar).2)).1) nm] s' := by
  unfold build_phi at hk
  simp only [bind, Except.bind] at hk
  cases hgp : getPtrs h args with
  | error e1 => simp only [hgp] at hk; cases hk
  | ok ptrs =>
      simp only [hgp] at hk
      cases hk
      refine ⟨((resolveLabels labels bm ((s.freshVar).2)).2.2).nextVal,
        ptrs, (s.freshVar).1, rfl, rfl, getPtrs_ok h args ptrs hgp, ?_⟩
      have hre := (resolveLabels_spec labels bm ((s.freshVar).2)).1
      have hphi := (emits_emitVal
        (resolveLabels labels bm ((s.freshVar).2)).2.2
        (fun r => LLOp.phi r .ptr
          (ptrs.zip (resolveLabels labels bm ((s.freshVar).2)).1)
          ((s.freshVar).1))).2
      simpa using Emits.trans (Emits.trans (emits_freshVar s) hre) hphi

/-- C1: a maximal phi run is lowered in two passes.  The walk, on a phi
head, runs pass 1 (`buildPhis`) over the whole consecutive phi run and only
then pass 2 (`finishPhis`) over the collected pairs; pass 1 creates for
each phi one pointer-typed phi node whose incoming value per predecessor
label block is the registered stack address of the corresponding source
operand (`getPtrs`), not a loaded value; pass 2 loads through the address
the phi selected and stores into the phi's destination slot; the combined
emission is all the phi nodes followed by all the loads and stores. -/
theorem claim_C1 :
    (∀ (aT iM : Bool) (h : Heap) (fuel : Nat) (c : Code) (rest : List Code)
      (last : Option Instruction) (bm : BlockMap) (s : St),
      is_phi c = true → is_terminating_instr last = false →
      lowerCodesAux aT iM h (fuel + 1) (c :: rest) last bm s =
        (buildPhis h ((c :: rest).takeWhile is_phi) bm s) >>= fun t =>
          (finishPhis h t.1 t.2.2) >>= fun s2 =>
            lowerCodesAux aT iM h fuel ((c :: rest).dropWhile is_phi)
              (match ((c :: rest).takeWhile is_phi).getLast? with
               | some (.instruction i) => some i
               | _ => last) t.2.1 s2) ∧
    (∀ args dest f labels oty (h : Heap) bm (s : St) v bm' s',
      build_phi (.value args dest f labels .phi oty) h bm s =
        .ok (v, bm', s') →
      ∃ r ptrs nm, v = .vreg r ∧ getPtrs h args = .ok ptrs ∧
        List.Forall₂ (fun a p => ∃ wp, h.map.lookup a = some wp ∧
          p = wp.ptr) args ptrs ∧
        Emits s [.phi r .ptr
          (ptrs.zip (resolveLabels labels bm ((s.freshVar).2)).1) nm] s') ∧
    (∀ args dest f labels oty (h : Heap) (p : Val) (s : St) s',
      finish_phi (.value args dest f labels .phi oty) h p s = .ok s' →
      ∃ dwp r nm, h.map.lookup dest = some dwp ∧
        Emits s [.load r (llvm_type_map oty) p nm,
          .store dwp.ptr (.vreg r)] s') ∧
    (∀ (h : Heap) (run : List Code) bm (s : St) pairs bm1 s1 s2,
      buildPhis h run bm s = .ok (pairs, bm1, s1) →
      finishPhis h pairs s1 = .ok s2 →
      ∃ phiOps lsOps, Emits s (phiOps ++ lsOps) s2 ∧
        (∀ op ∈ phiOps, phiOpOk h op) ∧
        (∀ op ∈ lsOps, loadOrStoreOp op)) := by
  refine ⟨?_, fun args dest f labels oty h bm s v bm' s' hk =>
      build_phi_shape args dest f labels oty h bm s v bm' s' hk,
    fun args dest f labels oty h p s s' hk =>
      finish_phi_shape args dest f labels oty h p s s' hk,
    fun h run bm s pairs bm1 s1 s2 hb hf => ?_⟩
  · intro aT iM h fuel c rest last bm s hphi hterm
    cases c with
    | label l => simp [is_phi] at hphi
    | instruction i =>
        cases i with
        | constant dest op cty val => simp [is_phi] at hphi
        | effect args fs ls op => simp [is_phi] at hphi
        | value args dest fs ls vop oty =>
            cases vop <;> try simp [is_phi] at hphi
            case phi =>
              simp only [lowerCodesAux, isPrintCode, Bool.and_false,
                Bool.false_and, Bool.false_eq_true, if_false,
                isInstructionCode, Bool.and_true, hterm, is_phi,
                if_true, bind, Except.bind]
  · obtain ⟨⟨ops1, he1, hp1, ht1⟩, _, _⟩ :=
      (buildPhis_spec h run bm s).2 pairs bm1 s1 hb
    obtain ⟨ops2, he2, hl2, ht2⟩ := (finishPhis_spec h pairs s1).2 s2 hf
    exact ⟨ops1, ops2, Emits.trans he1 he2, hp1, hl2⟩

theorem claim_C1_witness :
    ∃ pairs bm1 s1 s2,
      buildPhis hC1 runC1 [] initSt = .ok (pairs, bm1, s1) ∧
      finishPhis hC1 pairs s1 = .ok s2 ∧
      ∃ phiOps lsOps, Emits initSt (phiOps ++ lsOps) s2 ∧
        (∀ op ∈ phiOps, phiOpOk hC1 op) ∧
        (∀ op ∈ lsOps, loadOrStoreOp op) :=
  ⟨_, _, _, _, rfl, rfl,
    claim_C1.2.2.2 hC1 runC1 [] initSt _ _ _ _ rfl rfl⟩

/-! ## Walk error classification -/

theorem dropWhile_length_le {α : Type} (p : α → Bool) (l : List α) :
    (l.dropWhile p).length ≤ l.length := by
  induction l with
  | nil => simp
  | cons a rest ih =>
      simp only [List.dropWhile]
      cases p a
      · simp
      · simpa using Nat.le_succ_of_le ih

theorem refVarsOfCodes_append (a b : List Code) :
    referencedVarsOfCodes (a ++ b) =
      referencedVarsOfCodes a ++ referencedVarsOfCodes b := by
  induction a with
  | nil => rfl
  | cons c rest ih =>
      cases c with
      | label l => simpa [referencedVarsOfCodes] using ih
      | instruction i =>
          simp [referencedVarsOfCodes, ih, List.append_assoc]

theorem refVars_mem_sub (i : Instruction) (l : List Code)
    (hm : Code.instruction i ∈ l) :
    ∀ v ∈ referencedVars i, v ∈ referencedVarsOfCodes l := by
  induction l with
  | nil => cases hm
  | cons c rest ih =>
      rcases List.mem_cons.1 hm with h1 | hm2
      · intro v hv
        rw [← h1]
        simp [referencedVarsOfCodes, hv]
      · intro v hv
        cases c with
        | label lb => simpa [referencedVarsOfCodes] using ih hm2 v hv
        | instruction i2 =>
            simp [referencedVarsOfCodes, ih hm2 v hv]

theorem placedOk_tail (c : Code) (rest : List Code)
    (h : placedOk (c :: rest) = true) : placedOk rest = true := by
  simp only [placedOk, Bool.and_eq_true] at h
  exact h.2

theorem placedOk_phi_run (pre suf : List Code)
    (hp : ∀ c ∈ pre, isPrintCode c = false) :
    placedOk (pre ++ suf) = placedOk suf := by
  induction pre with
  | nil => rfl
  | cons c rest ih =>
      have hc := hp c (List.mem_cons_self _ _)
      have hih := ih (fun c2 hc2 => hp c2 (List.mem_cons_of_mem _ hc2))
      simp only [List.cons_append, placedOk, hc]
      rw [show placedOk (rest.append suf) = placedOk suf from hih]
      simp

theorem hasPrint_phi_run (pre suf : List Code)
    (hp : ∀ c ∈ pre, isPrintCode c = false) :
    hasPrint (pre ++ suf) = hasPrint suf := by
  induction pre with
  | nil => rfl
  | cons c rest ih =>
      have hc := hp c (List.mem_cons_self _ _)
      have hih := ih (fun c2 hc2 => hp c2 (List.mem_cons_of_mem _ hc2))
      simp only [List.cons_append, hasPrint, List.any_cons, hc,
        Bool.false_or]
      exact hih

theorem is_phi_not_print (c : Code) (h : is_phi c = true) :
    isPrintCode c = false := by
  cases c with
  | label l => simp [is_phi] at h
  | instruction i =>
      cases i with
      | constant dest op cty val => simp [is_phi] at h
      | effect args fs ls op => simp [is_phi] at h
      | value args dest fs ls vop oty => rfl

theorem is_phi_not_ret (c : Code) (h : is_phi c = true) :
    isRetCode c = false := by
  cases c with
  | label l => simp [is_phi] at h
  | instruction i =>
      cases i with
      | constant dest op cty val => simp [is_phi] at h
      | effect args fs ls op => simp [is_phi] at h
      | value args dest fs ls vop oty => rfl

theorem lowerCodesAux_err (aT iM : Bool) (h : Heap) :
    ∀ (fuel : Nat) (codes : List Code) (last : Option Instruction)
      (bm : BlockMap) (s : St) (e : CompileErr),
      codes.length ≤ fuel →
      lowerCodesAux aT iM h fuel codes last bm s = .error e →
      e ≠ .timingMissing ∧
      ((aT && iM) = false ∨ placedOk codes = true →
        e ≠ .instrumentationPlacement) ∧
      (∀ v, e = .undeclaredVariable v →
        v ∈ referencedVarsOfCodes codes ∧ h.map.lookup v = none) := by
  intro fuel
  induction fuel with
  | zero =>
      intro codes last bm s e hlen he
      cases codes with
      | nil => simp [lowerCodesAux] at he
      | cons c rest => simp at hlen
  | succ fuel ih =>
      intro codes last bm s e hlen he
      cases codes with
      | nil => simp [lowerCodesAux] at he
      | cons c rest =>
      have hlen2 : rest.length ≤ fuel := by
        simpa using Nat.le_of_succ_le_succ hlen
      have hweak : ∀ (sub : List Code),
          (∀ v2, v2 ∈ referencedVarsOfCodes sub →
            v2 ∈ referencedVarsOfCodes (c :: rest)) →
          (placedOk (c :: rest) = true → placedOk sub = true) →
          (e ≠ .timingMissing ∧
            ((aT && iM) = false ∨ placedOk sub = true →
              e ≠ .instrumentationPlacement) ∧
            (∀ v, e = .undeclaredVariable v →
              v ∈ referencedVarsOfCodes sub ∧ h.map.lookup v = none)) →
          e ≠ .timingMissing ∧
            ((aT && iM) = false ∨ placedOk (c :: rest) = true →
              e ≠ .instrumentationPlacement) ∧
            (∀ v, e = .undeclaredVariable v →
              v ∈ referencedVarsOfCodes (c :: rest) ∧
                h.map.lookup v = none) :=
        fun sub hv hp hc =>
          ⟨hc.1, fun hd => hc.2.1 (hd.imp id hp),
            fun v hv2 => ⟨hv v (hc.2.2 v hv2).1, (hc.2.2 v hv2).2⟩⟩
      have herrSpec : ∀ (sub : List Code),
          (∀ v2, v2 ∈ referencedVarsOfCodes sub →
            v2 ∈ referencedVarsOfCodes (c :: rest)) →
          errSpec h (referencedVarsOfCodes sub) e →
          e ≠ .timingMissing ∧
            ((aT && iM) = false ∨ placedOk (c :: rest) = true →
              e ≠ .instrumentationPlacement) ∧
            (∀ v, e = .undeclaredVariable v →
              v ∈ referencedVarsOfCodes (c :: rest) ∧
                h.map.lookup v = none) :=
        fun sub hv hes =>
          ⟨hes.2.1, fun _ => hes.1,
            fun v hv2 => ⟨hv v (hes.2.2 v hv2).1, (hes.2.2 v hv2).2⟩⟩
      cases c with
      | label l =>
          unfold lowerCodesAux at he
          simp only [isPrintCode, Bool.and_false, Bool.false_eq_true,
            if_false] at he
          rcases exbind_err he with he1 | ⟨s3, hs3, he2⟩
          · cases he1
          · cases hs3
            simp only [isInstructionCode, Bool.and_false,
              Bool.false_eq_true, if_false, is_phi] at he2
            cases hterm : is_terminating_instr last with
            | true =>
                simp only [hterm, if_true] at he2
                exact hweak rest (fun v2 hv2 => hv2)
                  (placedOk_tail _ rest) (ih rest none _ _ e hlen2 he2)
            | false =>
                simp only [hterm, Bool.false_eq_true, if_false] at he2
                exact hweak rest (fun v2 hv2 => hv2)
                  (placedOk_tail _ rest) (ih rest none _ _ e hlen2 he2)
      | instruction i =>
          have hbody : ∀ (s4 : St) (last2 : Option Instruction),
              (if is_terminating_instr last &&
                  isInstructionCode (.instruction i) then
                  lowerCodesAux aT iM h fuel rest last bm s4
                else if is_phi (.instruction i) then
                  (do
                    let tpl ← buildPhis h
                      ((Code.instruction i :: rest).takeWhile is_phi) bm s4
                    let s5 ← finishPhis h tpl.1 tpl.2.2
                    lowerCodesAux aT iM h fuel
                      ((Code.instruction i :: rest).dropWhile is_phi)
                      last2 tpl.2.1 s5)
                else do
                  let tpl ← build_instruction i h bm s4
                  lowerCodesAux aT iM h fuel rest (some i) tpl.1 tpl.2) =
                .error e →
              e ≠ .timingMissing ∧
                ((aT && iM) = false ∨
                    placedOk (Code.instruction i :: rest) = true →
                  e ≠ .instrumentationPlacement) ∧
                (∀ v, e = .undeclaredVariable v →
                  v ∈ referencedVarsOfCodes (Code.instruction i :: rest) ∧
                    h.map.lookup v = none) := by
            intro s4 last2 hb
            cases hskip : is_terminating_instr last &&
                isInstructionCode (.instruction i) with
            | true =>
                rw [hskip] at hb
                simp only [if_true] at hb
                refine hweak rest ?_ (placedOk_tail _ rest)
                  (ih rest last bm s4 e hlen2 hb)
                intro v2 hv2
                simp [referencedVarsOfCodes, hv2]
            | false =>
                rw [hskip] at hb
                simp only [Bool.false_eq_true, if_false] at hb
                cases hphi : is_phi (Code.instruction i) with
                | true =>
                    rw [hphi] at hb
                    simp only [if_true] at hb
                    have htakesub : ∀ v2, v2 ∈ referencedVarsOfCodes
                        ((Code.instruction i :: rest).takeWhile is_phi) →
                        v2 ∈ referencedVarsOfCodes
                          (Code.instruction i :: rest) := by
                      intro v2 hv2
                      rw [show (Code.instruction i :: rest) =
                        ((Code.instruction i :: rest).takeWhile is_phi) ++
                          ((Code.instruction i :: rest).dropWhile is_phi)
                        from (List.takeWhile_append_dropWhile _ _).symm,
                        refVarsOfCodes_append]
                      exact List.mem_append_left _ hv2
                    have hdropsub : ∀ v2, v2 ∈ referencedVarsOfCodes
                        ((Code.instruction i :: rest).dropWhile is_phi) →
                        v2 ∈ referencedVarsOfCodes
                          (Code.instruction i :: rest) := by
                      intro v2 hv2
                      rw [show (Code.instruction i :: rest) =
                        ((Code.instruction i :: rest).takeWhile is_phi) ++
                          ((Code.instruction i :: rest).dropWhile is_phi)
                        from (List.takeWhile_append_dropWhile _ _).symm,
                        refVarsOfCodes_append]
                      exact List.mem_append_right _ hv2
                    have htakenp : ∀ c2 ∈
                        (Code.instruction i :: rest).takeWhile is_phi,
                        isPrintCode c2 = false := fun c2 hc2 =>
                      is_phi_not_print c2 (List.mem_takeWhile_imp hc2)
                    have hdropplaced :
                        placedOk (Code.instruction i :: rest) = true →
                        placedOk ((Code.instruction i :: rest).dropWhile
                          is_phi) = true := by
                      intro hpl
                      rw [show (Code.instruction i :: rest) =
                        ((Code.instruction i :: rest).takeWhile is_phi) ++
                          ((Code.instruction i :: rest).dropWhile is_phi)
                        from (List.takeWhile_append_dropWhile _ _).symm]
                        at hpl
                      rwa [placedOk_phi_run _ _ htakenp] at hpl
                    rcases exbind_err hb with hb1 | ⟨tpl, htpl, hb2⟩
                    · exact herrSpec _ htakesub
                        ((buildPhis_spec h _ bm s4).1 e hb1)
                    · obtain ⟨pairs, bm1, s1⟩ := tpl
                      rcases exbind_err hb2 with hb3 | ⟨s5, hs5, hb4⟩
                      · obtain ⟨i2, ⟨v, hvmem⟩, hsp⟩ :=
                          (finishPhis_spec h pairs s1).1 e hb3
                        have hirun : Code.instruction i2 ∈
                            (Code.instruction i :: rest).takeWhile
                              is_phi :=
                          ((buildPhis_spec h _ bm s4).2 pairs bm1 s1
                            htpl).2.1 (i2, v) hvmem
                        refine ⟨hsp.2.1, fun _ => hsp.1,
                          fun v2 hv2 => ?_⟩
                        exact ⟨htakesub v2
                          (refVars_mem_sub i2 _ hirun v2
                            (hsp.2.2 v2 hv2).1),
                          (hsp.2.2 v2 hv2).2⟩
                      · have hdlen : ((Code.instruction i ::
                            rest).dropWhile is_phi).length ≤ fuel := by
                          have hdw : (Code.instruction i ::
                              rest).dropWhile is_phi =
                              rest.dropWhile is_phi := by
                            simp [List.dropWhile, hphi]
                          rw [hdw]
                          exact le_trans (dropWhile_length_le _ rest)
                            hlen2
                        exact hweak _ hdropsub hdropplaced
                          (ih _ _ _ _ e hdlen hb4)
                | false =>
                    rw [hphi] at hb
                    simp only [Bool.false_eq_true, if_false] at hb
                    rcases exbind_err hb with hb1 | ⟨tpl, htpl, hb2⟩
                    · refine herrSpec [Code.instruction i] ?_ ?_
                      · intro v2 hv2
                        simp only [referencedVarsOfCodes,
                          List.append_nil] at hv2
                        simp [referencedVarsOfCodes, hv2]
                      · have hes := (build_instruction_spec i h bm s4).1
                          e hb1
                        refine ⟨hes.1, hes.2.1, fun v hv => ?_⟩
                        obtain ⟨h1, h2⟩ := hes.2.2 v hv
                        refine ⟨?_, h2⟩
                        simp [referencedVarsOfCodes, h1]
                    · exact hweak rest (fun v2 hv2 => by
                          simp [referencedVarsOfCodes, hv2])
                        (placedOk_tail _ rest)
                        (ih rest (some i) tpl.1 tpl.2 e hlen2 hb2)
          unfold lowerCodesAux at he
          cases hcnd : aT && iM && isPrintCode (Code.instruction i) with
          | false =>
              rw [hcnd] at he
              simp only [Bool.false_eq_true, if_false] at he
              rcases exbind_err he with he1 | ⟨s3, hs3, he2⟩
              · cases he1
              · cases hs3
                exact hbody s _ he2
          | true =>
              rw [hcnd] at he
              simp only [if_true] at he
              cases hplc : (rest.isEmpty || (match rest.head? with
                  | some c2 => isRetCode c2
                  | none => false)) with
              | true =>
                  rw [hplc] at he
                  simp only [if_true] at he
                  rcases exbind_err he with he1 | ⟨s3, hs3, he2⟩
                  · obtain ⟨h1, h2, h3⟩ := emitTimingEnd_err s e he1
                    exact ⟨h2, fun _ => h1,
                      fun v hv => absurd hv (h3 v)⟩
                  · exact hbody s3 _ he2
              | false =>
                  rw [hplc] at he
                  simp only [Bool.false_eq_true, if_false] at he
                  rcases exbind_err he with he1 | ⟨s3, hs3, he2⟩
                  · cases he1
                    have hprint : isPrintCode (Code.instruction i) =
                        true := by
                      have h0 := hcnd
                      simp only [Bool.and_eq_true] at h0
                      exact h0.2
                    cases rest with
                    | nil => simp at hplc
                    | cons r rest2 =>
                        simp only [List.isEmpty_cons, List.head?_cons,
                          Bool.false_or] at hplc
                        refine ⟨by simp, fun hd => ?_,
                          fun v hv => by cases hv⟩
                        exfalso
                        rcases hd with haim | hpl
                        · have h0 := hcnd
                          simp only [Bool.and_assoc] at h0 haim
                          rw [Bool.and_eq_true, Bool.and_eq_true] at h0
                          rw [h0.1, h0.2.1] at haim
                          cases haim
                        · simp only [placedOk, hprint, Bool.not_true,
                            Bool.false_or, List.isEmpty_cons,
                            List.head?_cons, hplc, Bool.false_eq_true,
                            Bool.and_eq_true] at hpl
                          exact hpl.1
                  · cases hs3

/-! ## Walk timing bookkeeping -/

theorem lowerCodesAux_ok_timing (aT iM : Bool) (h : Heap) :
    ∀ (fuel : Nat) (codes : List Code) (last : Option Instruction)
      (bm : BlockMap) (s : St) (l2 : Option Instruction) (bm' : BlockMap)
      (s' : St),
      codes.length ≤ fuel →
      lowerCodesAux aT iM h fuel codes last bm s = .ok (l2, bm', s') →
      s'.addedTiming = (s.addedTiming || (aT && iM && hasPrint codes)) ∧
      ((aT && iM) = true → placedOk codes = true) := by
  intro fuel
  induction fuel with
  | zero =>
      intro codes last bm s l2 bm' s' hlen hk
      cases codes with
      | nil =>
          simp only [lowerCodesAux] at hk
          cases hk
          simp [hasPrint, placedOk]
      | cons c rest => simp at hlen
  | succ fuel ih =>
      intro codes last bm s l2 bm' s' hlen hk
      cases codes with
      | nil =>
          simp only [lowerCodesAux] at hk
          cases hk
          simp [hasPrint, placedOk]
      | cons c rest =>
      have hlen2 : rest.length ≤ fuel := by
        simpa using Nat.le_of_succ_le_succ hlen
      cases c with
      | label l =>
          unfold lowerCodesAux at hk
          simp only [isPrintCode, Bool.and_false, Bool.false_eq_true,
            if_false] at hk
          obtain ⟨s3, hs3, hk2⟩ := exbind_ok hk
          cases hs3
          simp only [isInstructionCode, Bool.and_false,
            Bool.false_eq_true, if_false, is_phi] at hk2
          have hstep : ∀ (bmx : BlockMap) (sx : St),
              lowerCodesAux aT iM h fuel rest none bmx sx =
                .ok (l2, bm', s') →
              sx.addedTiming = s.addedTiming →
              s'.addedTiming =
                (s.addedTiming || (aT && iM && hasPrint rest)) ∧
              ((aT && iM) = true → placedOk rest = true) := by
            intro bmx sx hkx htx
            obtain ⟨h1, h2⟩ := ih rest none bmx sx l2 bm' s' hlen2 hkx
            rw [htx] at h1
            exact ⟨h1, h2⟩
          cases hterm : is_terminating_instr last with
          | true =>
              simp only [hterm, if_true] at hk2
              obtain ⟨h1, h2⟩ := hstep _ _ hk2
                ((block_map_get_emits bm l s).timing_eq)
              refine ⟨by simpa [hasPrint] using h1, fun hm => ?_⟩
              simpa [placedOk, isPrintCode] using h2 hm
          | false =>
              simp only [hterm, Bool.false_eq_true, if_false] at hk2
              obtain ⟨h1, h2⟩ := hstep _ _ hk2 (by
                refine Eq.trans ?_
                  ((block_map_get_emits bm l s).timing_eq)
                exact (block_map_get_emits (block_map_get bm l s).2.1 l
                  (block_map_get bm l s).2.2).timing_eq)
              refine ⟨by simpa [hasPrint] using h1, fun hm => ?_⟩
              simpa [placedOk, isPrintCode] using h2 hm
      | instruction i =>
          have htrp : ∀ c2 ∈ rest.takeWhile is_phi,
              isPrintCode c2 = false := fun c2 hc2 =>
            is_phi_not_print c2 (List.mem_takeWhile_imp hc2)
          have hpr : hasPrint (rest.dropWhile is_phi) = hasPrint rest := by
            conv_rhs => rw [show rest = rest.takeWhile is_phi ++
              rest.dropWhile is_phi from
              (List.takeWhile_append_dropWhile _ _).symm]
            rw [hasPrint_phi_run _ _ htrp]
          have hpl : placedOk (rest.dropWhile is_phi) = placedOk rest := by
            conv_rhs => rw [show rest = rest.takeWhile is_phi ++
              rest.dropWhile is_phi from
              (List.takeWhile_append_dropWhile _ _).symm]
            rw [placedOk_phi_run _ _ htrp]
          have hbody : ∀ (s4 : St) (last2 : Option Instruction),
              (if is_terminating_instr last &&
                  isInstructionCode (.instruction i) then
                  lowerCodesAux aT iM h fuel rest last bm s4
                else if is_phi (.instruction i) then
                  (do
                    let tpl ← buildPhis h
                      ((Code.instruction i :: rest).takeWhile is_phi) bm s4
                    let s5 ← finishPhis h tpl.1 tpl.2.2
                    lowerCodesAux aT iM h fuel
                      ((Code.instruction i :: rest).dropWhile is_phi)
                      last2 tpl.2.1 s5)
                else do
                  let tpl ← build_instruction i h bm s4
                  lowerCodesAux aT iM h fuel rest (some i) tpl.1 tpl.2) =
                .ok (l2, bm', s') →
              s'.addedTiming =
                (s4.addedTiming || (aT && iM && hasPrint rest)) ∧
              ((aT && iM) = true → placedOk rest = true) := by
            intro s4 last2 hb
            cases hskip : is_terminating_instr last &&
                isInstructionCode (.instruction i) with
            | true =>
                rw [hskip] at hb
                simp only [if_true] at hb
                exact ih rest last bm s4 l2 bm' s' hlen2 hb
            | false =>
                rw [hskip] at hb
                simp only [Bool.false_eq_true, if_false] at hb
                cases hphi : is_phi (Code.instruction i) with
                | true =>
                    rw [hphi] at hb
                    simp only [if_true] at hb
                    obtain ⟨tpl, htpl, hb2⟩ := exbind_ok hb
                    obtain ⟨pairs, bm1, s1⟩ := tpl
                    obtain ⟨s5, hs5, hb3⟩ := exbind_ok hb2
                    have hdw : (Code.instruction i :: rest).dropWhile
                        is_phi = rest.dropWhile is_phi := by
                      simp [List.dropWhile, hphi]
                    have hdlen : ((Code.instruction i ::
                        rest).dropWhile is_phi).length ≤ fuel := by
                      rw [hdw]
                      exact le_trans (dropWhile_length_le _ rest) hlen2
                    obtain ⟨h1, h2⟩ := ih _ _ _ _ _ _ _ hdlen hb3
                    obtain ⟨⟨ops1, he1, _, _⟩, _, _⟩ :=
                      (buildPhis_spec h _ bm s4).2 pairs bm1 s1 htpl
                    obtain ⟨ops2, he2, _, _⟩ :=
                      (finishPhis_spec h pairs s1).2 s5 hs5
                    rw [hdw, hpr] at h1
                    rw [he2.timing_eq, he1.timing_eq] at h1
                    refine ⟨h1, fun hm => ?_⟩
                    have := h2 hm
                    rw [hdw, hpl] at this
                    exact this
                | false =>
                    rw [hphi] at hb
                    simp only [Bool.false_eq_true, if_false] at hb
                    obtain ⟨tpl, htpl, hb2⟩ := exbind_ok hb
                    obtain ⟨⟨ops, hem, _⟩, _⟩ :=
                      (build_instruction_spec i h bm s4).2 tpl.1 tpl.2
                        (by
                          cases tpl
                          exact htpl)
                    obtain ⟨h1, h2⟩ := ih rest (some i) tpl.1 tpl.2 l2
                      bm' s' hlen2 hb2
                    rw [hem.timing_eq] at h1
                    exact ⟨h1, h2⟩
          unfold lowerCodesAux at hk
          cases hcnd : aT && iM && isPrintCode (Code.instruction i) with
          | false =>
              rw [hcnd] at hk
              simp only [Bool.false_eq_true, if_false] at hk
              obtain ⟨s3, hs3, hk2⟩ := exbind_ok hk
              cases hs3
              obtain ⟨h1, h2⟩ := hbody s _ hk2
              constructor
              · rw [h1]
                cases haim : (aT && iM) with
                | false => simp [haim]
                | true =>
                    have hnp : isPrintCode (Code.instruction i) = false := by
                      cases hip : isPrintCode (Code.instruction i)
                      · rfl
                      · rw [haim, hip] at hcnd
                        cases hcnd
                    simp [haim, hasPrint, hnp]
              · intro hm
                have hnp : isPrintCode (Code.instruction i) = false := by
                  cases hip : isPrintCode (Code.instruction i)
                  · rfl
                  · rw [hm, hip] at hcnd
                    cases hcnd
                simp [placedOk, hnp, h2 hm]
          | true =>
              rw [hcnd] at hk
              simp only [if_true] at hk
              have haim : (aT && iM) = true := by
                have h0 := hcnd
                simp only [Bool.and_eq_true] at h0
                simp [h0.1.1, h0.1.2]
              have hip : isPrintCode (Code.instruction i) = true := by
                have h0 := hcnd
                simp only [Bool.and_eq_true] at h0
                exact h0.2
              cases hplc : (rest.isEmpty || (match rest.head? with
                  | some c2 => isRetCode c2
                  | none => false)) with
              | false =>
                  rw [hplc] at hk
                  simp only [Bool.false_eq_true, if_false] at hk
                  rcases exbind_ok hk with ⟨y, hy, _⟩
                  cases hy
              | true =>
                  rw [hplc] at hk
                  simp only [if_true] at hk
                  obtain ⟨s3, hs3, hk2⟩ := exbind_ok hk
                  obtain ⟨h1, h2⟩ := hbody s3 _ hk2
                  have hflag := (emitTimingEnd_ok s s3 hs3).1
                  constructor
                  · rw [h1, hflag]
                    simp [haim, hasPrint, hip]
                  · intro hm
                    simp only [placedOk, hip, Bool.not_true,
                      Bool.false_or, hplc, Bool.true_and]
                    exact h2 hm

/-! ## Function-level error and timing lemmas -/
theorem forall2_mem_right2 {α β : Type} {R : α → β → Prop} {as : List α}
    {bs : List β} (h : List.Forall₂ R as bs) :
    ∀ b ∈ bs, ∃ a, a ∈ as ∧ R a b := by
  induction h with
  | nil => simp
  | cons h1 h2 ih =>
      intro b hb
      rcases List.mem_cons.1 hb with rfl | hb
      · exact ⟨_, List.mem_cons_self _ _, h1⟩
      · obtain ⟨a, ha1, ha2⟩ := ih b hb
        exact ⟨a, List.mem_cons_of_mem _ ha1, ha2⟩

theorem forall2_mem_left2 {α β : Type} {R : α → β → Prop} {as : List α}
    {bs : List β} (h : List.Forall₂ R as bs) :
    ∀ a ∈ as, ∃ b, b ∈ bs ∧ R a b := by
  induction h with
  | nil => simp
  | cons h1 h2 ih =>
      intro a ha
      rcases List.mem_cons.1 ha with rfl | ha
      · exact ⟨_, List.mem_cons_self _ _, h1⟩
      · obtain ⟨b, hb1, hb2⟩ := ih a ha
        exact ⟨b, List.mem_cons_of_mem _ hb1, hb2⟩

theorem nodup_name_eq (fns : List Func)
    (hnd : (fns.map Func.name).Nodup) (f g : Func)
    (hf : f ∈ fns) (hg : g ∈ fns) (heq : f.name = g.name) : f = g := by
  induction fns with
  | nil => cases hf
  | cons a rest ih =>
      simp only [List.map_cons, List.nodup_cons] at hnd
      rcases List.mem_cons.1 hf with rfl | hf2
      · rcases List.mem_cons.1 hg with rfl | hg2
        · rfl
        · exact absurd (heq ▸ List.mem_map_of_mem Func.name hg2) hnd.1
      · rcases List.mem_cons.1 hg with rfl | hg2
        · exact absurd (heq ▸ List.mem_map_of_mem Func.name hf2) hnd.1
        · exact ih hnd.2 hf2 hg2

theorem storeParams_covers (fn : String) (args : List Argument) :
    ∀ (i : Nat) (h : Heap) (s : St) (h' : Heap) (s' : St),
    storeParams fn args i h s = .ok (h', s') →
    (∀ a ∈ args, h'.map.lookup a.name ≠ none) ∧
    (∀ v w, h.map.lookup v = some w → h'.map.lookup v = some w) := by
  induction args with
  | nil =>
      intro i h s h' s' hk
      simp only [storeParams] at hk
      cases hk
      exact ⟨by simp, fun v w hw => hw⟩
  | cons a rest ih =>
      intro i h s h' s' hk
      unfold storeParams at hk
      simp only [bind, Except.bind] at hk
      cases hadd : h.add a.name a.argType s with
      | error e => simp only [hadd] at hk; cases hk
      | ok t =>
          simp only [hadd] at hk
          obtain ⟨wp, h1, s1⟩ := t
          obtain ⟨hc, hm⟩ := ih (i + 1) h1 _ h' s' hk
          obtain ⟨_, hl1, _, hmono, _⟩ :=
            heap_add_ok h a.name a.argType s wp h1 s1 hadd
          constructor
          · intro a2 ha2
            rcases List.mem_cons.1 ha2 with rfl | ha2
            · rw [hm a2.name wp hl1]
              simp
            · exact hc a2 ha2
          · exact fun v w hw => hm v w (hmono v w hw)

theorem prescan_covers (codes : List Code) :
    ∀ (h : Heap) (s : St) (h' : Heap) (s' : St),
    prescan codes h s = .ok (h', s') →
    (∀ d ∈ destsOf codes, h'.map.lookup d ≠ none) ∧
    (∀ v w, h.map.lookup v = some w → h'.map.lookup v = some w) := by
  induction codes with
  | nil =>
      intro h s h' s' hk
      simp only [prescan] at hk
      cases hk
      exact ⟨by simp [destsOf], fun v w hw => hw⟩
  | cons c rest ih =>
      intro h s h' s' hk
      cases c with
      | label l =>
          obtain ⟨hc, hm⟩ := ih h s h' s' (by simpa [prescan] using hk)
          exact ⟨fun d hd => hc d (by simpa [destsOf] using hd), hm⟩
      | instruction i =>
          cases i with
          | effect args fs ls op =>
              obtain ⟨hc, hm⟩ := ih h s h' s'
                (by simpa [prescan] using hk)
              exact ⟨fun d hd => hc d (by simpa [destsOf] using hd), hm⟩
          | constant dest op cty val =>
              unfold prescan at hk
              simp only [bind, Except.bind] at hk
              cases hadd : h.add dest cty s with
              | error e => simp only [hadd] at hk; cases hk
              | ok t =>
                  simp only [hadd] at hk
                  obtain ⟨wp, h1, s1⟩ := t
                  obtain ⟨hc, hm⟩ := ih h1 _ h' s' hk
                  obtain ⟨_, hl1, _, hmono, _⟩ :=
                    heap_add_ok h dest cty s wp h1 s1 hadd
                  constructor
                  · intro d hd
                    rcases List.mem_cons.1 (by
                        simpa [destsOf] using hd) with rfl | hd2
                    · rw [hm d wp hl1]
                      simp
                    · exact hc d hd2
                  · exact fun v w hw => hm v w (hmono v w hw)
          | value args dest fs ls vop oty =>
              unfold prescan at hk
              simp only [bind, Except.bind] at hk
              cases hadd : h.add dest oty s with
              | error e => simp only [hadd] at hk; cases hk
              | ok t =>
                  simp only [hadd] at hk
                  obtain ⟨wp, h1, s1⟩ := t
                  obtain ⟨hc, hm⟩ := ih h1 _ h' s' hk
                  obtain ⟨_, hl1, _, hmono, _⟩ :=
                    heap_add_ok h dest oty s wp h1 s1 hadd
                  constructor
                  · intro d hd
                    rcases List.mem_cons.1 (by
                        simpa [destsOf] using hd) with rfl | hd2
                    · rw [hm d wp hl1]
                      simp
                    · exact hc d hd2
                  · exact fun v w hw => hm v w (hmono v w hw)

theorem storeParams_err (fn : String) (args : List Argument) :
    ∀ (i : Nat) (h : Heap) (s : St) (e : CompileErr),
    storeParams fn args i h s = .error e →
    ∃ v, e = .typeConflict v := by
  induction args with
  | nil =>
      intro i h s e he
      simp [storeParams] at he
  | cons a rest ih =>
      intro i h s e he
      unfold storeParams at he
      simp only [bind, Except.bind] at he
      cases hadd : h.add a.name a.argType s with
      | error e2 =>
          simp only [hadd] at he
          cases he
          exact ⟨a.name, heap_add_err h a.name a.argType s _ hadd⟩
      | ok t =>
          simp only [hadd] at he
          obtain ⟨wp, h1, s1⟩ := t
          exact ih (i + 1) h1 _ e he

theorem prescan_err (codes : List Code) :
    ∀ (h : Heap) (s : St) (e : CompileErr),
    prescan codes h s = .error e → ∃ v, e = .typeConflict v := by
  induction codes with
  | nil =>
      intro h s e he
      simp [prescan] at he
  | cons c rest ih =>
      intro h s e he
      cases c with
      | label l => exact ih h s e (by simpa [prescan] using he)
      | instruction i =>
          cases i with
          | effect args fs ls op =>
              exact ih h s e (by simpa [prescan] using he)
          | constant dest op cty val =>
              unfold prescan at he
              simp only [bind, Except.bind] at he
              cases hadd : h.add dest cty s with
              | error e2 =>
                  simp only [hadd] at he
                  cases he
                  exact ⟨dest, heap_add_err h dest cty s _ hadd⟩
              | ok t =>
                  simp only [hadd] at he
                  obtain ⟨wp, h1, s1⟩ := t
                  exact ih h1 _ e he
          | value args dest fs ls vop oty =>
              unfold prescan at he
              simp only [bind, Except.bind] at he
              cases hadd : h.add dest oty s with
              | error e2 =>
                  simp only [hadd] at he
                  cases he
                  exact ⟨dest, heap_add_err h dest oty s _ hadd⟩
              | ok t =>
                  simp only [hadd] at he
                  obtain ⟨wp, h1, s1⟩ := t
                  exact ih h1 _ e he

theorem declareFunction_err (f : Func) (s : St) (e : CompileErr)
    (he : declareFunction f s = .error e) : ∃ v, e = .typeConflict v := by
  unfold declareFunction at he
  rcases exbind_err he with he1 | ⟨t1, ht1, he2⟩
  · exact storeParams_err _ f.args 0 Heap.new _ e he1
  · obtain ⟨h1, s1⟩ := t1
    rcases exbind_err he2 with he3 | ⟨t2, ht2, he4⟩
    · exact prescan_err f.instrs h1 s1 e he3
    · obtain ⟨h2, s2⟩ := t2
      cases he4

theorem declareFunctions_err (fns : List Func) :
    ∀ (s : St) (e : CompileErr), declareFunctions fns s = .error e →
    ∃ v, e = .typeConflict v := by
  induction fns with
  | nil =>
      intro s e he
      simp [declareFunctions] at he
  | cons f rest ih =>
      intro s e he
      unfold declareFunctions at he
      rcases exbind_err he with he1 | ⟨t1, ht1, he2⟩
      · exact declareFunction_err f s e he1
      · obtain ⟨ctx, s1⟩ := t1
        rcases exbind_err he2 with he3 | ⟨t2, ht2, he4⟩
        · exact ih s1 e he3
        · obtain ⟨ctxs, s2⟩ := t2
          cases he4

theorem declareFunctions_basic (fns : List Func) :
    ∀ (s : St) (ctxs : List FuncCtx) (s' : St),
    declareFunctions fns s = .ok (ctxs, s') →
    List.Forall₂ (fun f ctx =>
      FuncCtx.funcName ctx = (if f.name = "main" then "_main" else f.name) ∧
      FuncCtx.instrs ctx = f.instrs ∧
      FuncCtx.returnType ctx = f.returnType) fns ctxs ∧
    s'.addedTiming = s.addedTiming ∧ s'.ticksStart = s.ticksStart := by
  induction fns with
  | nil =>
      intro s ctxs s' hk
      simp only [declareFunctions] at hk
      cases hk
      exact ⟨List.Forall₂.nil, rfl, rfl⟩
  | cons f rest ih =>
      intro s ctxs s' hk
      unfold declareFunctions at hk
      obtain ⟨t1, ht1, hk2⟩ := exbind_ok hk
      obtain ⟨ctx, s1⟩ := t1
      obtain ⟨t2, ht2, hk3⟩ := exbind_ok hk2
      obtain ⟨ctxs2, s2⟩ := t2
      cases hk3
      obtain ⟨hfa, hti, htk⟩ := ih s1 ctxs2 s' ht2
      obtain ⟨h1, h2, h3, _, h5, h6, _⟩ :=
        declareFunction_spec f s ctx s1 ht1
      exact ⟨List.Forall₂.cons ⟨h1, h2, h3⟩ hfa,
        by rw [hti, h5], by rw [htk, h6]⟩

theorem walkBody_err (aT : Bool) (ctx : FuncCtx) (s : St) (e : CompileErr)
    (he : walkBody aT ctx s = .error e) :
    e ≠ .timingMissing ∧
    ((aT && decide (ctx.funcName = "_main")) = false ∨
      placedOk ctx.instrs = true → e ≠ .instrumentationPlacement) ∧
    (∀ v, e = .undeclaredVariable v →
      v ∈ referencedVarsOfCodes ctx.instrs ∧
        ctx.heap.map.lookup v = none) := by
  unfold walkBody at he
  cases hemp : ctx.instrs.isEmpty with
  | true => rw [hemp] at he; cases he
  | false =>
      rw [hemp] at he
      simp only [Bool.false_eq_true, if_false] at he
      cases hpre : aT && decide (ctx.funcName = "_main") with
      | false =>
          rw [hpre] at he
          simp only [Bool.false_eq_true, if_false] at he
          rcases exbind_err he with he1 | ⟨s3, hs3, he2⟩
          · cases he1
          · cases hs3
            obtain ⟨h1, h2, h3⟩ := lowerCodesAux_err aT _ ctx.heap _
              ctx.instrs none [] _ e (le_refl _) he2
            exact ⟨h1, fun _ => h2 (Or.inl hpre), h3⟩
      | true =>
          rw [hpre] at he
          simp only [if_true] at he
          rcases exbind_err he with he1 | ⟨t3, ht3, he2⟩
          · have h1 := getFn_err _ _ _ he1
            subst h1
            exact ⟨by simp, fun _ => by simp, fun v hv => by cases hv⟩
          · rcases exbind_err he2 with he3 | ⟨s4, hs4, he4⟩
            · cases he3
            · cases hs4
              obtain ⟨h1, h2, h3⟩ := lowerCodesAux_err aT _ ctx.heap _
                ctx.instrs none [] _ e (le_refl _) he4
              refine ⟨h1, fun hd => ?_, h3⟩
              refine h2 (Or.inr ?_)
              rcases hd with hd | hd
              · cases hd
              · exact hd

theorem walkBody_ok_timing (aT : Bool) (ctx : FuncCtx) (s : St)
    (l2 : Option Instruction) (bm' : BlockMap) (s' : St)
    (hk : walkBody aT ctx s = .ok (l2, bm', s')) :
    s'.addedTiming = (s.addedTiming ||
      (aT && decide (ctx.funcName = "_main") && hasPrint ctx.instrs)) ∧
    ((aT && decide (ctx.funcName = "_main")) = true →
      placedOk ctx.instrs = true) := by
  unfold walkBody at hk
  cases hemp : ctx.instrs.isEmpty with
  | true =>
      rw [hemp] at hk
      cases hk
      have hnil : ctx.instrs = [] := by
        cases hi : ctx.instrs with
        | nil => rfl
        | cons a b => rw [hi] at hemp; simp at hemp
      rw [hnil]
      simp [hasPrint, placedOk]
  | false =>
      rw [hemp] at hk
      simp only [Bool.false_eq_true, if_false] at hk
      cases hpre : aT && decide (ctx.funcName = "_main") with
      | false =>
          rw [hpre] at hk
          simp only [Bool.false_eq_true, if_false] at hk
          obtain ⟨s3, hs3, hk2⟩ := exbind_ok hk
          cases hs3
          obtain ⟨h1, h2⟩ := lowerCodesAux_ok_timing aT _ ctx.heap _
            ctx.instrs none [] _ l2 bm' s' (le_refl _) hk2
          rw [hpre] at h1
          exact ⟨h1, fun hm => by cases hm⟩
      | true =>
          rw [hpre] at hk
          simp only [if_true] at hk
          obtain ⟨t3, ht3, hk2⟩ := exbind_ok hk
          obtain ⟨s4, hs4, hk3⟩ := exbind_ok hk2
          cases hs4
          obtain ⟨h1, h2⟩ := lowerCodesAux_ok_timing aT _ ctx.heap _
            ctx.instrs none [] _ l2 bm' s' (le_refl _) hk3
          rw [hpre] at h1
          exact ⟨h1, fun _ => h2 hpre⟩

theorem buildBody_err (aT : Bool) (ctx : FuncCtx) (s : St) (e : CompileErr)
    (he : buildBody aT ctx s = .error e) :
    e ≠ .timingMissing ∧
    ((aT && decide (ctx.funcName = "_main")) = false ∨
      placedOk ctx.instrs = true → e ≠ .instrumentationPlacement) ∧
    (∀ v, e = .undeclaredVariable v →
      v ∈ referencedVarsOfCodes ctx.instrs ∧
        ctx.heap.map.lookup v = none) := by
  unfold buildBody at he
  rcases exbind_err he with he1 | ⟨t1, ht1, he2⟩
  · exact walkBody_err aT ctx s e he1
  · obtain ⟨last, bm, s1⟩ := t1
    cases hterm : is_terminating_instr last with
    | true => simp only [hterm, if_true] at he2; cases he2
    | false =>
        simp only [hterm, Bool.false_eq_true, if_false] at he2
        cases hrt : ctx.returnType with
        | none => rw [hrt] at he2; cases he2
        | some rt =>
            rw [hrt] at he2
            cases bm with
            | nil =>
                cases he2
                exact ⟨by simp, fun _ => by simp, fun v hv => by cases hv⟩
            | cons q rest => cases he2

theorem buildBody_ok_timing (aT : Bool) (ctx : FuncCtx) (s : St) (s' : St)
    (hk : buildBody aT ctx s = .ok s') :
    s'.addedTiming = (s.addedTiming ||
      (aT && decide (ctx.funcName = "_main") && hasPrint ctx.instrs)) ∧
    ((aT && decide (ctx.funcName = "_main")) = true →
      placedOk ctx.instrs = true) := by
  unfold buildBody at hk
  obtain ⟨t1, ht1, hk2⟩ := exbind_ok hk
  obtain ⟨last, bm, s1⟩ := t1
  obtain ⟨h1, h2⟩ := walkBody_ok_timing aT ctx s last bm s1 ht1
  refine ⟨?_, h2⟩
  cases hterm : is_terminating_instr last with
  | true =>
      simp only [hterm, if_true] at hk2
      cases hk2
      exact h1
  | false =>
      simp only [hterm, Bool.false_eq_true, if_false] at hk2
      cases hrt : ctx.returnType with
      | none =>
          rw [hrt] at hk2
          cases hk2
          exact h1
      | some rt =>
          rw [hrt] at hk2
          cases bm with
          | nil => cases hk2
          | cons q rest =>
              cases hk2
              exact h1

theorem buildBodies_err (aT : Bool) : ∀ (ctxs : List FuncCtx) (s : St)
    (e : CompileErr), buildBodies aT ctxs s = .error e →
    ∃ ctx, ctx ∈ ctxs ∧
      e ≠ .timingMissing ∧
      ((aT && decide (ctx.funcName = "_main")) = false ∨
        placedOk ctx.instrs = true → e ≠ .instrumentationPlacement) ∧
      (∀ v, e = .undeclaredVariable v →
        v ∈ referencedVarsOfCodes ctx.instrs ∧
          ctx.heap.map.lookup v = none) := by
  intro ctxs
  induction ctxs with
  | nil =>
      intro s e he
      simp [buildBodies] at he
  | cons ctx rest ih =>
      intro s e he
      unfold buildBodies at he
      rcases exbind_err he with he1 | ⟨s1, hs1, he2⟩
      · exact ⟨ctx, List.mem_cons_self _ _, buildBody_err aT ctx s e he1⟩
      · obtain ⟨ctx2, hm, hc⟩ := ih s1 e he2
        exact ⟨ctx2, List.mem_cons_of_mem _ hm, hc⟩

theorem buildBodies_ok_timing (aT : Bool) : ∀ (ctxs : List FuncCtx)
    (s : St) (s' : St), buildBodies aT ctxs s = .ok s' →
    s'.addedTiming = (s.addedTiming || ctxs.any (fun ctx =>
      aT && decide (ctx.funcName = "_main") && hasPrint ctx.instrs)) ∧
    (∀ ctx ∈ ctxs, (aT && decide (ctx.funcName = "_main")) = true →
      placedOk ctx.instrs = true) := by
  intro ctxs
  induction ctxs with
  | nil =>
      intro s s' hk
      simp only [buildBodies] at hk
      cases hk
      simp
  | cons ctx rest ih =>
      intro s s' hk
      unfold buildBodies at hk
      obtain ⟨s1, hs1, hk2⟩ := exbind_ok hk
      obtain ⟨h1, h2⟩ := buildBody_ok_timing aT ctx s s1 hs1
      obtain ⟨h3, h4⟩ := ih s1 s' hk2
      constructor
      · rw [h3, h1, List.any_cons, Bool.or_assoc]
      · intro ctx2 hm hx
        rcases List.mem_cons.1 hm with rfl | hm2
        · exact h2 hx
        · exact h4 ctx2 hm2 hx

theorem setupEntryArgs_err (args : List Argument) :
    ∀ (i : Nat) (h : Heap) (s : St) (e : CompileErr),
    setupEntryArgs args i h s = .error e →
    e ≠ .instrumentationPlacement ∧ e ≠ .timingMissing := by
  induction args with
  | nil =>
      intro i h s e he
      simp [setupEntryArgs] at he
  | cons a rest ih =>
      intro i h s e he
      unfold setupEntryArgs at he
      simp only [bind, Except.bind] at he
      cases hadd : h.add a.name a.argType s with
      | error e2 =>
          simp only [hadd] at he
          cases he
          rw [heap_add_err h a.name a.argType s _ hadd]
          exact ⟨by simp, by simp⟩
      | ok t =>
          simp only [hadd] at he
          obtain ⟨wp, h1, s1⟩ := t
          cases hpf : parseCallFor a.argType with
          | none =>
              simp only [hpf] at he
              cases he
              exact ⟨by simp, by simp⟩
          | some pf =>
              simp only [hpf] at he
              exact ih (i + 1) h1 _ e he

theorem buildEntryPoint_err (fns : List Func) (s : St) (e : CompileErr)
    (he : buildEntryPoint fns s = .error e) :
    e ≠ .instrumentationPlacement ∧ e ≠ .timingMissing := by
  unfold buildEntryPoint at he
  simp only [St.getFunction, St.addFunction, St.positionAtEnd, St.freshLabel,
    St.appendBlock] at he
  cases hgm : (s.funcs ++
      [("main", (⟨[.i32, .ptr], some .i32⟩ : FnType))]).lookup "_main" with
  | none =>
      rw [hgm] at he
      rcases exbind_err he with he1 | ⟨y, hy, he2⟩
      · cases he1
      · cases hy
        cases he2
  | some fty =>
      rw [hgm] at he
      cases hf : List.find? (fun f => decide (f.name = "main")) fns with
      | none =>
          rw [hf] at he
          rcases exbind_err he with he1 | ⟨y, hy, h2⟩
          · cases he1
            exact ⟨by simp, by simp⟩
          · cases hy
      | some f0 =>
          rw [hf] at he
          rcases exbind_err he with he1 | ⟨f1, hf1, he2⟩
          · cases he1
          · cases hf1
            rcases exbind_err he2 with he3 | ⟨t1, hg1, he4⟩
            · rw [getFn_err _ _ _ he3]
              exact ⟨by simp, by simp⟩
            · rcases exbind_err he4 with he5 | ⟨t2, hg2, he6⟩
              · rw [getFn_err _ _ _ he5]
                exact ⟨by simp, by simp⟩
              · rcases exbind_err he6 with he7 | ⟨t3, hg3, he8⟩
                · rw [getFn_err _ _ _ he7]
                  exact ⟨by simp, by simp⟩
                · rcases exbind_err he8 with he9 | ⟨p4, hsetup, he10⟩
                  · exact setupEntryArgs_err f0.args 0 Heap.new _ e he9
                  · obtain ⟨h4, s4⟩ := p4
                    rcases exbind_err he10 with he11 | ⟨s5, heff, he12⟩
                    · have hop : ∀ (vs : List Val) (s1 : St),
                          (∀ e2, (Except.ok ((s1.emitVal (fun r =>
                              LLOp.call r "_main" vs "call main")).2) :
                              Except CompileErr St) = .error e2 →
                            errSpec h4 (f0.args.map (fun a => a.name)) e2) ∧
                          (∀ s2, (Except.ok ((s1.emitVal (fun r =>
                              LLOp.call r "_main" vs "call main")).2) :
                              Except CompileErr St) = .ok s2 →
                            ∃ ops, Emits s1 ops s2 ∧ termFree ops = true) := by
                        intro vs s1
                        constructor
                        · intro e2 he2
                          cases he2
                        · intro s2 hk2
                          cases hk2
                          refine ⟨[LLOp.call s1.nextVal "_main" vs
                              "call main"], (emits_emitVal s1 (fun r =>
                              LLOp.call r "_main" vs "call main")).2, rfl⟩
                      have hes := (build_effect_op_spec h4 _
                          (f0.args.map (fun a => a.name)) s4
                          (f0.args.map (fun a => a.name))
                          (fun v hv => hv) hop).1 e he11
                      exact ⟨hes.1, hes.2.1⟩
                    · cases he12

/-! ## Claims C9 and C3 -/

/-- C9: for a function in which every variable referenced by any
instruction is either an argument name or the destination of a constant or
value instruction, the declaration phase (parameter stores plus the
destination pre-scan) registers a stack slot for every such variable
before the body is lowered, and lowering the body can therefore never fail
with `undeclaredVariable`. -/
theorem claim_C9 (f : Func) (s : St) (ctx : FuncCtx) (s' : St)
    (hdecl : declareFunction f s = .ok (ctx, s'))
    (hcov : ∀ v ∈ referencedVarsOfCodes f.instrs,
      v ∈ f.args.map (fun a => a.name) ∨ v ∈ destsOf f.instrs) :
    (∀ v, v ∈ f.args.map (fun a => a.name) ∨ v ∈ destsOf f.instrs →
      ctx.heap.map.lookup v ≠ none) ∧
    (∀ aT e, buildBody aT ctx s' = .error e →
      ∀ v, e ≠ .undeclaredVariable v) := by
  unfold declareFunction at hdecl
  obtain ⟨t1, ht1, hk2⟩ := exbind_ok hdecl
  obtain ⟨h1, s1⟩ := t1
  obtain ⟨t2, ht2, hk3⟩ := exbind_ok hk2
  obtain ⟨h2, s2⟩ := t2
  cases hk3
  obtain ⟨hargs, hmono1⟩ := storeParams_covers _ f.args _ _ _ _ _ ht1
  obtain ⟨hdest, hmono2⟩ := prescan_covers f.instrs _ _ _ _ ht2
  have hreg : ∀ v, v ∈ f.args.map (fun a => a.name) ∨
      v ∈ destsOf f.instrs → h2.map.lookup v ≠ none := by
    intro v hv
    rcases hv with hv | hv
    · obtain ⟨a, ha, rfl⟩ := List.mem_map.1 hv
      cases hl : h1.map.lookup a.name with
      | none => exact absurd hl (hargs a ha)
      | some w =>
          rw [hmono2 _ _ hl]
          simp
    · exact hdest v hv
  refine ⟨hreg, ?_⟩
  intro aT e he v hev
  subst hev
  obtain ⟨-, -, hund⟩ := buildBody_err aT _ _ _ he
  obtain ⟨hvmem, hvnone⟩ := hund v rfl
  exact hreg v (hcov v hvmem) hvnone

/-- Witness for C9 on the concrete function `egC9`. -/
theorem claim_C9_witness :
    ∃ ctx s', declareFunction egC9 initSt = .ok (ctx, s') ∧
      (∀ v, v ∈ egC9.args.map (fun a => a.name) ∨
          v ∈ destsOf egC9.instrs →
        ctx.heap.map.lookup v ≠ none) ∧
      (∀ aT e, buildBody aT ctx s' = .error e →
        ∀ v, e ≠ .undeclaredVariable v) := by
  refine ⟨_, _, rfl, claim_C9 egC9 initSt _ _ rfl (by decide)⟩

/-- C3: with timing instrumentation on, lowering succeeds only when the
entry function both contains a print and has every print either last or
immediately followed by a return (`timingOk`); conversely, whenever
`timingOk` holds for the entry function, instrumented lowering never fails
with either timing assertion. -/
theorem claim_C3 (prog : Program) (mainF : Func)
    (hm : mainF ∈ prog.functions) (hname : mainF.name = "main")
    (hnd : (prog.functions.map Func.name).Nodup)
    (hno : ∀ f ∈ prog.functions, f.name ≠ "_main") :
    (∀ st, create_module_from_program prog true = .ok st →
      timingOk mainF.instrs = true) ∧
    (timingOk mainF.instrs = true →
      ∀ e, create_module_from_program prog true = .error e →
        e ≠ .timingMissing ∧ e ≠ .instrumentationPlacement) := by
  constructor
  · intro st hk
    unfold create_module_from_program at hk
    obtain ⟨t1, ht1, hk2⟩ := exbind_ok hk
    obtain ⟨ctxs, s1⟩ := t1
    obtain ⟨s2, ht2, hk3⟩ := exbind_ok hk2
    obtain ⟨hF, hA1, -⟩ :=
      declareFunctions_basic prog.functions initSt ctxs s1 ht1
    obtain ⟨hA2, hPl⟩ := buildBodies_ok_timing true ctxs s1 s2 ht2
    cases hA : s2.addedTiming with
    | false =>
        rw [hA] at hk3
        simp [bind, Except.bind] at hk3
    | true =>
        rw [hA, hA1] at hA2
        have hany : ctxs.any (fun ctx =>
            true && decide (ctx.funcName = "_main") &&
              hasPrint ctx.instrs) = true := by
          simpa [initSt] using hA2.symm
        obtain ⟨ctx, hcm, hg⟩ := List.any_eq_true.1 hany
        simp only [Bool.and_eq_true, decide_eq_true_eq, true_and] at hg
        obtain ⟨f, hfm, hprops⟩ := forall2_mem_right2 hF ctx hcm
        have hfn : f.name = "main" := by
          by_contra hne
          have h5 : ctx.funcName = f.name := by
            rw [hprops.1, if_neg hne]
          exact hno f hfm (h5.symm.trans hg.1)
        have hfeq : f = mainF :=
          nodup_name_eq prog.functions hnd f mainF hfm hm
            (by rw [hfn, hname])
        have hhp : hasPrint mainF.instrs = true := by
          have := hg.2
          rw [hprops.2.1, hfeq] at this
          exact this
        obtain ⟨ctx2, hc2m, hq⟩ := forall2_mem_left2 hF mainF hm
        have hq1 : ctx2.funcName = "_main" := by
          rw [hq.1, hname, if_pos rfl]
        have hpo : placedOk mainF.instrs = true := by
          have := hPl ctx2 hc2m (by rw [hq1]; rfl)
          rw [hq.2.1] at this
          exact this
        unfold timingOk
        rw [hhp, hpo]
        rfl
  · intro hok e he
    have htOk := hok
    unfold timingOk at htOk
    rw [Bool.and_eq_true] at htOk
    unfold create_module_from_program at he
    rcases exbind_err he with he1 | ⟨t1, ht1, he2⟩
    · obtain ⟨v, rfl⟩ := declareFunctions_err prog.functions initSt e he1
      exact ⟨by simp, by simp⟩
    · obtain ⟨ctxs, s1⟩ := t1
      obtain ⟨hF, hA1, -⟩ :=
        declareFunctions_basic prog.functions initSt ctxs s1 ht1
      rcases exbind_err he2 with he3 | ⟨s2, ht2, he4⟩
      · obtain ⟨ctx, hcm, hnt, hnp, -⟩ :=
          buildBodies_err true ctxs s1 e he3
        refine ⟨hnt, ?_⟩
        apply hnp
        by_cases hfm2 : ctx.funcName = "_main"
        · right
          obtain ⟨f, hfm, hprops⟩ := forall2_mem_right2 hF ctx hcm
          have hfn : f.name = "main" := by
            by_contra hne
            have h5 : ctx.funcName = f.name := by
              rw [hprops.1, if_neg hne]
            exact hno f hfm (h5.symm.trans hfm2)
          have hfeq : f = mainF :=
            nodup_name_eq prog.functions hnd f mainF hfm hm
              (by rw [hfn, hname])
          rw [hprops.2.1, hfeq]
          exact htOk.2
        · left
          simp [hfm2]
      · obtain ⟨hA2, -⟩ := buildBodies_ok_timing true ctxs s1 s2 ht2
        have hadd : s2.addedTiming = true := by
          rw [hA2, hA1]
          obtain ⟨ctx2, hc2m, hq⟩ := forall2_mem_left2 hF mainF hm
          have hq1 : ctx2.funcName = "_main" := by
            rw [hq.1, hname, if_pos rfl]
          have hany : ctxs.any (fun ctx =>
              true && decide (ctx.funcName = "_main") &&
                hasPrint ctx.instrs) = true := by
            refine List.any_eq_true.2 ⟨ctx2, hc2m, ?_⟩
            rw [hq1, hq.2.1]
            simp [htOk.1]
          rw [hany]
          simp
        rw [hadd] at he4
        simp only [Bool.not_true, Bool.and_false, Bool.false_eq_true,
          if_false, bind, Except.bind] at he4
        obtain ⟨hp1, hp2⟩ := buildEntryPoint_err prog.functions s2 e he4
        exact ⟨hp2, hp1⟩

/-- Witness for C3 on the concrete program `egGoodTiming`. -/
theorem claim_C3_witness :
    (∀ st, create_module_from_program egGoodTiming true = .ok st →
      timingOk gMain.instrs = true) ∧
    (timingOk gMain.instrs = true →
      ∀ e, create_module_from_program egGoodTiming true = .error e →
        e ≠ .timingMissing ∧ e ≠ .instrumentationPlacement) :=
  claim_C3 egGoodTiming gMain (by decide) (by decide) (by decide)
    (by decide)

/-- Counterexample for C3 as stated: the entry function of `egEarlyPrint`
ends in a print, yet instrumented lowering aborts with the placement
assertion, because an earlier print is neither last nor followed by a
return. -/
theorem claim_C3_counterexample :
    ∃ mainF, egEarlyPrint.functions = [mainF] ∧ mainF.name = "main" ∧
      mainF.instrs.getLast?.map isPrintCode = some true ∧
      create_module_from_program egEarlyPrint true =
        .error .instrumentationPlacement := by
  exact ⟨_, rfl, rfl, rfl, rfl⟩

/-! ## Block well-formedness (claim C2) -/

theorem nodup_snd_inj {α β : Type} (l : List (α × β))
    (h : (l.map Prod.snd).Nodup) (p q : α × β) (hp : p ∈ l) (hq : q ∈ l)
    (he : p.2 = q.2) : p = q := by
  induction l with
  | nil => cases hp
  | cons a rest ih =>
      simp only [List.map_cons, List.nodup_cons] at h
      rcases List.mem_cons.1 hp with rfl | hp2
      · rcases List.mem_cons.1 hq with rfl | hq2
        · rfl
        · exact absurd (he ▸ List.mem_map_of_mem Prod.snd hq2) h.1
      · rcases List.mem_cons.1 hq with rfl | hq2
        · exact absurd (he ▸ List.mem_map_of_mem Prod.snd hp2) h.1
        · exact ih h.2 hp2 hq2

theorem labelsOf_append (a b : List Code) :
    labelsOf (a ++ b) = labelsOf a ++ labelsOf b := by
  induction a with
  | nil => simp [labelsOf]
  | cons c rest ih =>
      cases c with
      | label l => simp [labelsOf, ih]
      | instruction i => simp [labelsOf, ih]

theorem labelsOf_phi_nil (xs : List Code)
    (h : ∀ c ∈ xs, is_phi c = true) : labelsOf xs = [] := by
  induction xs with
  | nil => rfl
  | cons c rest ih =>
      cases c with
      | label l => cases h _ (List.mem_cons_self _ _)
      | instruction i =>
          exact ih fun c2 hc2 => h c2 (List.mem_cons_of_mem _ hc2)

theorem labelsOf_dropWhile_phi (l : List Code) :
    labelsOf (l.dropWhile is_phi) = labelsOf l := by
  conv_rhs => rw [← List.takeWhile_append_dropWhile (p := is_phi) (l := l)]
  rw [labelsOf_append,
    labelsOf_phi_nil _ (fun c hc => List.mem_takeWhile_imp hc),
    List.nil_append]

theorem bmInv_mono (bm : BlockMap) (s s2 : St) (h : bmInv bm s)
    (hle : s.nextBlock ≤ s2.nextBlock) : bmInv bm s2 :=
  ⟨fun e he => lt_of_lt_of_le (h.1 e he) hle, h.2⟩

theorem label_step (aT iM : Bool) (h : Heap) (fuel : Nat) (l : String)
    (rest : List Code) (last : Option Instruction) (bm : BlockMap)
    (s : St) :
    lowerCodesAux aT iM h (fuel + 1) (.label l :: rest) last bm s =
      if is_terminating_instr last then
        lowerCodesAux aT iM h fuel rest none (block_map_get bm l s).2.1
          ((block_map_get bm l s).2.2.positionAtEnd
            (block_map_get bm l s).1)
      else
        lowerCodesAux aT iM h fuel rest none (block_map_get bm l s).2.1
          ((((block_map_get bm l s).2.2).emit
              (.br (block_map_get bm l s).1)).positionAtEnd
            (block_map_get bm l s).1) := by
  cases hterm : is_terminating_instr last with
  | true =>
      simp [lowerCodesAux, isPrintCode, isInstructionCode, is_phi, bind,
        Except.bind, hterm]
  | false =>
      simp only [lowerCodesAux, isPrintCode, Bool.and_false,
        Bool.false_and, isInstructionCode, is_phi, bind, Except.bind,
        hterm, Bool.false_eq_true, if_false]
      rw [block_map_get_found _ l _ _ (block_map_get_lookup bm l s)]

theorem skip_step (iM : Bool) (h : Heap) (fuel : Nat) (c : Code)
    (rest : List Code) (last : Option Instruction) (bm : BlockMap)
    (s : St) (hc : isInstructionCode c = true)
    (hterm : is_terminating_instr last = true) :
    lowerCodesAux false iM h (fuel + 1) (c :: rest) last bm s =
      lowerCodesAux false iM h fuel rest last bm s := by
  conv_lhs => rw [lowerCodesAux.eq_def]
  simp [bind, Except.bind, hterm, hc]

theorem lowerCodesAux_wf (iM : Bool) (h : Heap) :
    ∀ (fuel : Nat) (codes : List Code) (last : Option Instruction)
      (bm : BlockMap) (s : St) (last' : Option Instruction)
      (bm' : BlockMap) (s' : St),
    codes.length ≤ fuel →
    lowerCodesAux false iM h fuel codes last bm s = .ok (last', bm', s') →
    (labelsOf codes).Nodup →
    wfSt last s → labelsClear codes bm s → bmInv bm s →
    s.keysLt → s.posOk →
    wfSt last' s' ∧ s'.keysLt ∧ s'.posOk ∧ s.nextBlock ≤ s'.nextBlock ∧
    (∀ b, b ≠ s.cur → (∀ p ∈ bm, p.2 ≠ b) → b < s.nextBlock →
      s'.blockOps b = s.blockOps b) ∧
    (s'.cur = s.cur ∨ ∃ p, p ∈ bm' ∧ p.2 = s'.cur) ∧
    (∀ p ∈ bm', p ∈ bm ∨ s.nextBlock ≤ p.2) ∧
    (∀ p ∈ bm, p ∈ bm') := by
  intro fuel
  induction fuel with
  | zero =>
      intro codes last bm s last' bm' s' hlen hk hnd hwf hclear hinv hkl hpo
      cases codes with
      | nil =>
          simp only [lowerCodesAux] at hk
          cases hk
          exact ⟨hwf, hkl, hpo, le_refl _, fun b _ _ _ => rfl, Or.inl rfl,
            fun p hp => Or.inl hp, fun p hp => hp⟩
      | cons c rest => simp at hlen
  | succ fuel ih =>
      intro codes last bm s last' bm' s' hlen hk hnd hwf hclear hinv hkl hpo
      cases codes with
      | nil =>
          simp only [lowerCodesAux] at hk
          cases hk
          exact ⟨hwf, hkl, hpo, le_refl _, fun b _ _ _ => rfl, Or.inl rfl,
            fun p hp => Or.inl hp, fun p hp => hp⟩
      | cons c rest =>
      have hlen2 : rest.length ≤ fuel := by
        simpa using Nat.le_of_succ_le_succ hlen
      cases c with
      | label l =>
          rw [label_step] at hk
          simp only [labelsOf, List.nodup_cons] at hnd
          obtain ⟨hlnot, hnd2⟩ := hnd
          cases hlk : bm.lookup l with
          | some b0 =>
              rw [block_map_get_found bm l s b0 hlk] at hk
              have hmem : (l, b0) ∈ bm := lookup_mem bm l b0 hlk
              obtain ⟨hcl0, hcne⟩ := hclear l
                (List.mem_cons_self l (labelsOf rest)) (l, b0) hmem rfl
              have hb0lt : b0 < s.nextBlock := hinv.1 (l, b0) hmem
              have hclr2 : ∀ (s2 : St), s2.cur = b0 →
                  (∀ p ∈ bm, p.2 ≠ s.cur →
                    s2.blockOps p.2 = s.blockOps p.2) →
                  labelsClear rest bm s2 := by
                intro s2 hc2 hops l2 hl2 p hp hp1
                obtain ⟨he0, hne0⟩ := hclear l2
                  (List.mem_cons_of_mem _ hl2) p hp hp1
                refine ⟨by rw [hops p hp hne0, he0], ?_⟩
                rw [hc2]
                intro hpb
                have hpeq : p = (l, b0) :=
                  nodup_snd_inj bm hinv.2 p (l, b0) hp hmem hpb
                rw [hpeq] at hp1
                cases hp1
                exact hlnot hl2
              cases hterm : is_terminating_instr last with
              | true =>
                  rw [hterm] at hk
                  simp only [if_true] at hk
                  obtain ⟨ihwf, ihkl, ihpo, ihmono, ihframe, ihcur, ihf,
                      ihg⟩ :=
                    ih rest none bm (s.positionAtEnd b0) last' bm' s'
                      hlen2 hk hnd2
                      ⟨hwf.1, fun _ => by
                        show termFree (s.blockOps b0) = true
                        rw [hcl0]
                        rfl⟩
                      (hclr2 (s.positionAtEnd b0) rfl
                        (fun p hp _ => rfl))
                      hinv hkl hb0lt
                  refine ⟨ihwf, ihkl, ihpo, ihmono, ?_, ?_, ihf, ihg⟩
                  · intro b hb hbm hlt
                    exact ihframe b (Ne.symm (hbm (l, b0) hmem)) hbm hlt
                  · rcases ihcur with hc | hc
                    · exact Or.inr ⟨(l, b0), ihg (l, b0) hmem, hc.symm⟩
                    · exact Or.inr hc
              | false =>
                  rw [hterm] at hk
                  simp only [Bool.false_eq_true, if_false] at hk
                  have hE : Emits s [.br b0] (s.emit (.br b0)) :=
                    emits_emit s (.br b0)
                  obtain ⟨ihwf, ihkl, ihpo, ihmono, ihframe, ihcur, ihf,
                      ihg⟩ :=
                    ih rest none bm
                      ((s.emit (.br b0)).positionAtEnd b0) last' bm' s'
                      hlen2 hk hnd2
                      ⟨by
                        intro b
                        by_cases hbc : b = s.cur
                        · show wfOps ((s.emit (.br b0)).blockOps b) = true
                          rw [hbc, hE.cur_ops, wfOps_concat]
                          exact hwf.2 hterm
                        · show wfOps ((s.emit (.br b0)).blockOps b) = true
                          rw [hE.other_ops b hbc]
                          exact hwf.1 b,
                       fun _ => by
                        show termFree ((s.emit (.br b0)).blockOps b0) = true
                        rw [hE.other_ops b0 hcne, hcl0]
                        rfl⟩
                      (hclr2 ((s.emit (.br b0)).positionAtEnd b0) rfl
                        (fun p hp hpne => hE.other_ops p.2 hpne))
                      hinv
                      (keysLt_pushOp s.blocks s.cur (.br b0) s.nextBlock
                        hkl hpo)
                      hb0lt
                  refine ⟨ihwf, ihkl, ihpo, ihmono, ?_, ?_, ihf, ihg⟩
                  · intro b hb hbm hlt
                    rw [ihframe b (Ne.symm (hbm (l, b0) hmem)) hbm hlt]
                    exact hE.other_ops b hb
                  · rcases ihcur with hc | hc
                    · exact Or.inr ⟨(l, b0), ihg (l, b0) hmem, hc.symm⟩
                    · exact Or.inr hc
          | none =>
              rw [block_map_get_new bm l s hlk] at hk
              have hops0 : s.blockOps s.nextBlock = [] := by
                show lookupOps s.blocks s.nextBlock = []
                unfold lookupOps
                rw [lookup_eq_none_of_keys s.blocks s.nextBlock
                  (fun p hp => Nat.ne_of_lt (hkl p hp))]
              have hEA : Emits s [] (s.appendBlock l).2 :=
                (emits_appendBlock s l).2.2
              have hopsA : (s.appendBlock l).2.blockOps s.nextBlock = [] :=
                by rw [hEA.nil_blockOps s.nextBlock]; exact hops0
              have hklA : (s.appendBlock l).2.keysLt := by
                intro p hp
                show p.1 < s.nextBlock + 1
                rcases List.mem_append.1 hp with hp | hp
                · exact Nat.lt_succ_of_lt (hkl p hp)
                · simp only [List.mem_singleton] at hp
                  subst hp
                  exact Nat.lt_succ_self _
              have hmem1 : (l, s.nextBlock) ∈ bm ++ [(l, s.nextBlock)] :=
                List.mem_append_right _ (List.mem_singleton.2 rfl)
              have hinv1 : ∀ (s2 : St), s2.nextBlock = s.nextBlock + 1 →
                  bmInv (bm ++ [(l, s.nextBlock)]) s2 := by
                intro s2 hs2
                constructor
                · intro p hp
                  rw [hs2]
                  rcases List.mem_append.1 hp with hp | hp
                  · exact Nat.lt_succ_of_lt (hinv.1 p hp)
                  · simp only [List.mem_singleton] at hp
                    subst hp
                    exact Nat.lt_succ_self _
                · rw [List.map_append]
                  refine List.nodup_append.2
                    ⟨hinv.2, List.nodup_singleton _, ?_⟩
                  intro a ha hb
                  simp only [List.map_singleton, List.mem_singleton] at hb
                  subst hb
                  simp only [List.mem_map] at ha
                  obtain ⟨p, hp, hp2⟩ := ha
                  exact absurd (hp2 ▸ hinv.1 p hp) (lt_irrefl _)
              have hclr3 : ∀ (s2 : St), s2.cur = s.nextBlock →
                  (∀ p ∈ bm, p.2 ≠ s.cur →
                    s2.blockOps p.2 = s.blockOps p.2) →
                  labelsClear rest (bm ++ [(l, s.nextBlock)]) s2 := by
                intro s2 hc2 hops l2 hl2 p hp hp1
                rcases List.mem_append.1 hp with hp | hp
                · obtain ⟨he0, hne0⟩ := hclear l2
                    (List.mem_cons_of_mem _ hl2) p hp hp1
                  refine ⟨by rw [hops p hp hne0, he0], ?_⟩
                  rw [hc2]
                  exact Nat.ne_of_lt (hinv.1 p hp)
                · simp only [List.mem_singleton] at hp
                  subst hp
                  cases hp1
                  exact absurd hl2 hlnot
              have hfr3 : ∀ (b : Nat), b ≠ s.cur →
                  (∀ p ∈ bm, p.2 ≠ b) → b < s.nextBlock →
                  (b ≠ s.nextBlock ∧
                    (∀ p ∈ bm ++ [(l, s.nextBlock)], p.2 ≠ b) ∧
                    b < s.nextBlock + 1) := by
                intro b hb hbm hlt
                refine ⟨Nat.ne_of_lt hlt, ?_, Nat.lt_succ_of_lt hlt⟩
                intro p hp
                rcases List.mem_append.1 hp with hp | hp
                · exact hbm p hp
                · simp only [List.mem_singleton] at hp
                  subst hp
                  exact Ne.symm (Nat.ne_of_lt hlt)
              cases hterm : is_terminating_instr last with
              | true =>
                  rw [hterm] at hk
                  simp only [if_true] at hk
                  obtain ⟨ihwf, ihkl, ihpo, ihmono, ihframe, ihcur, ihf,
                      ihg⟩ :=
                    ih rest none (bm ++ [(l, s.nextBlock)])
                      ((s.appendBlock l).2.positionAtEnd s.nextBlock)
                      last' bm' s' hlen2 hk hnd2
                      ⟨fun b => by
                        show wfOps ((s.appendBlock l).2.blockOps b) = true
                        rw [hEA.nil_blockOps b]
                        exact hwf.1 b,
                       fun _ => by
                        show termFree
                          ((s.appendBlock l).2.blockOps s.nextBlock) = true
                        rw [hopsA]
                        rfl⟩
                      (hclr3 ((s.appendBlock l).2.positionAtEnd s.nextBlock)
                        rfl (fun p hp _ => hEA.nil_blockOps p.2))
                      (hinv1 _ rfl) hklA (Nat.lt_succ_self _)
                  refine ⟨ihwf, ihkl, ihpo,
                    le_trans (Nat.le_succ _) ihmono, ?_, ?_, ?_, ?_⟩
                  · intro b hb hbm hlt
                    obtain ⟨h1, h2, h3⟩ := hfr3 b hb hbm hlt
                    rw [ihframe b h1 h2 h3]
                    exact hEA.nil_blockOps b
                  · rcases ihcur with hc | hc
                    · exact Or.inr ⟨(l, s.nextBlock), ihg _ hmem1, hc.symm⟩
                    · exact Or.inr hc
                  · intro p hp
                    rcases ihf p hp with hin | hge
                    · rcases List.mem_append.1 hin with hin | hin
                      · exact Or.inl hin
                      · simp only [List.mem_singleton] at hin
                        subst hin
                        exact Or.inr (le_refl _)
                    · exact Or.inr (le_trans (Nat.le_succ _) hge)
                  · exact fun p hp => ihg p (List.mem_append_left _ hp)
              | false =>
                  rw [hterm] at hk
                  simp only [Bool.false_eq_true, if_false] at hk
                  have hE : Emits (s.appendBlock l).2 [.br s.nextBlock]
                      ((s.appendBlock l).2.emit (.br s.nextBlock)) :=
                    emits_emit (s.appendBlock l).2 (.br s.nextBlock)
                  have hcurne : s.nextBlock ≠ s.cur :=
                    Ne.symm (Nat.ne_of_lt hpo)
                  obtain ⟨ihwf, ihkl, ihpo, ihmono, ihframe, ihcur, ihf,
                      ihg⟩ :=
                    ih rest none (bm ++ [(l, s.nextBlock)])
                      (((s.appendBlock l).2.emit
                        (.br s.nextBlock)).positionAtEnd s.nextBlock)
                      last' bm' s' hlen2 hk hnd2
                      ⟨fun b => by
                        show wfOps (((s.appendBlock l).2.emit
                          (.br s.nextBlock)).blockOps b) = true
                        by_cases hbc : b = s.cur
                        · rw [hbc]
                          have hco := hE.cur_ops
                          rw [show (s.appendBlock l).2.cur = s.cur from rfl]
                            at hco
                          rw [hco, hEA.nil_blockOps s.cur, wfOps_concat]
                          exact hwf.2 hterm
                        · rw [hE.other_ops b hbc, hEA.nil_blockOps b]
                          exact hwf.1 b,
                       fun _ => by
                        show termFree (((s.appendBlock l).2.emit
                          (.br s.nextBlock)).blockOps s.nextBlock) = true
                        rw [hE.other_ops s.nextBlock hcurne, hopsA]
                        rfl⟩
                      (hclr3 (((s.appendBlock l).2.emit
                          (.br s.nextBlock)).positionAtEnd s.nextBlock)
                        rfl (fun p hp hpne => by
                          show ((s.appendBlock l).2.emit
                            (.br s.nextBlock)).blockOps p.2 =
                            s.blockOps p.2
                          rw [hE.other_ops p.2 hpne]
                          exact hEA.nil_blockOps p.2))
                      (hinv1 _ rfl)
                      (keysLt_pushOp (s.appendBlock l).2.blocks s.cur
                        (.br s.nextBlock) (s.nextBlock + 1) hklA
                        (Nat.lt_succ_of_lt hpo))
                      (Nat.lt_succ_self _)
                  refine ⟨ihwf, ihkl, ihpo,
                    le_trans (Nat.le_succ _) ihmono, ?_, ?_, ?_, ?_⟩
                  · intro b hb hbm hlt
                    obtain ⟨h1, h2, h3⟩ := hfr3 b hb hbm hlt
                    rw [ihframe b h1 h2 h3]
                    exact (hE.other_ops b hb).trans (hEA.nil_blockOps b)
                  · rcases ihcur with hc | hc
                    · exact Or.inr ⟨(l, s.nextBlock), ihg _ hmem1, hc.symm⟩
                    · exact Or.inr hc
                  · intro p hp
                    rcases ihf p hp with hin | hge
                    · rcases List.mem_append.1 hin with hin | hin
                      · exact Or.inl hin
                      · simp only [List.mem_singleton] at hin
                        subst hin
                        exact Or.inr (le_refl _)
                    · exact Or.inr (le_trans (Nat.le_succ _) hge)
                  · exact fun p hp => ihg p (List.mem_append_left _ hp)
      | instruction i =>
          unfold lowerCodesAux at hk
          simp only [Bool.false_and, Bool.false_eq_true, if_false] at hk
          obtain ⟨s3, hs3, hk2⟩ := exbind_ok hk
          cases hs3
          cases hskip : is_terminating_instr last &&
              isInstructionCode (.instruction i) with
          | true =>
              rw [hskip] at hk2
              simp only [if_true] at hk2
              exact ih rest last bm s last' bm' s' hlen2 hk2 hnd hwf
                hclear hinv hkl hpo
          | false =>
              rw [hskip] at hk2
              simp only [Bool.false_eq_true, if_false] at hk2
              have hterm : is_terminating_instr last = false := by
                simpa [isInstructionCode] using hskip
              have htfcur : termFree (s.blockOps s.cur) = true :=
                hwf.2 hterm
              cases hphi : is_phi (Code.instruction i) with
              | true =>
                  rw [hphi] at hk2
                  simp only [if_true] at hk2
                  rcases exbind_ok hk2 with ⟨tpl, htpl, hk3⟩
                  obtain ⟨pairs, bm1, s1⟩ := tpl
                  rcases exbind_ok hk3 with ⟨s5, hs5, hk4⟩
                  obtain ⟨⟨ops1, hE1, hok1, htf1⟩, hprs, hgr⟩ :=
                    (buildPhis_spec h _ bm s).2 pairs bm1 s1 htpl
                  obtain ⟨hbmg, hkl1⟩ := hgr hkl hpo
                  obtain ⟨⟨ne, hbm1eq, hne⟩, hbminv1⟩ := hbmg
                  obtain ⟨ops2, hE2, hok2, htf2⟩ :=
                    (finishPhis_spec h pairs s1).2 s5 hs5
                  have hE : Emits s (ops1 ++ ops2) s5 := hE1.trans hE2
                  have htf : termFree (ops1 ++ ops2) = true := by
                    rw [termFree_append, htf1, htf2]
                    rfl
                  have hpo1 : s1.posOk := by
                    show s1.cur < s1.nextBlock
                    rw [hE1.cur_eq]
                    exact lt_of_lt_of_le hpo hE1.nextBlock_mono
                  have hkl5 : s5.keysLt := hE2.keys_lt hkl1 hpo1
                  have hpo5 : s5.posOk := by
                    show s5.cur < s5.nextBlock
                    rw [hE.cur_eq]
                    exact lt_of_lt_of_le hpo hE.nextBlock_mono
                  have hcurtf5 : termFree (s5.blockOps s5.cur) = true := by
                    rw [hE.cur_eq, hE.cur_ops, termFree_append, htfcur,
                      htf]
                    rfl
                  have hdlen : ((Code.instruction i ::
                      rest).dropWhile is_phi).length ≤ fuel := by
                    have hdw : (Code.instruction i :: rest).dropWhile
                        is_phi = rest.dropWhile is_phi := by
                      simp [List.dropWhile, hphi]
                    rw [hdw]
                    exact le_trans (dropWhile_length_le _ rest) hlen2
                  have hndd : (labelsOf ((Code.instruction i ::
                      rest).dropWhile is_phi)).Nodup := by
                    rw [labelsOf_dropWhile_phi]
                    exact hnd
                  obtain ⟨ihwf, ihkl, ihpo, ihmono, ihframe, ihcur, ihf,
                      ihg⟩ :=
                    ih _ _ bm1 s5 last' bm' s' hdlen hk4 hndd
                      ⟨fun b => by
                        by_cases hbc : b = s.cur
                        · rw [hbc, hE.cur_ops]
                          exact termFree_wfOps _ (by
                            rw [termFree_append, htfcur, htf]
                            rfl)
                        · rw [hE.other_ops b hbc]
                          exact hwf.1 b,
                       fun _ => hcurtf5⟩
                      (by
                        intro l2 hl2 p hp hp1
                        rw [labelsOf_dropWhile_phi] at hl2
                        rw [hbm1eq] at hp
                        rcases List.mem_append.1 hp with hp | hp
                        · obtain ⟨he0, hne0⟩ := hclear l2 hl2 p hp hp1
                          refine ⟨by rw [hE.other_ops p.2 hne0, he0], ?_⟩
                          rw [hE.cur_eq]
                          exact hne0
                        · obtain ⟨hge, hemp⟩ := hne p hp
                          have hpne1 : p.2 ≠ s1.cur := by
                            rw [hE1.cur_eq]
                            exact Ne.symm (Nat.ne_of_lt
                              (lt_of_lt_of_le hpo hge))
                          refine ⟨by rw [hE2.other_ops p.2 hpne1, hemp],
                            ?_⟩
                          rw [hE.cur_eq]
                          exact Ne.symm (Nat.ne_of_lt
                            (lt_of_lt_of_le hpo hge)))
                      (bmInv_mono bm1 s1 s5 (hbminv1 hinv)
                        hE2.nextBlock_mono)
                      hkl5 hpo5
                  refine ⟨ihwf, ihkl, ihpo,
                    le_trans hE.nextBlock_mono ihmono, ?_, ?_, ?_, ?_⟩
                  · intro b hb hbm hlt
                    have hbm1 : ∀ p ∈ bm1, p.2 ≠ b := by
                      intro p hp
                      rw [hbm1eq] at hp
                      rcases List.mem_append.1 hp with hp | hp
                      · exact hbm p hp
                      · exact Ne.symm (Nat.ne_of_lt
                          (lt_of_lt_of_le hlt (hne p hp).1))
                    rw [ihframe b (by rw [hE.cur_eq]; exact hb) hbm1
                      (lt_of_lt_of_le hlt hE.nextBlock_mono)]
                    exact hE.other_ops b hb
                  · rcases ihcur with hc | hc
                    · exact Or.inl (hc.trans hE.cur_eq)
                    · exact Or.inr hc
                  · intro p hp
                    rcases ihf p hp with hin | hge
                    · rw [hbm1eq] at hin
                      rcases List.mem_append.1 hin with hin | hin
                      · exact Or.inl hin
                      · exact Or.inr (hne p hin).1
                    · exact Or.inr (le_trans hE.nextBlock_mono hge)
                  · intro p hp
                    refine ihg p ?_
                    rw [hbm1eq]
                    exact List.mem_append_left _ hp
              | false =>
                  rw [hphi] at hk2
                  simp only [Bool.false_eq_true, if_false] at hk2
                  rcases exbind_ok hk2 with ⟨tpl, htpl, hk3⟩
                  obtain ⟨bm1, s1⟩ := tpl
                  obtain ⟨⟨ops, hE, hshape⟩, hgr⟩ :=
                    (build_instruction_spec i h bm s).2 bm1 s1 htpl
                  obtain ⟨⟨ne, hbm1eq, hne⟩, hbminv1⟩ := hgr hkl hpo
                  have hkl1 : s1.keysLt := hE.keys_lt hkl hpo
                  have hpo1 : s1.posOk := by
                    show s1.cur < s1.nextBlock
                    rw [hE.cur_eq]
                    exact lt_of_lt_of_le hpo hE.nextBlock_mono
                  have hwf1 : wfSt (some i) s1 := by
                    constructor
                    · intro b
                      by_cases hbc : b = s.cur
                      · rw [hbc, hE.cur_ops]
                        unfold opsShape at hshape
                        cases hti : is_terminating_instr (some i) with
                        | true =>
                            rw [hti] at hshape
                            simp only [if_true] at hshape
                            obtain ⟨pre, t, hops, htfpre, htt⟩ := hshape
                            rw [hops, ← List.append_assoc, wfOps_concat,
                              termFree_append, htfcur, htfpre]
                            rfl
                        | false =>
                            rw [hti] at hshape
                            simp only [Bool.false_eq_true, if_false]
                              at hshape
                            exact termFree_wfOps _ (by
                              rw [termFree_append, htfcur, hshape]
                              rfl)
                      · rw [hE.other_ops b hbc]
                        exact hwf.1 b
                    · intro hti
                      unfold opsShape at hshape
                      rw [hti] at hshape
                      simp only [Bool.false_eq_true, if_false] at hshape
                      rw [hE.cur_eq, hE.cur_ops, termFree_append, htfcur,
                        hshape]
                      rfl
                  obtain ⟨ihwf, ihkl, ihpo, ihmono, ihframe, ihcur, ihf,
                      ihg⟩ :=
                    ih rest (some i) bm1 s1 last' bm' s' hlen2 hk3 hnd
                      hwf1
                      (by
                        intro l2 hl2 p hp hp1
                        rw [hbm1eq] at hp
                        rcases List.mem_append.1 hp with hp | hp
                        · obtain ⟨he0, hne0⟩ := hclear l2 hl2 p hp hp1
                          refine ⟨by rw [hE.other_ops p.2 hne0, he0], ?_⟩
                          rw [hE.cur_eq]
                          exact hne0
                        · obtain ⟨hge, hemp⟩ := hne p hp
                          refine ⟨hemp, ?_⟩
                          rw [hE.cur_eq]
                          exact Ne.symm (Nat.ne_of_lt
                            (lt_of_lt_of_le hpo hge)))
                      (hbminv1 hinv) hkl1 hpo1
                  refine ⟨ihwf, ihkl, ihpo,
                    le_trans hE.nextBlock_mono ihmono, ?_, ?_, ?_, ?_⟩
                  · intro b hb hbm hlt
                    have hbm1 : ∀ p ∈ bm1, p.2 ≠ b := by
                      intro p hp
                      rw [hbm1eq] at hp
                      rcases List.mem_append.1 hp with hp | hp
                      · exact hbm p hp
                      · exact Ne.symm (Nat.ne_of_lt
                          (lt_of_lt_of_le hlt (hne p hp).1))
                    rw [ihframe b (by rw [hE.cur_eq]; exact hb) hbm1
                      (lt_of_lt_of_le hlt hE.nextBlock_mono)]
                    exact hE.other_ops b hb
                  · rcases ihcur with hc | hc
                    · exact Or.inl (hc.trans hE.cur_eq)
                    · exact Or.inr hc
                  · intro p hp
                    rcases ihf p hp with hin | hge
                    · rw [hbm1eq] at hin
                      rcases List.mem_append.1 hin with hin | hin
                      · exact Or.inl hin
                      · exact Or.inr (hne p hin).1
                    · exact Or.inr (le_trans hE.nextBlock_mono hge)
                  · intro p hp
                    refine ihg p ?_
                    rw [hbm1eq]
                    exact List.mem_append_left _ hp

theorem walkBody_wf (ctx : FuncCtx) (s : St) (last' : Option Instruction)
    (bm' : BlockMap) (s' : St)
    (hk : walkBody false ctx s = .ok (last', bm', s'))
    (hnd : (labelsOf ctx.instrs).Nodup) (hne : ctx.instrs ≠ [])
    (hwf : ∀ b, wfOps (s.blockOps b) = true)
    (hent : termFree (s.blockOps ctx.entry) = true)
    (hkl : s.keysLt) (hpe : ctx.entry < s.nextBlock) :
    wfSt last' s' ∧ s'.keysLt ∧ s'.posOk ∧ s.nextBlock ≤ s'.nextBlock ∧
    (∀ b, b ≠ ctx.entry → b < s.nextBlock →
      s'.blockOps b = s.blockOps b) ∧
    (s'.cur = ctx.entry ∨ s.nextBlock ≤ s'.cur) ∧
    (∀ p ∈ bm', s.nextBlock ≤ p.2) := by
  unfold walkBody at hk
  have hemp : ctx.instrs.isEmpty = false := by
    cases hi : ctx.instrs with
    | nil => exact absurd hi hne
    | cons a t => rfl
  rw [hemp] at hk
  simp only [Bool.false_eq_true, if_false] at hk
  have hpre : (false && decide (ctx.funcName = "_main")) = false :=
    Bool.false_and _
  rw [hpre] at hk
  simp only [Bool.false_eq_true, if_false] at hk
  rcases exbind_ok hk with ⟨s3, hs3, hk2⟩
  cases hs3
  obtain ⟨cwf, ckl, cpo, cmono, cframe, ccur, cf, cg⟩ :=
    lowerCodesAux_wf _ ctx.heap ctx.instrs.length ctx.instrs none []
      (s.positionAtEnd ctx.entry) last' bm' s' (le_refl _) hk2 hnd
      ⟨hwf, fun _ => hent⟩
      (fun l2 _ p hp => absurd hp (List.not_mem_nil p))
      ⟨fun p hp => absurd hp (List.not_mem_nil p), by simp⟩
      hkl hpe
  refine ⟨cwf, ckl, cpo, cmono, ?_, ?_, ?_⟩
  · intro b hb hlt
    exact cframe b hb (fun p hp => absurd hp (List.not_mem_nil p)) hlt
  · rcases ccur with hc | ⟨p, hp, hpc⟩
    · exact Or.inl hc
    · rcases cf p hp with hin | hge
      · exact absurd hin (List.not_mem_nil p)
      · exact Or.inr (hpc ▸ hge)
  · intro p hp
    rcases cf p hp with hin | hge
    · exact absurd hin (List.not_mem_nil p)
    · exact hge

theorem buildBody_wf (ctx : FuncCtx) (s : St) (s' : St)
    (hk : buildBody false ctx s = .ok s')
    (hnd : (labelsOf ctx.instrs).Nodup) (hne : ctx.instrs ≠ [])
    (hwf : ∀ b, wfOps (s.blockOps b) = true)
    (hent : termFree (s.blockOps ctx.entry) = true)
    (hkl : s.keysLt) (hpe : ctx.entry < s.nextBlock) :
    (∀ b, wfOps (s'.blockOps b) = true) ∧ s'.keysLt ∧
    s.nextBlock ≤ s'.nextBlock ∧
    (∀ b, b ≠ ctx.entry → b < s.nextBlock →
      s'.blockOps b = s.blockOps b) := by
  unfold buildBody at hk
  obtain ⟨t1, ht1, hk2⟩ := exbind_ok hk
  obtain ⟨last, bm, s1⟩ := t1
  obtain ⟨wwf, wkl, wpo, wmono, wframe, wcur, wbm⟩ :=
    walkBody_wf ctx s last bm s1 ht1 hnd hne hwf hent hkl hpe
  have hcurne : ∀ b, b ≠ ctx.entry → b < s.nextBlock → b ≠ s1.cur := by
    intro b hb hlt
    rcases wcur with hc | hc
    · rw [hc]
      exact hb
    · exact Nat.ne_of_lt (lt_of_lt_of_le hlt hc)
  cases hterm : is_terminating_instr last with
  | true =>
      simp only [hterm, if_true] at hk2
      cases hk2
      exact ⟨wwf.1, wkl, wmono, fun b hb hlt => wframe b hb hlt⟩
  | false =>
      simp only [hterm, Bool.false_eq_true, if_false] at hk2
      have hemitwf : ∀ (op : LLOp),
          (∀ b, wfOps ((s1.emit op).blockOps b) = true) ∧
          (s1.emit op).keysLt ∧
          s.nextBlock ≤ (s1.emit op).nextBlock ∧
          (∀ b, b ≠ ctx.entry → b < s.nextBlock →
            (s1.emit op).blockOps b = s.blockOps b) := by
        intro op
        have hE : Emits s1 [op] (s1.emit op) := emits_emit s1 op
        refine ⟨?_, hE.keys_lt wkl wpo, le_trans wmono hE.nextBlock_mono,
          ?_⟩
        · intro b
          by_cases hbc : b = s1.cur
          · rw [hbc, hE.cur_ops, wfOps_concat]
            exact wwf.2 hterm
          · rw [hE.other_ops b hbc]
            exact wwf.1 b
        · intro b hb hlt
          rw [hE.other_ops b (hcurne b hb hlt)]
          exact wframe b hb hlt
      cases hrt : ctx.returnType with
      | none =>
          rw [hrt] at hk2
          cases hk2
          exact hemitwf (.ret none)
      | some rt =>
          rw [hrt] at hk2
          cases bm with
          | nil => cases hk2
          | cons q rest2 =>
              cases hk2
              exact hemitwf (.br q.2)

theorem buildBodies_wf : ∀ (ctxs : List FuncCtx) (s : St) (s' : St),
    buildBodies false ctxs s = .ok s' →
    List.Pairwise (fun a b => a.entry ≠ FuncCtx.entry b) ctxs →
    (∀ ctx ∈ ctxs, (labelsOf ctx.instrs).Nodup ∧ ctx.instrs ≠ [] ∧
      termFree (s.blockOps ctx.entry) = true ∧
      ctx.entry < s.nextBlock) →
    (∀ b, wfOps (s.blockOps b) = true) → s.keysLt →
    (∀ b, wfOps (s'.blockOps b) = true) ∧ s'.keysLt ∧
      s.nextBlock ≤ s'.nextBlock := by
  intro ctxs
  induction ctxs with
  | nil =>
      intro s s' hk _ _ hwf hkl
      simp only [buildBodies] at hk
      cases hk
      exact ⟨hwf, hkl, le_refl _⟩
  | cons ctx rest ih =>
      intro s s' hk hpw hprops hwf hkl
      unfold buildBodies at hk
      obtain ⟨s1, hs1, hk2⟩ := exbind_ok hk
      obtain ⟨hnd, hne, hent, hlt⟩ := hprops ctx (List.mem_cons_self _ _)
      obtain ⟨bwf, bkl, bmono, bframe⟩ :=
        buildBody_wf ctx s s1 hs1 hnd hne hwf hent hkl hlt
      have hpw2 := List.pairwise_cons.1 hpw
      obtain ⟨ihwf, ihkl, ihmono⟩ := ih s1 s' hk2 hpw2.2
        (by
          intro c2 hc2
          obtain ⟨n2, e2, t2, l2⟩ :=
            hprops c2 (List.mem_cons_of_mem _ hc2)
          refine ⟨n2, e2, ?_, lt_of_lt_of_le l2 bmono⟩
          rw [bframe c2.entry (Ne.symm (hpw2.1 c2 hc2)) l2]
          exact t2)
        bwf bkl
      exact ⟨ihwf, ihkl, le_trans bmono ihmono⟩

theorem declareFunctions_wf : ∀ (fns : List Func) (s : St)
    (ctxs : List FuncCtx) (s' : St),
    declareFunctions fns s = .ok (ctxs, s') →
    s.keysLt → (∀ b, wfOps (s.blockOps b) = true) →
    (∀ b, wfOps (s'.blockOps b) = true) ∧ s'.keysLt ∧
    s.nextBlock ≤ s'.nextBlock ∧
    (∀ b, b < s.nextBlock → s'.blockOps b = s.blockOps b) ∧
    (∀ ctx ∈ ctxs, termFree (s'.blockOps ctx.entry) = true ∧
      s.nextBlock ≤ ctx.entry ∧ ctx.entry < s'.nextBlock) ∧
    List.Pairwise (fun a b => a.entry ≠ FuncCtx.entry b) ctxs := by
  intro fns
  induction fns with
  | nil =>
      intro s ctxs s' hk hkl hwf
      simp only [declareFunctions] at hk
      cases hk
      exact ⟨hwf, hkl, le_refl _, fun b _ => rfl, by simp,
        List.Pairwise.nil⟩
  | cons f rest ih =>
      intro s ctxs s' hk hkl hwf
      unfold declareFunctions at hk
      obtain ⟨t1, ht1, hk2⟩ := exbind_ok hk
      obtain ⟨ctx, s1⟩ := t1
      obtain ⟨t2, ht2, hk3⟩ := exbind_ok hk2
      obtain ⟨ctxs2, s2⟩ := t2
      cases hk3
      obtain ⟨-, -, -, -, -, -, hent, hnb, hcur, hother, hcond⟩ :=
        declareFunction_spec f s ctx s1 ht1
      obtain ⟨hentTF, hkl1, hpo1⟩ := hcond hkl
      have hwf1 : ∀ b, wfOps (s1.blockOps b) = true := by
        intro b
        by_cases hbe : b = ctx.entry
        · rw [hbe]
          exact termFree_wfOps _ hentTF
        · rw [hother b hbe]
          exact hwf b
      obtain ⟨ihwf, ihkl, ihmono, ihframe, ihprops, ihpw⟩ :=
        ih s1 ctxs2 s' ht2 hkl1 hwf1
      have hentlt : ctx.entry < s1.nextBlock := by
        rw [hent]
        exact hnb
      refine ⟨ihwf, ihkl, le_trans (le_of_lt (hent ▸ hnb)) ihmono,
        ?_, ?_, ?_⟩
      · intro b hb
        rw [ihframe b (lt_trans hb (hent ▸ hnb)),
          hother b (by rw [hent]; exact Nat.ne_of_lt hb)]
      · intro c2 hc2
        rcases List.mem_cons.1 hc2 with rfl | hc2
        · refine ⟨?_, le_of_eq hent.symm, lt_of_lt_of_le hentlt ihmono⟩
          rw [ihframe c2.entry hentlt]
          exact hentTF
        · obtain ⟨t2f, le2, lt2⟩ := ihprops c2 hc2
          exact ⟨t2f, le_trans (le_of_lt (hent ▸ hnb)) le2, lt2⟩
      · refine List.pairwise_cons.2 ⟨?_, ihpw⟩
        intro c2 hc2
        obtain ⟨-, le2, -⟩ := ihprops c2 hc2
        rw [hent]
        exact Nat.ne_of_lt (lt_of_lt_of_le hnb le2)

/-- C2: without timing instrumentation, an instruction met while the last
emitted instruction is a terminator is skipped outright (the step consumes
it and changes nothing), and lowering a whole program whose functions have
distinct labels and nonempty bodies yields a module in which every block
is free of operations after its terminator.  (As stated the claim is
wrong: with timing instrumentation the epilogue is emitted after a
terminating return, see the counterexample.) -/
theorem claim_C2 :
    (∀ (iM : Bool) (h : Heap) (fuel : Nat) (c : Code) (rest : List Code)
      (last : Option Instruction) (bm : BlockMap) (s : St),
      isInstructionCode c = true → is_terminating_instr last = true →
      lowerCodesAux false iM h (fuel + 1) (c :: rest) last bm s =
        lowerCodesAux false iM h fuel rest last bm s) ∧
    (∀ (prog : Program) (st : St),
      create_module_from_program prog false = .ok st →
      (∀ f ∈ prog.functions,
        (labelsOf f.instrs).Nodup ∧ f.instrs ≠ []) →
      ∀ b, wfOps (st.blockOps b) = true) := by
  constructor
  · intro iM h fuel c rest last bm s hc hterm
    exact skip_step iM h fuel c rest last bm s hc hterm
  · intro prog st hk hrq b
    unfold create_module_from_program at hk
    obtain ⟨t1, ht1, hk2⟩ := exbind_ok hk
    obtain ⟨ctxs, s1⟩ := t1
    obtain ⟨s2, ht2, hk3⟩ := exbind_ok hk2
    simp only [Bool.false_and, Bool.false_eq_true, if_false, bind,
      Except.bind] at hk3
    have hkl0 : initSt.keysLt :=
      fun p hp => absurd hp (List.not_mem_nil p)
    have hwf0 : ∀ b2, wfOps (initSt.blockOps b2) = true := fun b2 => rfl
    obtain ⟨dwf, dkl, dmono, dframe, dprops, dpw⟩ :=
      declareFunctions_wf prog.functions initSt ctxs s1 ht1 hkl0 hwf0
    obtain ⟨hF, -, -⟩ :=
      declareFunctions_basic prog.functions initSt ctxs s1 ht1
    obtain ⟨bwf, bkl, bmono⟩ := buildBodies_wf ctxs s1 s2 ht2 dpw
      (by
        intro ctx hc
        obtain ⟨f, hfm, hprops2⟩ := forall2_mem_right2 hF ctx hc
        obtain ⟨hfn, hfne⟩ := hrq f hfm
        obtain ⟨t2f, -, lt2⟩ := dprops ctx hc
        refine ⟨?_, ?_, t2f, lt2⟩
        · rw [hprops2.2.1]
          exact hfn
        · rw [hprops2.2.1]
          exact hfne)
      dwf dkl
    obtain ⟨-, hcond⟩ := buildEntryPoint_spec prog.functions s2 st hk3
    obtain ⟨ekl, eother, ewf⟩ := hcond bkl
    by_cases hbe : b = s2.nextBlock
    · rw [hbe]
      exact ewf
    · rw [eother b hbe]
      exact bwf b

/-- Witness for C2: the skip step at a concrete state, and a concrete
program all of whose lowered blocks are well formed. -/
theorem claim_C2_witness :
    (lowerCodesAux false false ⟨[]⟩ 1
        [.instruction (.constant "x" .const .int (.int 1))]
        (some (.effect [] [] [] .ret)) [] initSt =
      lowerCodesAux false false ⟨[]⟩ 0 []
        (some (.effect [] [] [] .ret)) [] initSt) ∧
    ∃ st, create_module_from_program egGoodTiming false = .ok st ∧
      wfOps (st.blockOps 0) = true :=
  ⟨claim_C2.1 false ⟨[]⟩ 0 _ [] _ [] initSt rfl rfl,
   _, rfl, claim_C2.2 egGoodTiming _ rfl (by decide) 0⟩

/-- Counterexample for C2 as stated: with timing instrumentation the
lowering of `egTimingDead` succeeds, yet its entry block carries the
timing epilogue after the `ret`, so a lowered block does contain
operations after its terminator. -/
theorem claim_C2_counterexample :
    ∃ st, create_module_from_program egTimingDead true = .ok st ∧
      wfOps (st.blockOps 0) = false ∧
      moduleBlocksWf (create_module_from_program egTimingDead true) =
        false := by
  exact ⟨_, rfl, rfl, rfl⟩

end Brillvm
